import Mathlib

/-!
Verification of the mdedit markdown editor core against its specification.

The development shallowly embeds the TypeScript sources:
  * `src/utils/markdown.ts` — markdown ⇄ html preprocessing, the comment
    embedding codec (`embedCommentsInMarkdown` / `extractCommentsFromMarkdown`);
  * `src/extensions/MermaidBlock.tsx` — `sanitizeSvg`;
  * `src/App.tsx` — the cross-editor synchronization handlers;
  * `src/stores/commentStore.ts` — the comment anchor store;
  * the mention picker's `addRecentPerson` session cache.

Strings are modelled as `List Char` (a JS string is a character sequence).
JavaScript library behaviour that the source calls into (`JSON.stringify`,
`JSON.parse`, `Date`, the DOM parser, regular-expression matching) is modelled
explicitly next to the functions that use it; each model carries a comment
keyed to the construct it reflects.
-/

namespace Mdedit

/-! ### Basic string (character list) utilities -/

/-- Bool test: `p` is a prefix of `l`. -/
def prefOf (p l : List Char) : Bool := l.take p.length == p

/-- Bool test: `p` occurs as a contiguous substring of `l`. -/
def hasSub (p l : List Char) : Bool :=
  match l with
  | [] => prefOf p []
  | _ :: t => prefOf p l || hasSub p t

/-- Split `l` at the first occurrence of `pat`, returning the part before the
occurrence and the part after it.  Mirrors how a JS regex engine locates the
leftmost match of a literal pattern. -/
def splitFirst (pat l : List Char) : Option (List Char × List Char) :=
  match l with
  | [] => if prefOf pat [] then some ([], []) else none
  | c :: t =>
    if prefOf pat l then some ([], l.drop pat.length)
    else (splitFirst pat t).map (fun pr => (c :: pr.1, pr.2))

/-- The JS whitespace class used by `String.prototype.trim` (the characters
relevant to this code base: space, tab, line feed, carriage return, vertical
tab, form feed, NBSP). -/
def jsWs (c : Char) : Bool :=
  c = ' ' || c = '\t' || c = '\n' || c = '\r' || c = '\x0b' || c = '\x0c' ||
  c = ' '

/-- Model of `String.prototype.trim`. -/
def jsTrim (l : List Char) : List Char :=
  ((l.dropWhile jsWs).reverse.dropWhile jsWs).reverse

theorem prefOf_iff (p l : List Char) : prefOf p l = true ↔ l.take p.length = p := by
  simp [prefOf]

theorem prefOf_pre (p l : List Char) : prefOf p l = true ↔ p <+: l := by
  rw [prefOf_iff]
  constructor
  · intro h; exact h ▸ List.take_prefix _ _
  · intro h; exact (List.prefix_iff_eq_take.mp h).symm

theorem hasSub_nil_pat (l : List Char) : hasSub [] l = true := by
  cases l <;> simp [hasSub, prefOf]

theorem hasSub_append_left (p a b : List Char) :
    hasSub p a = true → hasSub p (a ++ b) = true := by
  induction a with
  | nil =>
    intro h
    have hp : p = [] := by
      have := (prefOf_iff p []).mp (by simpa [hasSub] using h)
      simpa using this.symm
    subst hp
    simpa using hasSub_nil_pat b
  | cons c t ih =>
    intro h
    simp only [hasSub, Bool.or_eq_true] at h ⊢
    rcases h with h | h
    · exact Or.inl ((prefOf_pre _ _).mpr (((prefOf_pre _ _).mp h).trans ⟨b, rfl⟩))
    · exact Or.inr (ih h)

/-! ### C8 — the mention recency cache (`addRecentPerson`) -/

/-- `Person` from `services/peopleService.ts`:
`\x7b id, name, email, avatar? \x7d`. -/
structure Person where
  id : String
  name : String
  email : String
  avatar : Option String := none
deriving DecidableEq, Repr

/-- `MAX_RECENT` from the mention picker module. -/
def MAX_RECENT : Nat := 20

/-- `addRecentPerson` from the mention picker module:
`recentPeople = [person, ...recentPeople.filter((p) => p.id !== person.id)].slice(0, MAX_RECENT)`.
The module-level mutable list is passed explicitly. -/
def addRecentPerson (person : Person) (recentPeople : List Person) : List Person :=
  (person :: recentPeople.filter (fun p => p.id ≠ person.id)).take MAX_RECENT

/-- The cache obtained by a sequence of `addRecentPerson` calls starting from
the module's initial empty list. -/
def recentAfter (calls : List Person) : List Person :=
  calls.foldl (fun cache p => addRecentPerson p cache) []

theorem addRecentPerson_nodup (p : Person) (c : List Person)
    (h : (c.map Person.id).Nodup) :
    ((addRecentPerson p c).map Person.id).Nodup := by
  unfold addRecentPerson
  have hsub : (c.filter (fun q => q.id ≠ p.id)).map Person.id |>.Sublist (c.map Person.id) :=
    ((List.filter_sublist c).map Person.id)
  have hnd : ((c.filter (fun q => q.id ≠ p.id)).map Person.id).Nodup := hsub.nodup h
  have hmem : p.id ∉ (c.filter (fun q => q.id ≠ p.id)).map Person.id := by
    intro hmem
    rcases List.mem_map.mp hmem with ⟨q, hq, hid⟩
    rcases List.mem_filter.mp hq with ⟨_, hne⟩
    simp only [decide_eq_true_eq] at hne
    exact hne hid
  have : ((p :: c.filter (fun q => q.id ≠ p.id)).map Person.id).Nodup := by
    simpa [List.nodup_cons] using And.intro hmem hnd
  have htake : ((p :: c.filter (fun q => q.id ≠ p.id)).take MAX_RECENT).map Person.id
      |>.Sublist ((p :: c.filter (fun q => q.id ≠ p.id)).map Person.id) :=
    (List.take_sublist _ _).map Person.id
  exact htake.nodup this

theorem addRecentPerson_len (p : Person) (c : List Person) :
    (addRecentPerson p c).length ≤ MAX_RECENT := by
  unfold addRecentPerson
  exact List.length_take_le _ _

theorem addRecentPerson_head (p : Person) (c : List Person) :
    (addRecentPerson p c).head? = some p := by
  unfold addRecentPerson
  have : MAX_RECENT = 19 + 1 := by decide
  rw [this]
  rfl

theorem recentAfter_invariant (calls : List Person) :
    ((recentAfter calls).map Person.id).Nodup ∧ (recentAfter calls).length ≤ MAX_RECENT := by
  unfold recentAfter
  induction calls using List.reverseRecOn with
  | nil => simp
  | append_singleton qs q ih =>
    rw [List.foldl_append]
    exact ⟨addRecentPerson_nodup _ _ ih.1, addRecentPerson_len _ _⟩

/-- Claim C8: after every sequence of `addRecentPerson` calls, the mention
recency cache holds the most recently added person first, contains at most one
entry per person id, and never exceeds its bound of 20 entries. -/
theorem C8_recent_cache_invariant (calls : List Person) :
    ((recentAfter calls).map Person.id).Nodup ∧
    (recentAfter calls).length ≤ 20 ∧
    (∀ h : calls ≠ [], (recentAfter calls).head? = some (calls.getLast h)) := by
  refine ⟨(recentAfter_invariant calls).1, (recentAfter_invariant calls).2, ?_⟩
  intro h
  conv_lhs => rw [← List.dropLast_append_getLast h]
  unfold recentAfter
  rw [List.foldl_append]
  exact addRecentPerson_head _ _

/-- Witness for C8 at a concrete call sequence of length two. -/
theorem C8_recent_cache_invariant_witness :
    (recentAfter [⟨"a", "A", "", none⟩, ⟨"b", "B", "", none⟩]).head? =
      some ⟨"b", "B", "", none⟩ := by
  have h := C8_recent_cache_invariant [⟨"a", "A", "", none⟩, ⟨"b", "B", "", none⟩]
  exact h.2.2 (by decide)

/-! ### C7 — the edit-propagation guard in `App.tsx` -/

/-- The slice of `App` state touched by the two change handlers:
`isUpdatingRef.current`, the `markdown` state, the opposite editor's content
(reached through `markdownRef.current.setContent` / `wysiwygRef.current.setMarkdown`)
and the file store's `isDirty` flag. -/
structure AppSyncState where
  isUpdating : Bool
  markdown : List Char
  otherEditor : List Char
  isDirty : Bool
deriving DecidableEq, Repr

/-- `handleWysiwygChange` from `App.tsx`.  `refPresent` models
`markdownRef.current` being non-null; `setContentThrows` models the propagated
`markdownRef.current.setContent(newMarkdown)` call raising an exception, in
which case the exception propagates out of the handler (the source has no
`try`/`finally` around the flag).  An `Except.error` result carries the state
at the moment the exception escapes. -/
def handleWysiwygChange (refPresent setContentThrows : Bool) (newMarkdown : List Char)
    (s : AppSyncState) : Except AppSyncState AppSyncState :=
  if s.isUpdating then .ok s
  else
    let s1 : AppSyncState := { s with isUpdating := true, markdown := newMarkdown }
    if refPresent then
      if setContentThrows then .error s1
      else
        let s2 := { s1 with otherEditor := newMarkdown, isDirty := true }
        .ok { s2 with isUpdating := false }
    else
      .ok { s1 with isDirty := true, isUpdating := false }

/-- `handleMarkdownChange` from `App.tsx` — structurally identical, with the
propagated call being `wysiwygRef.current.setMarkdown(newMarkdown)`. -/
def handleMarkdownChange (refPresent setMarkdownThrows : Bool) (newMarkdown : List Char)
    (s : AppSyncState) : Except AppSyncState AppSyncState :=
  if s.isUpdating then .ok s
  else
    let s1 : AppSyncState := { s with isUpdating := true, markdown := newMarkdown }
    if refPresent then
      if setMarkdownThrows then .error s1
      else
        let s2 := { s1 with otherEditor := newMarkdown, isDirty := true }
        .ok { s2 with isUpdating := false }
    else
      .ok { s1 with isDirty := true, isUpdating := false }

/-- Counterexample to claim C7 as stated: with the guard initially free, a
throwing propagated update leaves `isUpdatingRef` held (`true`) when the
handler finishes — the flag is not released on the exception path. -/
theorem C7_counterexample :
    (handleWysiwygChange true true ['x'] ⟨false, [], [], false⟩ =
      .error ⟨true, ['x'], [], false⟩) ∧
    (handleMarkdownChange true true ['x'] ⟨false, [], [], false⟩ =
      .error ⟨true, ['x'], [], false⟩) := by
  constructor <;> rfl

/-- Claim C7, amended: when the handler acquires the guard (it was free on
entry) and the propagated cross-editor update does not throw, the flag is
released on completion; when the propagated update throws, the handler is
exited by the exception with the flag still held (there is no `try`/`finally`
in the source). -/
theorem C7_guard_release (refPresent throws : Bool) (newMarkdown : List Char)
    (s : AppSyncState) (hfree : s.isUpdating = false) :
    (∀ r, handleWysiwygChange refPresent throws newMarkdown s = .ok r →
      r.isUpdating = false) ∧
    (∀ e, handleWysiwygChange refPresent throws newMarkdown s = .error e →
      e.isUpdating = true) ∧
    (∀ r, handleMarkdownChange refPresent throws newMarkdown s = .ok r →
      r.isUpdating = false) ∧
    (∀ e, handleMarkdownChange refPresent throws newMarkdown s = .error e →
      e.isUpdating = true) := by
  unfold handleWysiwygChange handleMarkdownChange
  rw [hfree]
  cases refPresent <;> cases throws <;>
    refine ⟨?_, ?_, ?_, ?_⟩ <;> intro r h <;> simp_all <;> subst h <;> rfl

/-- Witness for C7's amended theorem at a concrete state. -/
theorem C7_guard_release_witness :
    (⟨false, [], [], false⟩ : AppSyncState).isUpdating = false ∧
    handleWysiwygChange true false ['x'] ⟨false, [], [], false⟩ =
      .ok ⟨false, ['x'], ['x'], true⟩ ∧
    (⟨false, ['x'], ['x'], true⟩ : AppSyncState).isUpdating = false :=
  ⟨rfl, rfl,
    (C7_guard_release true false ['x'] ⟨false, [], [], false⟩ rfl).1
      ⟨false, ['x'], ['x'], true⟩ rfl⟩

/-! ### C5 / C9 — `sanitizeSvg` from `MermaidBlock.tsx`

`sanitizeSvg` first hands its input to the browser's permissive HTML parser
(`DOMParser.parseFromString(svg, 'text/html')`) and then works on the DOM.
The DOM parser is a platform API, not repository code, so the parsed
`doc.body` children are passed in as an explicit argument and the DOM
manipulation is embedded over a tree type. -/

/-- A DOM node: an element with a tag name, an attribute list (name/value, in
order) and children, or a text node.  Tag and attribute names are taken as the
parser produced them (lower-cased for HTML content). -/
inductive HNode where
  | elem (tag : String) (attrs : List (String × String)) (kids : List HNode)
  | text (s : String)

/-- `DANGEROUS_ELEMENTS` from `MermaidBlock.tsx`. -/
def DANGEROUS_ELEMENTS : List String :=
  ["script", "style", "object", "embed", "iframe", "applet", "form", "input",
   "textarea", "select", "button", "link", "meta", "base"]

mutual

/-- Tree-order search for the first `svg` element at or below a node. -/
def svgInNode : HNode → Option HNode
  | HNode.text _ => none
  | HNode.elem tag attrs ks =>
    if tag = "svg" then some (HNode.elem tag attrs ks) else svgInList ks

/-- Tree-order search for the first `svg` element in a node list. -/
def svgInList : List HNode → Option HNode
  | [] => none
  | k :: ks =>
    match svgInNode k with
    | some e => some e
    | none => svgInList ks

end

/-- `doc.body.querySelector('svg')`: the first element with tag `svg` in tree
(pre-)order among the body's descendants. -/
def findFirstSvg (kids : List HNode) : Option HNode := svgInList kids

/-- An attribute whose name starts with `on` (`attr.name.startsWith('on')`). -/
def isOnAttr (a : String × String) : Bool := prefOf "on".data a.1.data

/-- An `href` / `xlink:href` attribute whose value, trimmed and lower-cased,
starts with `javascript:` or `data:`. -/
def badRef (a : String × String) : Bool :=
  (a.1 == "href" || a.1 == "xlink:href") &&
  (prefOf "javascript:".data ((jsTrim a.2.data).map Char.toLower) ||
   prefOf "data:".data ((jsTrim a.2.data).map Char.toLower))

/-- The attribute stripping applied to every element below the root: remove
every `on*` attribute, then remove unsafe `href` / `xlink:href`. -/
def stripAttrs (attrs : List (String × String)) : List (String × String) :=
  (attrs.filter (fun a => !(isOnAttr a))).filter (fun a => !(badRef a))

mutual

/-- The per-descendant sanitization: drop an element (with its whole subtree)
when its tag is on the deny-list (`svgEl.querySelectorAll(tag) … .remove()`),
otherwise strip its attributes (the `allElements.forEach` loop) and recurse.
The source removes deny-listed subtrees first and then walks the remaining
elements; the fused single pass produces the same tree. -/
def childSanitize : HNode → Option HNode
  | HNode.text s => some (HNode.text s)
  | HNode.elem tag attrs kids =>
    if tag ∈ DANGEROUS_ELEMENTS then none
    else some (HNode.elem tag (stripAttrs attrs) (childSanitizeList kids))

/-- `childSanitize` over a child list (dropped elements disappear). -/
def childSanitizeList : List HNode → List HNode
  | [] => []
  | k :: ks =>
    match childSanitize k with
    | none => childSanitizeList ks
    | some k' => k' :: childSanitizeList ks

end

/-- `el.setAttribute('width', '100%')`: replace the value in place if the
attribute exists, else append it. -/
def setAttr (attrs : List (String × String)) (k v : String) : List (String × String) :=
  if attrs.any (fun a => a.1 = k) then
    attrs.map (fun a => if a.1 = k then (k, v) else a)
  else attrs ++ [(k, v)]

/-- The root adjustments applied to the found `svg` element itself:
`setAttribute('width','100%')`, `removeAttribute('height')`,
`removeAttribute('style')`.  Note the root's other attributes are NOT
processed: the `querySelectorAll('*')` loop visits descendants only. -/
def adjustRoot (attrs : List (String × String)) : List (String × String) :=
  (setAttr attrs "width" "100%").filter (fun a => a.1 ≠ "height" ∧ a.1 ≠ "style")

/-- The DOM transformation `sanitizeSvg` performs on the found `svg` element. -/
def sanitizeSvgTree : HNode → HNode
  | HNode.text s => HNode.text s
  | HNode.elem tag attrs kids =>
    HNode.elem tag (adjustRoot attrs) (childSanitizeList kids)

mutual

/-- Serialization of a node back to markup (`svgEl.outerHTML`), with the
standard attribute-value and text escaping. -/
def printHtml : HNode → List Char
  | HNode.text s => s.data.flatMap (fun c =>
      if c = '&' then "&amp;".data else if c = '<' then "&lt;".data
      else if c = '>' then "&gt;".data else [c])
  | HNode.elem tag attrs kids =>
    '<' :: tag.data ++
      attrs.flatMap (fun a => ' ' :: a.1.data ++ '=' :: '"' ::
        (a.2.data.flatMap (fun c =>
          if c = '&' then "&amp;".data else if c = '"' then "&quot;".data else [c])) ++ ['"']) ++
      ['>'] ++ printHtmlList kids ++ '<' :: '/' :: tag.data ++ ['>']

/-- `printHtml` over a child list. -/
def printHtmlList : List HNode → List Char
  | [] => []
  | k :: ks => printHtml k ++ printHtmlList ks

end

/-- `sanitizeSvg` from `MermaidBlock.tsx`.  `bodyKids` is the children of
`doc.body` produced by the permissive HTML parse of `svg` (the `DOMParser`
platform call, passed in explicitly). -/
def sanitizeSvg (bodyKids : List HNode) (svg : List Char) : List Char :=
  match findFirstSvg bodyKids with
  | none => svg
  | some svgEl => printHtml (sanitizeSvgTree svgEl)

/-- An attribute list carries an `on*` attribute or an unsafe
(`javascript:` / `data:`) `href` / `xlink:href` value. -/
def unsafeAttrs (attrs : List (String × String)) : Bool :=
  attrs.any (fun a => isOnAttr a || badRef a)

mutual

/-- A node is an element with a deny-listed tag or with unsafe attributes, or
contains one. -/
def hasUnsafeNode : HNode → Bool
  | HNode.text _ => false
  | HNode.elem tag attrs kids =>
    decide (tag ∈ DANGEROUS_ELEMENTS) || unsafeAttrs attrs || hasUnsafeNodeList kids

/-- `hasUnsafeNode` over a list of nodes. -/
def hasUnsafeNodeList : List HNode → Bool
  | [] => false
  | k :: ks => hasUnsafeNode k || hasUnsafeNodeList ks

end

theorem unsafeAttrs_stripAttrs (attrs : List (String × String)) :
    unsafeAttrs (stripAttrs attrs) = false := by
  rw [unsafeAttrs, List.any_eq_false]
  intro a ha
  rcases List.mem_filter.mp ha with ⟨ha1, hbad⟩
  rcases List.mem_filter.mp ha1 with ⟨_, hon⟩
  simp only [Bool.not_eq_true'] at hbad hon
  simp [hon, hbad]

theorem stripAttrs_of_safe (attrs : List (String × String))
    (h : unsafeAttrs attrs = false) : stripAttrs attrs = attrs := by
  rw [unsafeAttrs, List.any_eq_false] at h
  unfold stripAttrs
  rw [List.filter_eq_self.mpr, List.filter_eq_self.mpr]
  · intro a ha
    have := h a ha
    simp only [Bool.or_eq_true, not_or, Bool.not_eq_true] at this
    simp [this.1]
  · intro a ha
    rcases List.mem_filter.mp ha with ⟨ha0, _⟩
    have := h a ha0
    simp only [Bool.or_eq_true, not_or, Bool.not_eq_true] at this
    simp [this.2]

mutual

theorem sanNode_safe (n : HNode) :
    ∀ n', childSanitize n = some n' → hasUnsafeNode n' = false := by
  cases n with
  | text s =>
    intro n' h
    simp only [childSanitize, Option.some.injEq] at h
    subst h; rfl
  | elem tag attrs kids =>
    intro n' h
    simp only [childSanitize] at h
    by_cases htag : tag ∈ DANGEROUS_ELEMENTS
    · simp [htag] at h
    · simp only [htag, if_false, Option.some.injEq] at h
      subst h
      simp [hasUnsafeNode, htag, unsafeAttrs_stripAttrs, sanList_safe kids]

theorem sanList_safe (l : List HNode) :
    hasUnsafeNodeList (childSanitizeList l) = false := by
  cases l with
  | nil => rfl
  | cons k ks =>
    simp only [childSanitizeList]
    cases hk : childSanitize k with
    | none => exact sanList_safe ks
    | some k' =>
      simp [hasUnsafeNodeList, sanNode_safe k k' hk, sanList_safe ks]

end

mutual

theorem sanNode_id (n : HNode) (h : hasUnsafeNode n = false) :
    childSanitize n = some n := by
  cases n with
  | text s => rfl
  | elem tag attrs kids =>
    simp only [hasUnsafeNode, Bool.or_eq_false_iff, decide_eq_false_iff_not] at h
    simp only [childSanitize, h.1.1, if_false,
      stripAttrs_of_safe attrs h.1.2, sanList_id kids h.2]

theorem sanList_id (l : List HNode) (h : hasUnsafeNodeList l = false) :
    childSanitizeList l = l := by
  cases l with
  | nil => rfl
  | cons k ks =>
    simp only [hasUnsafeNodeList, Bool.or_eq_false_iff] at h
    simp only [childSanitizeList, sanNode_id k h.1, sanList_id ks h.2]

end

/-- Counterexample to claim C5 as stated: `querySelectorAll('*')` visits only
the descendants of the found `svg` element, so an event-handler attribute on
the `svg` root itself survives sanitization — the sanitized output still
contains an `on*` attribute. -/
theorem C5_counterexample :
    hasUnsafeNode (sanitizeSvgTree
      (HNode.elem "svg" [("onload", "alert(1)")] [HNode.elem "rect" [] []])) = true := by
  rfl

/-- Claim C5, amended: for the element tree the permissive parse yields,
sanitization leaves no deny-listed element, no `on*` attribute and no
`javascript:`/`data:` `href`/`xlink:href` among the DESCENDANTS of the svg
root (the root's own attributes, apart from `width`/`height`/`style`, are
not processed), and when the input's descendants are already free of such
content the tree below the root is preserved unchanged. -/
theorem C5_sanitize_descendants (tag : String) (attrs : List (String × String))
    (kids : List HNode) :
    hasUnsafeNodeList (childSanitizeList kids) = false ∧
    (hasUnsafeNodeList kids = false →
      sanitizeSvgTree (HNode.elem tag attrs kids) =
        HNode.elem tag (adjustRoot attrs) kids) := by
  refine ⟨sanList_safe kids, fun h => ?_⟩
  simp only [sanitizeSvgTree, sanList_id kids h]

/-- Witness for C5's amended theorem at a concrete safe tree. -/
theorem C5_sanitize_descendants_witness :
    sanitizeSvgTree (HNode.elem "svg" [("height", "40")] [HNode.elem "rect" [("fill", "red")] []]) =
      HNode.elem "svg" (adjustRoot [("height", "40")]) [HNode.elem "rect" [("fill", "red")] []] :=
  (C5_sanitize_descendants "svg" [("height", "40")]
    [HNode.elem "rect" [("fill", "red")] []]).2 (by rfl)

/-- Claim C9: if the permissive HTML parse of the renderer's output yields no
`svg` element, `sanitizeSvg` returns its input string unchanged, skipping all
deny-list removal, attribute stripping and URI filtering. -/
theorem C9_no_svg_fallback (bodyKids : List HNode) (svg : List Char)
    (h : findFirstSvg bodyKids = none) : sanitizeSvg bodyKids svg = svg := by
  unfold sanitizeSvg
  rw [h]

/-- Witness for C9 at a concrete parse result with no svg element. -/
theorem C9_no_svg_fallback_witness :
    sanitizeSvg [HNode.elem "script" [] [HNode.text "evil()"]] "<script>evil()</script>".data
      = "<script>evil()</script>".data :=
  C9_no_svg_fallback _ _ (by rfl)

/-! ### JavaScript value models

`JsDate` models a `Date` object by its epoch-millisecond timestamp
(`none` = Invalid Date).  `Json` is the value universe of `JSON.parse` /
`JSON.stringify` (numbers keep their source numeral, which is all this code
base ever does with them — no numeric field exists in the comment model).
`JsVal` is the runtime value universe after decoding, where `Date` objects
appear. -/

/-- A JS `Date`: epoch milliseconds, or `none` for an Invalid Date. -/
def JsDate : Type := Option Int
deriving DecidableEq, Repr

/-- A JSON value.  `num` keeps the numeral text as lexed. -/
inductive Json where
  | null
  | bool (b : Bool)
  | str (s : String)
  | num (raw : String)
  | arr (xs : List Json)
  | obj (kvs : List (String × Json))

/-- A runtime JS value as produced by the comment decoding pipeline:
JSON values plus `Date` objects. -/
inductive JsVal where
  | null
  | bool (b : Bool)
  | str (s : String)
  | num (raw : String)
  | date (d : JsDate)
  | arr (xs : List JsVal)
  | obj (kvs : List (String × JsVal))

/-- Own-property lookup on a JS object modelled as an insertion-ordered
association list. -/
def getOwn (m : List (String × α)) (k : String) : Option α :=
  (m.find? (fun e => e.1 == k)).map (fun e => e.2)

/-- Property assignment semantics of computed keys in object literals and of
`JSON.parse` object building: overwrite in place if the key exists, append
otherwise. -/
def setOwn (m : List (String × α)) (k : String) (v : α) : List (String × α) :=
  if m.any (fun e => e.1 == k) then
    m.map (fun e => if e.1 == k then (k, v) else e)
  else m ++ [(k, v)]

/-- Object-literal construction with spreads: insert the pairs left to right
(`\x7b...a, ...b\x7d` keeps the first position of a repeated key and its last
value). -/
def mergePairs (ps : List (String × JsVal)) : List (String × JsVal) :=
  ps.foldl (fun acc e => setOwn acc e.1 e.2) []

/-- The own enumerable properties contributed by a spread `\x7b...v\x7d`:
objects give their entries, arrays and strings give index keys, everything
else (including `Date` objects, whose properties live in internal slots)
gives nothing. -/
def spreadOwn : JsVal → List (String × JsVal)
  | JsVal.obj kvs => kvs
  | JsVal.arr xs => xs.enum.map (fun e => (toString e.1, e.2))
  | JsVal.str s => s.data.enum.map (fun e => (toString e.1, JsVal.str (String.mk [e.2])))
  | _ => []

/-- Property access `v.k` for the (non-numeric) keys this code reads; on
non-objects these are all `undefined` (`none`).  `null` receivers are handled
at each call site, where the access throws. -/
def vGet (v : JsVal) (k : String) : Option JsVal :=
  match v with
  | JsVal.obj kvs => getOwn kvs k
  | _ => none

/-- JS truthiness of a `JsVal` (`Date` objects are always truthy; a JSON
numeral is falsy exactly when it denotes zero, i.e. has no nonzero digit). -/
def jsTruthyV : JsVal → Bool
  | JsVal.null => false
  | JsVal.bool b => b
  | JsVal.str s => !s.isEmpty
  | JsVal.num raw => raw.data.any (fun c => '1' ≤ c && c ≤ '9')
  | JsVal.date _ => true
  | JsVal.arr _ => true
  | JsVal.obj _ => true

/-! ### More list toolkit: occurrence reasoning for literal patterns -/

theorem hasSub_parts (p l : List Char) :
    hasSub p l = true ↔ ∃ s t, l = s ++ p ++ t := by
  induction l with
  | nil =>
    simp only [hasSub]
    constructor
    · intro h
      have : p = [] := by simpa using (prefOf_iff p []).mp h
      exact ⟨[], [], by simp [this]⟩
    · rintro ⟨s, t, h⟩
      have hs : s = [] ∧ p ++ t = [] := by simpa using h.symm
      have hp : p = [] := by
        rcases List.append_eq_nil.mp hs.2 with ⟨h1, _⟩
        exact h1
      simp [prefOf, hp]
  | cons c tl ih =>
    simp only [hasSub, Bool.or_eq_true]
    constructor
    · rintro (h | h)
      · rcases (prefOf_pre _ _).mp h with ⟨t, ht⟩
        exact ⟨[], t, by simp [← ht]⟩
      · rcases ih.mp h with ⟨s, t, ht⟩
        exact ⟨c :: s, t, by simp [ht]⟩
    · rintro ⟨s, t, ht⟩
      cases s with
      | nil =>
        left
        exact (prefOf_pre _ _).mpr ⟨t, by simpa using ht.symm⟩
      | cons d s' =>
        right
        refine ih.mpr ⟨s', t, ?_⟩
        have := ht
        simp only [List.cons_append] at this
        exact (List.cons.injEq _ _ _ _ ▸ this).2

theorem hasSub_trans (p q l : List Char) (h1 : hasSub p q = true)
    (h2 : hasSub q l = true) : hasSub p l = true := by
  rcases (hasSub_parts p q).mp h1 with ⟨s1, t1, rfl⟩
  rcases (hasSub_parts _ l).mp h2 with ⟨s2, t2, rfl⟩
  exact (hasSub_parts p _).mpr ⟨s2 ++ s1, t1 ++ t2, by simp⟩

theorem hasSub_of_pref_drop (p l : List Char) (i : Nat)
    (h : prefOf p (l.drop i) = true) : hasSub p l = true := by
  rcases (prefOf_pre _ _).mp h with ⟨t, ht⟩
  refine (hasSub_parts p l).mpr ⟨l.take i, t, ?_⟩
  conv_lhs => rw [← List.take_append_drop i l, ← ht]
  simp

theorem takeIsPre (n : Nat) (l : List α) : l.take n <+: l :=
  ⟨l.drop n, List.take_append_drop n l⟩

/-- Splitting an occurrence that starts inside the left part of an append:
either the pattern lies wholly inside `a`, or a nonempty suffix `s` of `a`
starts the pattern and the nonempty rest `t` is a prefix of `b`. -/
theorem pref_drop_split (p a b : List Char) (i : Nat) (hi : i < a.length)
    (h : prefOf p ((a ++ b).drop i) = true) :
    hasSub p a = true ∨
    (∃ s t, s ≠ [] ∧ t ≠ [] ∧ p = s ++ t ∧ (∃ a0, a = a0 ++ s) ∧ prefOf t b = true) := by
  have hd : (a ++ b).drop i = a.drop i ++ b := by
    rw [List.drop_append_eq_append_drop]
    have h0 : i - a.length = 0 := by omega
    rw [h0, List.drop_zero]
  rw [hd] at h
  have hpre : p <+: a.drop i ++ b := (prefOf_pre _ _).mp h
  have hplen : p.length ≤ (a.drop i).length + b.length := by
    have := hpre.length_le
    simpa using this
  have heq : p = (a.drop i ++ b).take p.length := List.prefix_iff_eq_take.mp hpre
  rw [List.take_append_eq_append_take] at heq
  by_cases hlen : p.length ≤ (a.drop i).length
  · left
    have hz : p.length - (a.drop i).length = 0 := by omega
    rw [hz, List.take_zero, List.append_nil] at heq
    have hp : p <+: a.drop i := heq ▸ takeIsPre _ _
    exact hasSub_of_pref_drop p a i ((prefOf_pre _ _).mpr hp)
  · right
    push_neg at hlen
    have hx : (a.drop i).take p.length = a.drop i :=
      List.take_of_length_le (le_of_lt hlen)
    rw [hx] at heq
    refine ⟨a.drop i, b.take (p.length - (a.drop i).length), ?_, ?_, heq,
      ⟨a.take i, (List.take_append_drop i a).symm⟩, ?_⟩
    · intro hnil
      have := congrArg List.length hnil
      simp only [List.length_drop, List.length_nil] at this
      omega
    · intro hnil
      have := congrArg List.length hnil
      simp only [List.length_take, List.length_nil] at this
      have hld : (a.drop i).length = a.length - i := by simp
      omega
    · exact (prefOf_pre _ _).mpr (takeIsPre _ _)

/-- A literal pattern occurring nowhere before position `a.length` is found
by leftmost search exactly at the seam of `a ++ pat ++ b`. -/
theorem splitFirst_marker (pat a b : List Char) (hpat : pat ≠ [])
    (habs : ∀ i, i < a.length → prefOf pat ((a ++ (pat ++ b)).drop i) = false) :
    splitFirst pat (a ++ (pat ++ b)) = some (a, b) := by
  induction a with
  | nil =>
    simp only [List.nil_append]
    cases pat with
    | nil => exact absurd rfl hpat
    | cons pc pt =>
      rw [List.cons_append, splitFirst]
      have hpre : prefOf (pc :: pt) (pc :: (pt ++ b)) = true :=
        (prefOf_pre _ _).mpr ⟨b, by simp⟩
      rw [if_pos hpre]
      simp [List.drop_left']
  | cons c t ih =>
    have h0 : prefOf pat (c :: (t ++ (pat ++ b))) = false := by
      have := habs 0 (by simp)
      simpa using this
    have step : splitFirst pat (c :: (t ++ (pat ++ b))) =
        (splitFirst pat (t ++ (pat ++ b))).map (fun pr => (c :: pr.1, pr.2)) := by
      rw [splitFirst, if_neg (by simp [h0])]
    have hrec := ih (fun i hi => by
      have := habs (i + 1) (by simp; omega)
      simpa using this)
    rw [List.cons_append, step, hrec]
    rfl

/-! ### C2 — diagram-source escaping in `markdown.ts`

`markdownToHtml`'s first phase replaces every ```` ```mermaid ```` fence with a
`<div data-type="mermaid" data-code="…">` carrying the escaped source;
`htmlToMarkdown`'s turndown rule emits the fence back from the (decoded)
`data-code` attribute.  The fence regex
`/```\s*mermaid\s*\n([\s\S]*?)\n?```/gi` is modelled literally, including its
lazy capture and the `\n?` absorption before the closing fence. -/

/-- `escapeHtmlAttr` from `markdown.ts`.  The source chains six
`String.replace` calls (`&`, `"`, `<`, `>`, `\n`, `\r`, in that order); since
no replacement text contains a later target and `&` is replaced first, the
chain equals this single character map. -/
def escAttrChar (c : Char) : List Char :=
  if c = '&' then "&amp;".data
  else if c = '"' then "&quot;".data
  else if c = '<' then "&lt;".data
  else if c = '>' then "&gt;".data
  else if c = '\n' then "&#10;".data
  else if c = '\r' then "&#13;".data
  else [c]

/-- `escapeHtmlAttr` applied to a whole string. -/
def escapeHtmlAttr (l : List Char) : List Char := l.flatMap escAttrChar

/-- The HTML attribute-value decoding the DOM parser applies when
`getAttribute('data-code')` is later read back ("unescaped on structural
extraction"); modelled for the six entities `escapeHtmlAttr` emits, with
unknown `&` sequences passed through as literal text. -/
def unescGo : Nat → List Char → List Char
  | 0, l => l
  | _ + 1, [] => []
  | fuel + 1, c :: r =>
    if c = '&' then
      if prefOf "amp;".data r then '&' :: unescGo fuel (r.drop 4)
      else if prefOf "quot;".data r then '"' :: unescGo fuel (r.drop 5)
      else if prefOf "lt;".data r then '<' :: unescGo fuel (r.drop 3)
      else if prefOf "gt;".data r then '>' :: unescGo fuel (r.drop 3)
      else if prefOf "#10;".data r then '\n' :: unescGo fuel (r.drop 4)
      else if prefOf "#13;".data r then '\r' :: unescGo fuel (r.drop 4)
      else '&' :: unescGo fuel r
    else c :: unescGo fuel r

/-- Decode a whole attribute value (each step emits one character, so the
input length bounds the step count). -/
def unescapeHtmlAttr (l : List Char) : List Char := unescGo l.length l

/-- Attribute-value safety: no character that could terminate the quoted
attribute or the tag, and no raw line break (these would break `marked`'s
single-line HTML block parsing). -/
def attrSafe (l : List Char) : Bool :=
  l.all (fun c => !(c = '"' || c = '<' || c = '>' || c = '\n' || c = '\r'))

/-- Index of the last `'\n'` in a list. -/
def lastNl : List Char → Option Nat
  | [] => none
  | c :: t =>
    match lastNl t with
    | some i => some (i + 1)
    | none => if c = '\n' then some 0 else none

/-- The fence-open match of `/```\s*mermaid\s*\n([\s\S]*?)\n?```/i` at the
start of `l`: `\s*` before `mermaid` must reach the literal `mermaid`
(case-insensitive); the `\s*\n` after it ends at the last newline of the
whitespace run (greedy `\s*` backtracking so the literal `\n` matches); the
lazy capture ends at the first following ```` ``` ````, with one directly
preceding newline absorbed by `\n?`.  Returns the raw capture and the text
after the match. -/
def matchMermaidAt (l : List Char) : Option (List Char × List Char) :=
  if prefOf "```".data l then
    let u1 := (l.drop 3).dropWhile jsWs
    if prefOf "mermaid".data ((u1.take 7).map Char.toLower) then
      let u2 := u1.drop 7
      let w := u2.takeWhile jsWs
      match lastNl w with
      | none => none
      | some j =>
        let body := u2.drop (j + 1)
        match splitFirst "```".data body with
        | none => none
        | some (before, after) =>
          let code := if before.getLast? = some '\n' then before.dropLast else before
          some (code, after)
    else none
  else none

/-- The replacement emitted for a matched fence: the capture is trimmed
(`code.trim()`), escaped, and placed in the div's `data-code` attribute. -/
def mermaidDiv (code : List Char) : List Char :=
  "<div data-type=\"mermaid\" data-code=\"".data ++ escapeHtmlAttr (jsTrim code) ++
    "\">mermaid</div>".data

/-- The global replace loop of phase 1 (`markdown.replace(/…/gi, …)`): scan
left to right, replace each match and continue after it.  `fuel` bounds the
scan (every step consumes at least one input character). -/
def mermaidGo : Nat → List Char → List Char
  | 0, l => l
  | _ + 1, [] => []
  | fuel + 1, c :: t =>
    match matchMermaidAt (c :: t) with
    | some (code, rest) => mermaidDiv code ++ mermaidGo fuel rest
    | none => c :: mermaidGo fuel t

/-- Phase 1 of `markdownToHtml`: the mermaid-fence replacement pass. -/
def mermaidPass (l : List Char) : List Char := mermaidGo l.length l

/-- The serialization turndown's `mermaidBlock` rule emits for a mermaid div
whose (decoded) `data-code` attribute is `code`:
`` `\n``` + "mermaid" + `\n${code}\n` + ``` + `\n` ``. -/
def mermaidToMarkdown (code : List Char) : List Char :=
  '\n' :: "```mermaid\n".data ++ code ++ '\n' :: "```\n".data

theorem prefOf_self_append (p x : List Char) : prefOf p (p ++ x) = true :=
  (prefOf_pre _ _).mpr ⟨x, rfl⟩

theorem prefOf_append_left (p A R : List Char) (h : p.length ≤ A.length) :
    prefOf p (A ++ R) = prefOf p A := by
  unfold prefOf
  rw [List.take_append_eq_append_take]
  have h0 : p.length - A.length = 0 := by omega
  rw [h0, List.take_zero, List.append_nil]

theorem prefOf_take_of_append (p A R : List Char) (h : prefOf p (A ++ R) = true) :
    prefOf (p.take A.length) A = true := by
  have hp := (prefOf_pre _ _).mp h
  have h1 : p.take A.length = (A ++ R).take (min A.length p.length) := by
    conv_lhs => rw [List.prefix_iff_eq_take.mp hp]
    rw [List.take_take]
  rw [List.take_append_eq_append_take] at h1
  have h0 : min A.length p.length - A.length = 0 := by omega
  rw [h0, List.take_zero, List.append_nil] at h1
  exact (prefOf_pre _ _).mpr (h1 ▸ takeIsPre _ _)

/-- Discharge a leftover `prefOf` test against a different concrete entity:
the mismatch already shows inside the concrete part `A`. -/
theorem notPref (p A R : List Char)
    (hfalse : prefOf (p.take A.length) A = false) : ¬ prefOf p (A ++ R) = true := by
  intro hc
  rw [prefOf_take_of_append p A R hc] at hfalse
  exact absurd hfalse (by decide)

theorem unescGo_esc (l : List Char) : ∀ (tail : List Char) (fuel : Nat),
    unescGo (l.length + fuel) (escapeHtmlAttr l ++ tail) = l ++ unescGo fuel tail := by
  induction l with
  | nil =>
    intro tail fuel
    rw [show ([] : List Char).length + fuel = fuel from by simp]
    rfl
  | cons c t ih =>
    intro tail fuel
    have harith : (c :: t).length + fuel = (t.length + fuel) + 1 := by
      simp only [List.length_cons]
      omega
    rw [harith]
    have hstep : escapeHtmlAttr (c :: t) ++ tail =
        escAttrChar c ++ (escapeHtmlAttr t ++ tail) := by
      show (escAttrChar c ++ escapeHtmlAttr t) ++ tail = _
      simp
    rw [hstep]
    by_cases h1 : c = '&'
    · subst h1
      have hd : escAttrChar '&' ++ (escapeHtmlAttr t ++ tail) =
          '&' :: ("amp;".data ++ (escapeHtmlAttr t ++ tail)) := rfl
      rw [hd, unescGo]
      rw [if_pos rfl, if_pos (prefOf_self_append _ _), List.drop_left' (by decide)]
      rw [ih tail fuel]
      rfl
    by_cases h2 : c = '"'
    · subst h2
      have hd : escAttrChar '"' ++ (escapeHtmlAttr t ++ tail) =
          '&' :: ("quot;".data ++ (escapeHtmlAttr t ++ tail)) := rfl
      rw [hd, unescGo, if_pos rfl]
      rw [if_neg (notPref _ _ _ (by decide))]
      rw [if_pos (prefOf_self_append _ _), List.drop_left' (by decide)]
      rw [ih tail fuel]
      rfl
    by_cases h3 : c = '<'
    · subst h3
      have hd : escAttrChar '<' ++ (escapeHtmlAttr t ++ tail) =
          '&' :: ("lt;".data ++ (escapeHtmlAttr t ++ tail)) := rfl
      rw [hd, unescGo, if_pos rfl]
      rw [if_neg (notPref _ _ _ (by decide)), if_neg (notPref _ _ _ (by decide))]
      rw [if_pos (prefOf_self_append _ _), List.drop_left' (by decide)]
      rw [ih tail fuel]
      rfl
    by_cases h4 : c = '>'
    · subst h4
      have hd : escAttrChar '>' ++ (escapeHtmlAttr t ++ tail) =
          '&' :: ("gt;".data ++ (escapeHtmlAttr t ++ tail)) := rfl
      rw [hd, unescGo, if_pos rfl]
      rw [if_neg (notPref _ _ _ (by decide)), if_neg (notPref _ _ _ (by decide)),
        if_neg (notPref _ _ _ (by decide))]
      rw [if_pos (prefOf_self_append _ _), List.drop_left' (by decide)]
      rw [ih tail fuel]
      rfl
    by_cases h5 : c = '\n'
    · subst h5
      have hd : escAttrChar '\n' ++ (escapeHtmlAttr t ++ tail) =
          '&' :: ("#10;".data ++ (escapeHtmlAttr t ++ tail)) := rfl
      rw [hd, unescGo, if_pos rfl]
      rw [if_neg (notPref _ _ _ (by decide)), if_neg (notPref _ _ _ (by decide)),
        if_neg (notPref _ _ _ (by decide)), if_neg (notPref _ _ _ (by decide))]
      rw [if_pos (prefOf_self_append _ _), List.drop_left' (by decide)]
      rw [ih tail fuel]
      rfl
    by_cases h6 : c = '\r'
    · subst h6
      have hd : escAttrChar '\r' ++ (escapeHtmlAttr t ++ tail) =
          '&' :: ("#13;".data ++ (escapeHtmlAttr t ++ tail)) := rfl
      rw [hd, unescGo, if_pos rfl]
      rw [if_neg (notPref _ _ _ (by decide)), if_neg (notPref _ _ _ (by decide)),
        if_neg (notPref _ _ _ (by decide)), if_neg (notPref _ _ _ (by decide)),
        if_neg (notPref _ _ _ (by decide))]
      rw [if_pos (prefOf_self_append _ _), List.drop_left' (by decide)]
      rw [ih tail fuel]
      rfl
    · have he : escAttrChar c = [c] := by
        simp [escAttrChar, h1, h2, h3, h4, h5, h6]
      rw [he]
      show unescGo ((t.length + fuel) + 1) (c :: (escapeHtmlAttr t ++ tail)) = _
      rw [unescGo, if_neg h1, ih tail fuel]
      rfl

theorem escapeHtmlAttr_len (l : List Char) :
    ∃ k, (escapeHtmlAttr l).length = l.length + k := by
  induction l with
  | nil => exact ⟨0, rfl⟩
  | cons c t ih =>
    rcases ih with ⟨k, hk⟩
    have hc : ∃ m, (escAttrChar c).length = 1 + m := by
      by_cases h1 : c = '&'
      · subst h1; exact ⟨4, rfl⟩
      by_cases h2 : c = '"'
      · subst h2; exact ⟨5, rfl⟩
      by_cases h3 : c = '<'
      · subst h3; exact ⟨3, rfl⟩
      by_cases h4 : c = '>'
      · subst h4; exact ⟨3, rfl⟩
      by_cases h5 : c = '\n'
      · subst h5; exact ⟨4, rfl⟩
      by_cases h6 : c = '\r'
      · subst h6; exact ⟨4, rfl⟩
      · refine ⟨0, ?_⟩
        simp [escAttrChar, h1, h2, h3, h4, h5, h6]
    rcases hc with ⟨m, hm⟩
    refine ⟨k + m, ?_⟩
    show (escAttrChar c ++ escapeHtmlAttr t).length = (c :: t).length + (k + m)
    rw [List.length_append, hm, hk]
    simp only [List.length_cons]
    omega

theorem unesc_esc (l : List Char) :
    unescapeHtmlAttr (escapeHtmlAttr l) = l := by
  rcases escapeHtmlAttr_len l with ⟨k, hk⟩
  unfold unescapeHtmlAttr
  rw [hk]
  have h0 : escapeHtmlAttr l = escapeHtmlAttr l ++ [] := by simp
  conv_lhs => rw [h0]
  rw [unescGo_esc l [] k]
  have : unescGo k [] = [] := by cases k <;> rfl
  rw [this, List.append_nil]

theorem matchM_none (l : List Char) (h : prefOf "```".data l = false) :
    matchMermaidAt l = none := by
  unfold matchMermaidAt
  rw [if_neg (by simp [h])]

theorem mermaidGo_noMatch (fuel : Nat) (l : List Char)
    (h : ∀ i, i < l.length → matchMermaidAt (l.drop i) = none) :
    mermaidGo fuel l = l := by
  induction fuel generalizing l with
  | zero => rfl
  | succ n ih =>
    cases l with
    | nil => rfl
    | cons c t =>
      rw [mermaidGo]
      have h0 : matchMermaidAt (c :: t) = none := by
        have := h 0 (by simp)
        simpa using this
      rw [h0]
      rw [ih t (fun i hi => by
        have := h (i + 1) (by simp; omega)
        simpa using this)]

theorem mermaidGo_skip (pre : List Char) : ∀ (tail : List Char) (fuel : Nat),
    (∀ i, i < pre.length → matchMermaidAt ((pre ++ tail).drop i) = none) →
    mermaidGo (pre.length + fuel) (pre ++ tail) = pre ++ mermaidGo fuel tail := by
  induction pre with
  | nil =>
    intro tail fuel _
    rw [show ([] : List Char).length + fuel = fuel from by simp]
    rfl
  | cons c t ih =>
    intro tail fuel h
    rw [show (c :: t).length + fuel = (t.length + fuel) + 1 from by simp; omega]
    show mermaidGo ((t.length + fuel) + 1) (c :: (t ++ tail)) = _
    rw [mermaidGo]
    have h0 : matchMermaidAt (c :: (t ++ tail)) = none := by
      have := h 0 (by simp)
      simpa using this
    rw [h0]
    rw [ih tail fuel (fun i hi => by
      have := h (i + 1) (by simp; omega)
      simpa using this)]
    rfl

theorem head_dropWhile_false (p : Char → Bool) (l : List Char) (c : Char)
    (h : (l.dropWhile p).head? = some c) : p c = false := by
  induction l with
  | nil => simp [List.dropWhile] at h
  | cons a t ih =>
    cases hp : p a with
    | true =>
      have h' : (t.dropWhile p).head? = some c := by
        rw [List.dropWhile, hp] at h
        exact h
      exact ih h'
    | false =>
      have h' : (a :: t).head? = some c := by
        rw [List.dropWhile, hp] at h
        exact h
      simp at h'
      rw [← h']
      exact hp

theorem dropWhile_len_le (p : Char → Bool) (l : List Char) :
    (l.dropWhile p).length ≤ l.length := by
  induction l with
  | nil => simp
  | cons a t ih =>
    cases hp : p a with
    | true =>
      have h' : (a :: t).dropWhile p = t.dropWhile p := by
        rw [List.dropWhile, hp]
      rw [h']
      simp only [List.length_cons]
      omega
    | false =>
      have h' : (a :: t).dropWhile p = a :: t := by
        rw [List.dropWhile, hp]
      rw [h']

theorem jsTrim_head_not_ws (l : List Char) (h : jsTrim l = l) (c : Char)
    (t : List Char) (hl : l = c :: t) : jsWs c = false := by
  subst hl
  cases hj : jsWs c with
  | false => rfl
  | true =>
    exfalso
    have hlen := congrArg List.length h
    unfold jsTrim at hlen
    have hdw : (c :: t).dropWhile jsWs = t.dropWhile jsWs := by
      rw [List.dropWhile, hj]
    rw [hdw] at hlen
    have h1 : ((t.dropWhile jsWs).reverse.dropWhile jsWs).length ≤ t.length := by
      calc ((t.dropWhile jsWs).reverse.dropWhile jsWs).length
          ≤ (t.dropWhile jsWs).reverse.length := dropWhile_len_le _ _
        _ = (t.dropWhile jsWs).length := List.length_reverse _
        _ ≤ t.length := dropWhile_len_le _ _
    rw [List.length_reverse] at hlen
    simp only [List.length_cons] at hlen
    omega

theorem jsTrim_getLast_not_ws (l : List Char) (h : jsTrim l = l) (c : Char)
    (hc : l.getLast? = some c) : jsWs c = false := by
  have hhead : l.reverse.head? = some c := by
    rw [List.head?_reverse]
    exact hc
  have hr : l.reverse = ((l.dropWhile jsWs).reverse).dropWhile jsWs := by
    conv_lhs => rw [← h]
    unfold jsTrim
    rw [List.reverse_reverse]
  rw [hr] at hhead
  exact head_dropWhile_false _ _ _ hhead

theorem straddle_head (p s t b : List Char) (hp : p = s ++ t) (ht : t ≠ [])
    (hpre : prefOf t b = true) : ∃ c, b.head? = some c ∧ c ∈ p := by
  cases t with
  | nil => exact absurd rfl ht
  | cons c t' =>
    rcases (prefOf_pre _ _).mp hpre with ⟨r, hr⟩
    refine ⟨c, ?_, ?_⟩
    · rw [← hr]; rfl
    · rw [hp]; simp

theorem straddle_last (p s t a a0 : List Char) (hp : p = s ++ t) (hs : s ≠ [])
    (ha : a = a0 ++ s) : ∃ c, a.getLast? = some c ∧ c ∈ p := by
  rcases List.exists_cons_of_ne_nil hs with ⟨c0, s', rfl⟩
  have hlast : a.getLast? = (c0 :: s').getLast? := by
    rw [ha]
    exact List.getLast?_append_of_ne_nil a0 (by simp)
  rcases List.getLast?_eq_getLast_of_ne_nil (l := c0 :: s') (by simp) with h'
  refine ⟨(c0 :: s').getLast (by simp), hlast.trans h', ?_⟩
  rw [hp]
  exact List.mem_append_left _ (List.getLast_mem _)

/-- An occurrence of a newline-free pattern in `a ++ [newline-ish c]` lies
wholly inside `a`. -/
theorem hasSub_append_one (p a : List Char) (c : Char) (hc : c ∉ p) (hp : p ≠ [])
    (h : hasSub p (a ++ [c]) = true) : hasSub p a = true := by
  rcases (hasSub_parts _ _).mp h with ⟨s, t, hst⟩
  cases t with
  | nil =>
    exfalso
    have h1 : (a ++ [c]).getLast? = some c := List.getLast?_concat a
    have h2 : (a ++ [c]).getLast? = p.getLast? := by
      rw [hst]
      simp only [List.append_nil]
      exact List.getLast?_append_of_ne_nil s hp
    rcases List.getLast?_eq_getLast_of_ne_nil (l := p) hp with h3
    rw [h2, h3] at h1
    have : c = p.getLast hp := by
      have := h1.symm
      injection this
    exact hc (this ▸ List.getLast_mem hp)
  | cons t0 t' =>
    have hd := congrArg List.dropLast hst
    rw [List.dropLast_concat] at hd
    rw [List.append_assoc] at hd
    rw [List.dropLast_append_of_ne_nil s (by simp)] at hd
    rw [List.dropLast_append_of_ne_nil p (by simp)] at hd
    exact (hasSub_parts _ _).mpr ⟨s, (t0 :: t').dropLast, by rw [hd, List.append_assoc]⟩

theorem attrSafe_esc (l : List Char) : attrSafe (escapeHtmlAttr l) = true := by
  induction l with
  | nil => rfl
  | cons c t ih =>
    show attrSafe (escAttrChar c ++ escapeHtmlAttr t) = true
    rw [attrSafe, List.all_append]
    refine Bool.and_eq_true_iff.mpr ⟨?_, ih⟩
    by_cases h1 : c = '&'
    · subst h1; rfl
    by_cases h2 : c = '"'
    · subst h2; rfl
    by_cases h3 : c = '<'
    · subst h3; rfl
    by_cases h4 : c = '>'
    · subst h4; rfl
    by_cases h5 : c = '\n'
    · subst h5; rfl
    by_cases h6 : c = '\r'
    · subst h6; rfl
    have he : escAttrChar c = [c] := by
      simp [escAttrChar, h1, h2, h3, h4, h5, h6]
    rw [he]
    simp [h2, h3, h4, h5, h6]

/-- No occurrence of ```` ``` ```` inside `code ++ ['\n']` (for fence-free
`code`), lifted to the position-wise form `splitFirst_marker` needs. -/
theorem fence_habs (code post : List Char) (hcode : hasSub "```".data code = false) :
    ∀ i, i < (code ++ ['\n']).length →
      prefOf "```".data
        (((code ++ ['\n']) ++ ("```".data ++ ('\n' :: post))).drop i) = false := by
  intro i hi
  cases hp : prefOf "```".data (((code ++ ['\n']) ++ ("```".data ++ ('\n' :: post))).drop i) with
  | false => rfl
  | true =>
    exfalso
    rcases pref_drop_split _ _ _ i hi hp with hin | ⟨s, t, hs, ht, hst, ⟨a0, ha0⟩, hpre⟩
    · have := hasSub_append_one "```".data code '\n' (by decide) (by decide) hin
      rw [hcode] at this
      exact absurd this (by decide)
    · rcases straddle_last _ s t _ a0 hst hs ha0 with ⟨c, hc1, hc2⟩
      have hgl : (code ++ ['\n']).getLast? = some '\n' := List.getLast?_concat code
      rw [hgl] at hc1
      injection hc1 with hc1'
      rw [← hc1'] at hc2
      have hmem : ('\n' : Char) ∈ "```".data := hc2
      simp at hmem

/-- The mermaid fence regex applied at the start of the serialized form
`` ``` + "mermaid" + `\n${code}\n` + ``` ``: it captures exactly `code` and
the match ends right after the closing fence. -/
theorem matchMermaid_at_fence (code post : List Char)
    (hcode : hasSub "```".data code = false) (htrim : jsTrim code = code) :
    matchMermaidAt ("```mermaid\n".data ++ (code ++ ("\n```\n".data ++ post))) =
      some (code, '\n' :: post) := by
  have hsplit : code ++ ("\n```\n".data ++ post) =
      (code ++ ['\n']) ++ ("```".data ++ ('\n' :: post)) := by
    have : "\n```\n".data ++ post = '\n' :: ("```".data ++ ('\n' :: post)) := rfl
    rw [this]
    simp
  unfold matchMermaidAt
  rw [if_pos (show prefOf "```".data
      ("```mermaid\n".data ++ (code ++ ("\n```\n".data ++ post))) = true by
    rw [prefOf_append_left _ _ _ (by decide)]
    decide)]
  have hdrop3 : ("```mermaid\n".data ++ (code ++ ("\n```\n".data ++ post))).drop 3 =
      "mermaid\n".data ++ (code ++ ("\n```\n".data ++ post)) := rfl
  rw [hdrop3]
  have hdw : ("mermaid\n".data ++ (code ++ ("\n```\n".data ++ post))).dropWhile jsWs =
      "mermaid\n".data ++ (code ++ ("\n```\n".data ++ post)) := rfl
  rw [hdw]
  rw [if_pos (show prefOf "mermaid".data
      ((("mermaid\n".data ++ (code ++ ("\n```\n".data ++ post))).take 7).map Char.toLower)
        = true from rfl)]
  have hdrop7 : ("mermaid\n".data ++ (code ++ ("\n```\n".data ++ post))).drop 7 =
      '\n' :: (code ++ ("\n```\n".data ++ post)) := rfl
  rw [hdrop7]
  cases hcd : code with
  | nil => rfl
  | cons ch ct =>
    have hch : jsWs ch = false := jsTrim_head_not_ws code htrim ch ct hcd
    rw [← hcd]
    have hw : (('\n' : Char) :: (code ++ ("\n```\n".data ++ post))).takeWhile jsWs =
        ['\n'] := by
      rw [List.takeWhile_cons]
      rw [if_pos (by decide)]
      rw [hcd, List.cons_append, List.takeWhile_cons, if_neg (by simp [hch])]
    show (match lastNl (('\n' :: (code ++ ("\n```\n".data ++ post))).takeWhile jsWs) with
      | none => (none : Option (List Char × List Char))
      | some j =>
        match splitFirst "```".data
            (('\n' :: (code ++ ("\n```\n".data ++ post))).drop (j + 1)) with
        | none => none
        | some (before, after) =>
          some (if before.getLast? = some '\n' then before.dropLast else before, after))
      = some (code, '\n' :: post)
    rw [hw]
    show (match splitFirst "```".data
        (('\n' :: (code ++ ("\n```\n".data ++ post))).drop (0 + 1)) with
      | none => (none : Option (List Char × List Char))
      | some (before, after) =>
        some (if before.getLast? = some '\n' then before.dropLast else before, after))
      = some (code, '\n' :: post)
    have hbody : (('\n' : Char) :: (code ++ ("\n```\n".data ++ post))).drop (0 + 1) =
        (code ++ ['\n']) ++ ("```".data ++ ('\n' :: post)) := by
      show code ++ ("\n```\n".data ++ post) = _
      rw [hsplit]
    rw [hbody]
    rw [splitFirst_marker "```".data (code ++ ['\n']) ('\n' :: post) (by decide)
      (fence_habs code post hcode)]
    show some (if (code ++ ['\n']).getLast? = some '\n' then (code ++ ['\n']).dropLast
        else code ++ ['\n'], '\n' :: post) = some (code, '\n' :: post)
    have hgl : (code ++ ['\n']).getLast? = some '\n' := List.getLast?_concat code
    rw [if_pos hgl]
    rw [List.dropLast_concat]

theorem prefOf_cons_ne (x y : Char) (p l : List Char) (h : x ≠ y) :
    prefOf (x :: p) (y :: l) = false := by
  unfold prefOf
  simp only [List.length_cons, List.take_succ_cons]
  cases hb : (y :: l.take p.length) == (x :: p)
  · rfl
  · have := eq_of_beq hb
    injection this with h1
    exact absurd h1.symm h

theorem mermaidGo_step_none (fuel : Nat) (c : Char) (t : List Char)
    (h : matchMermaidAt (c :: t) = none) :
    mermaidGo (fuel + 1) (c :: t) = c :: mermaidGo fuel t := by
  rw [mermaidGo, h]

theorem mermaidGo_step_match (fuel : Nat) (l code rest : List Char) (hf : 0 < fuel)
    (h : matchMermaidAt l = some (code, rest)) :
    mermaidGo fuel l = mermaidDiv code ++ mermaidGo (fuel - 1) rest := by
  cases fuel with
  | zero => omega
  | succ n =>
    cases l with
    | nil =>
      have hnone : matchMermaidAt [] = none := rfl
      rw [hnone] at h
      cases h
    | cons c t =>
      rw [mermaidGo, h]
      rfl

/-- Claim C2, counterexample to exactness: a diagram source with a trailing
newline (one of the claim's listed characters) comes back trimmed — the
`data-code` attribute the round trip produces decodes to `"a"`, not
`"a\n"`. -/
theorem C2_counterexample :
    (mermaidPass (mermaidToMarkdown "a\n".data) =
      '\n' :: (mermaidDiv "a\n".data ++ "\n".data)) ∧
    mermaidDiv "a\n".data = mermaidDiv "a".data ∧
    unescapeHtmlAttr (escapeHtmlAttr (jsTrim "a\n".data)) ≠ "a\n".data := by
  refine ⟨by decide, by decide, by decide⟩

/-- Claim C2, amended: for a diagram source that equals its own trim and
contains no ```` ``` ```` fence terminator, serializing (turndown's mermaid
rule) and re-parsing (phase 1 of `markdownToHtml`) preserves the source
exactly through the escaped `data-code` attribute, leaves sibling content
(itself fence-free) unchanged, and the escaped attribute value contains no
quote, angle bracket or raw line break that could break the parse.  Sources
with leading/trailing whitespace are trimmed (see the counterexample). -/
theorem C2_mermaid_escape_roundtrip (pre code post : List Char)
    (hpre : hasSub "```".data pre = false)
    (hcode : hasSub "```".data code = false)
    (hpost : hasSub "```".data post = false)
    (htrim : jsTrim code = code) :
    mermaidPass (pre ++ mermaidToMarkdown code ++ post) =
      pre ++ ('\n' :: (mermaidDiv code ++ ('\n' :: post))) ∧
    unescapeHtmlAttr (escapeHtmlAttr (jsTrim code)) = code ∧
    attrSafe (escapeHtmlAttr (jsTrim code)) = true := by
  have hser : pre ++ mermaidToMarkdown code ++ post =
      pre ++ ('\n' :: ("```mermaid\n".data ++ (code ++ ("\n```\n".data ++ post)))) := by
    unfold mermaidToMarkdown
    simp
  refine ⟨?_, by rw [htrim]; exact unesc_esc code, by rw [htrim]; exact attrSafe_esc code⟩
  rw [hser]
  set rest2 : List Char := "```mermaid\n".data ++ (code ++ ("\n```\n".data ++ post)) with hrest2
  have habs : ∀ i, i < pre.length →
      matchMermaidAt ((pre ++ ('\n' :: rest2)).drop i) = none := by
    intro i hi
    refine matchM_none _ ?_
    cases hp : prefOf "```".data ((pre ++ ('\n' :: rest2)).drop i) with
    | false => rfl
    | true =>
      exfalso
      rcases pref_drop_split _ _ _ i hi hp with hin | ⟨s, t, hs, ht, hst, _, hpre2⟩
      · rw [hpre] at hin
        exact absurd hin (by decide)
      · rcases straddle_head _ s t _ hst ht hpre2 with ⟨c, hc1, hc2⟩
        have hh : (('\n' : Char) :: rest2).head? = some '\n' := rfl
        rw [hc1] at hh
        injection hh with hh'
        rw [hh'] at hc2
        have hmem : ('\n' : Char) ∈ "```".data := hc2
        simp at hmem
  unfold mermaidPass
  rw [List.length_append]
  rw [mermaidGo_skip pre ('\n' :: rest2) ('\n' :: rest2).length habs]
  rw [show (('\n' : Char) :: rest2).length = rest2.length + 1 from by simp]
  rw [mermaidGo_step_none rest2.length '\n' rest2
    (matchM_none _ (by
      rw [hrest2]
      rw [show "```mermaid\n".data ++ (code ++ ("\n```\n".data ++ post)) =
        '\x60' :: ("``mermaid\n".data ++ (code ++ ("\n```\n".data ++ post))) from rfl]
      exact prefOf_cons_ne _ _ _ _ (by decide)))]
  have hmatch : matchMermaidAt rest2 = some (code, '\n' :: post) :=
    matchMermaid_at_fence code post hcode htrim
  rw [mermaidGo_step_match rest2.length rest2 code ('\n' :: post)
    (by rw [hrest2]; simp) hmatch]
  have htail : ∀ i, i < (('\n' : Char) :: post).length →
      matchMermaidAt ((('\n' : Char) :: post).drop i) = none := by
    intro i hi
    cases i with
    | zero =>
      exact matchM_none _ (prefOf_cons_ne _ _ _ _ (by decide))
    | succ n =>
      rw [List.drop_succ_cons]
      refine matchM_none _ ?_
      cases hp : prefOf "```".data (post.drop n) with
      | false => rfl
      | true =>
        exfalso
        have := hasSub_of_pref_drop _ _ _ hp
        rw [hpost] at this
        exact absurd this (by decide)
  rw [mermaidGo_noMatch _ _ htail]

/-- Witness for C2's amended theorem at a concrete diagram with quotes,
angle brackets and an interior newline. -/
theorem C2_mermaid_escape_roundtrip_witness :
    mermaidPass ("# T\n".data ++ mermaidToMarkdown "graph \"a<b\"\nA-->B".data ++ "tail".data) =
      "# T\n".data ++
        ('\n' :: (mermaidDiv "graph \"a<b\"\nA-->B".data ++ ('\n' :: "tail".data))) :=
  (C2_mermaid_escape_roundtrip "# T\n".data "graph \"a<b\"\nA-->B".data "tail".data
    (by decide) (by decide) (by decide) (by decide)).1

/-! ### C3 — fenced-code-block protection in `markdownToHtml`

`transformOutsideCodeBlocks` locates closed fenced blocks with
`/^(`{3,})([^\n]*)\n([\s\S]*?)\n\1\s*$/gm` and applies the comment/task
transform only to the text between them.  The regex is modelled with its
backtracking: the opening run of backticks may shorten (leftover ticks join
the info string), the closing fence is the same tick string at a line start,
and the trailing `\s*$` consumes whitespace up to an end-of-line. -/

/-- How much trailing whitespace the closing fence's `\s*$` consumes from
`u` (the text right after the closing ticks): all of `u` if it is whitespace
to the end of input, otherwise up to (not including) the last newline of the
leading whitespace run; `none` when `$` cannot be satisfied here. -/
def closeConsume (u : List Char) : Option Nat :=
  let w := u.takeWhile jsWs
  if w.length = u.length then some u.length
  else lastNl w

/-- Find the closing fence in `body`: the least offset `i` where a newline
followed by the exact tick string sits, such that `\s*$` succeeds after it
(the regex's lazy content growth).  Returns the offset and the consumed
trailing-whitespace count. -/
def findClose (ticks : List Char) : List Char → Option (Nat × Nat)
  | [] => none
  | c :: t =>
    if prefOf ('\n' :: ticks) (c :: t) then
      match closeConsume ((c :: t).drop (1 + ticks.length)) with
      | some j => some (0, j)
      | none => (findClose ticks t).map (fun p => (p.1 + 1, p.2))
    else (findClose ticks t).map (fun p => (p.1 + 1, p.2))

/-- Try opening-fence lengths from the maximal backtick run downwards
(the regex backtracks `` `{3,} ``; leftover ticks become part of the info
string).  Returns `(openPart, interior, closePart, rest)` with
`l = openPart ++ interior ++ closePart ++ rest`. -/
def fenceLoop (l : List Char) : Nat → Option (List Char × List Char × List Char × List Char)
  | 0 => none
  | 1 => none
  | 2 => none
  | L + 3 =>
    let len := L + 3
    let afterTicks := l.drop len
    let info := afterTicks.takeWhile (fun c => c ≠ '\n')
    if info.length = afterTicks.length then fenceLoop l (L + 2)
    else
      let body := afterTicks.drop (info.length + 1)
      match findClose (List.replicate len '\x60') body with
      | some (i, j) =>
        let s := len + info.length + 1
        let closeLen := 1 + len + j
        some (l.take s, body.take i, (body.drop i).take closeLen,
          (body.drop i).drop closeLen)
      | none => fenceLoop l (L + 2)

/-- An opening fence match at the start of `l` (which must be a line start). -/
def fenceAt (l : List Char) : Option (List Char × List Char × List Char × List Char) :=
  let n := (l.takeWhile (fun c => c = '\x60')).length
  if n < 3 then none else fenceLoop l n

/-- The `exec` scan of `transformOutsideCodeBlocks`: find the next fence
match from a line start; returns the gap before it, the opening part,
interior and closing part of the block, and the rest. -/
def scanF : Bool → List Char →
    Option (List Char × List Char × List Char × List Char × List Char)
  | _, [] => none
  | atLS, c :: t =>
    if atLS then
      match fenceAt (c :: t) with
      | some (o, itr, cl, r) => some ([], o, itr, cl, r)
      | none => (scanF (c = '\n') t).map (fun p => (c :: p.1, p.2))
    else (scanF (c = '\n') t).map (fun p => (c :: p.1, p.2))

/-- The replace loop: transformed gaps (skipped when empty, as the source
pushes segments only for nonempty spans), blocks verbatim. -/
def tocbGo (f : List Char → List Char) : Nat → List Char → List Char
  | 0, l => if l.isEmpty then [] else f l
  | fuel + 1, l =>
    match scanF true l with
    | none => if l.isEmpty then [] else f l
    | some (gap, o, itr, cl, rest) =>
      (if gap.isEmpty then [] else f gap) ++ (o ++ itr ++ cl) ++ tocbGo f fuel rest

/-- `transformOutsideCodeBlocks` from `markdown.ts` (the transform is a
parameter, as in the source). -/
def transformOutsideCodeBlocks (f : List Char → List Char) (l : List Char) : List Char :=
  tocbGo f (l.length + 1) l

/-- The fenced blocks the scan detects, as (full block, interior) pairs. -/
def blocksGo : Nat → List Char → List (List Char × List Char)
  | 0, _ => []
  | fuel + 1, l =>
    match scanF true l with
    | none => []
    | some (_, o, itr, cl, rest) => (o ++ itr ++ cl, itr) :: blocksGo fuel rest

/-- The fenced code blocks of a document, per the source's own detection. -/
def codeBlocksOf (l : List Char) : List (List Char × List Char) :=
  blocksGo (l.length + 1) l

theorem hasSub_append_right (p a b : List Char) (h : hasSub p b = true) :
    hasSub p (a ++ b) = true := by
  rcases (hasSub_parts _ _).mp h with ⟨s, t, rfl⟩
  exact (hasSub_parts _ _).mpr ⟨a ++ s, t, by simp⟩

theorem hasSub_middle (p a b : List Char) : hasSub p (a ++ p ++ b) = true :=
  (hasSub_parts _ _).mpr ⟨a, b, rfl⟩

/-- Every (block, interior) pair the scan reports appears verbatim in the
transformed output, for every transform `f`, at every fuel. -/
theorem tocbGo_frame (f : List Char → List Char) : ∀ (fuel : Nat) (l b itr : List Char),
    (b, itr) ∈ blocksGo fuel l →
    hasSub b (tocbGo f fuel l) = true ∧ hasSub itr (tocbGo f fuel l) = true := by
  intro fuel
  induction fuel with
  | zero => intro l b itr h; simp [blocksGo] at h
  | succ n ih =>
    intro l b itr h
    rw [blocksGo] at h
    rw [tocbGo]
    cases hs : scanF true l with
    | none => rw [hs] at h; simp at h
    | some q =>
      rcases q with ⟨gap, o, i0, cl, rest⟩
      rw [hs] at h
      rcases List.mem_cons.mp h with heq | hmem
      · have hb : b = o ++ i0 ++ cl := congrArg Prod.fst heq
        have hi : itr = i0 := congrArg Prod.snd heq
        subst hb hi
        have hbfull : hasSub (o ++ itr ++ cl)
            ((if gap.isEmpty then [] else f gap) ++ (o ++ itr ++ cl) ++ tocbGo f n rest)
              = true :=
          (hasSub_parts _ _).mpr
            ⟨(if gap.isEmpty then [] else f gap), tocbGo f n rest, rfl⟩
        exact ⟨hbfull, hasSub_trans _ _ _ (hasSub_middle itr o cl) hbfull⟩
      · rcases ih rest b itr hmem with ⟨h1, h2⟩
        exact ⟨hasSub_append_right _ _ _ h1, hasSub_append_right _ _ _ h2⟩

/-! ### The comment-marker and task-item transforms (phase 2's callback) -/

/-- The comment-marker match of
`/<!--MDEDIT_COMMENT_START:([^>]+)-->([\s\S]*?)<!--MDEDIT_COMMENT_END:\1-->/`
at the start of `l`: the greedy `[^>]+` runs to the next `>` and backtracks
so the trailing `-->` matches, forcing the segment before `>` to end in
`--`; the lazy content ends at the first end marker carrying the same id
(the `\1` backreference). -/
def commentMatchAt (l : List Char) : Option (List Char × List Char) :=
  if prefOf "<!--MDEDIT_COMMENT_START:".data l then
    let after := l.drop 25
    let seg := after.takeWhile (fun c => c ≠ '>')
    if seg.length = after.length then none
    else if 3 ≤ seg.length ∧ seg.drop (seg.length - 2) = "--".data then
      let id := seg.take (seg.length - 2)
      let rest1 := after.drop (seg.length + 1)
      match splitFirst ("<!--MDEDIT_COMMENT_END:".data ++ id ++ "-->".data) rest1 with
      | some (content, rest2) =>
        some ("<span data-comment-id=\"".data ++ escapeHtmlAttr id ++
          "\" class=\"comment-highlight\">".data ++ content ++ "</span>".data, rest2)
      | none => none
    else none
  else none

/-- The global replace loop for comment markers. -/
def commentGo : Nat → List Char → List Char
  | 0, l => l
  | _ + 1, [] => []
  | fuel + 1, c :: t =>
    match commentMatchAt (c :: t) with
    | some (repl, rest) => repl ++ commentGo fuel rest
    | none => c :: commentGo fuel t

/-- The comment-marker replacement of phase 2's callback. -/
def commentPass (l : List Char) : List Char := commentGo l.length l

/-- Split at newlines (the `m` flag's line structure). -/
def splitNl : List Char → List (List Char)
  | [] => [[]]
  | c :: t =>
    if c = '\n' then [] :: splitNl t
    else
      match splitNl t with
      | [] => [[c]]
      | h :: rest => (c :: h) :: rest

/-- Join lines back with newlines. -/
def joinNl : List (List Char) → List Char
  | [] => []
  | [x] => x
  | x :: rest => x ++ '\n' :: joinNl rest

/-- The task-list line rewrite `/^- \[([ xX])\] (.*)$/gm`. -/
def taskLine (ln : List Char) : List Char :=
  if prefOf "- [".data ln then
    match ln.drop 3 with
    | c :: ']' :: ' ' :: content =>
      if c = ' ' || c = 'x' || c = 'X' then
        "<li data-type=\"taskItem\" data-checked=\"".data ++
          (if c.toLower = 'x' then "true".data else "false".data) ++
          "\">".data ++ content ++ "</li>".data
      else ln
    | _ => ln
  else ln

/-- The task-item replacement of phase 2's callback. -/
def taskPass (l : List Char) : List Char := joinNl ((splitNl l).map taskLine)

/-- Phase 2's callback: comment markers first, then task items, as in
`markdownToHtml`. -/
def commentTaskTransform (seg : List Char) : List Char := taskPass (commentPass seg)

/-- The full preprocessing `markdownToHtml` performs before handing the text
to `marked.parse` (the external GFM parser): the mermaid pass, then the
comment/task pass outside code blocks. -/
def preprocessMarkdown (md : List Char) : List Char :=
  transformOutsideCodeBlocks commentTaskTransform (mermaidPass md)

/-- Counterexample to claim C3 as stated: a fenced code block whose interior
shows a mermaid example.  Phase 1 runs on the raw text before fence
detection, rewrites the ```` ```mermaid ```` lines inside the block, and the
block's interior no longer appears in the text handed to the markdown
parser. -/
theorem C3_counterexample :
    codeBlocksOf "```\n```mermaid\nx\n```\n```".data =
      [("```\n```mermaid\nx\n```".data, "```mermaid\nx".data)] ∧
    hasSub "```mermaid\nx".data
      (preprocessMarkdown "```\n```mermaid\nx\n```\n```".data) = false := by
  refine ⟨by decide, by decide⟩

/-- Claim C3, amended: the comment-marker/task-item phase
(`transformOutsideCodeBlocks`, phase 2) never mutates fenced-block content:
every fenced block the source's detection finds, and its interior, appear
verbatim in the phase's output, for an arbitrary transform callback.  The
earlier mermaid phase, however, runs on the raw text and can rewrite a
mermaid-style fence inside a code block (see the counterexample), so
"never mutated by the preprocessing phases" does not hold of phase 1. -/
theorem C3_code_blocks_frame (f : List Char → List Char) (l b itr : List Char)
    (h : (b, itr) ∈ codeBlocksOf l) :
    hasSub b (transformOutsideCodeBlocks f l) = true ∧
    hasSub itr (transformOutsideCodeBlocks f l) = true :=
  tocbGo_frame f (l.length + 1) l b itr h

/-- Witness for C3's amended theorem on a concrete document. -/
theorem C3_code_blocks_frame_witness :
    hasSub "```\nsecret\n```".data
      (transformOutsideCodeBlocks commentTaskTransform "a\n```\nsecret\n```\nb".data) = true :=
  (C3_code_blocks_frame commentTaskTransform "a\n```\nsecret\n```\nb".data
    "```\nsecret\n```".data "secret".data (by decide)).1

/-! ### JSON: `JSON.stringify(x, null, 2)` and `JSON.parse`

The comment embedding codec serializes with two-space pretty printing and
parses with a reviver.  Numbers keep their numeral text (`Json.num`): no
numeric field exists in the comment model, so numeral-to-float semantics is
never needed; the printer reproduces the lexed text. -/

/-- Lower-case hex digit. -/
def hexDigitChar (n : Nat) : Char := "0123456789abcdef".data.getD n '0'

/-- `JSON.stringify`'s string escaping: quote, backslash, the named control
escapes, and `\u00XX` for other control characters. -/
def escQChar (c : Char) : List Char :=
  if c = '"' then ['\\', '"']
  else if c = '\\' then ['\\', '\\']
  else if c = '\x08' then ['\\', 'b']
  else if c = '\x0c' then ['\\', 'f']
  else if c = '\n' then ['\\', 'n']
  else if c = '\r' then ['\\', 'r']
  else if c = '\t' then ['\\', 't']
  else if c.toNat < 32 then
    ['\\', 'u', '0', '0', hexDigitChar (c.toNat / 16), hexDigitChar (c.toNat % 16)]
  else [c]

/-- Escape a whole string body. -/
def escQ (l : List Char) : List Char := l.flatMap escQChar

/-- A quoted JSON string literal. -/
def strQuote (s : String) : List Char := '"' :: (escQ s.data ++ ['"'])

/-- Indentation (two spaces per level, as `JSON.stringify(x, null, 2)`). -/
def pad (n : Nat) : List Char := List.replicate n ' '

mutual

/-- `JSON.stringify(v, null, 2)` at indentation `ind`. -/
def printVal (ind : Nat) : Json → List Char
  | Json.null => "null".data
  | Json.bool true => "true".data
  | Json.bool false => "false".data
  | Json.str s => strQuote s
  | Json.num raw => raw.data
  | Json.arr [] => "[]".data
  | Json.arr (x :: xs) =>
    '[' :: '\n' :: (printItems (ind + 2) (x :: xs) ++ '\n' :: (pad ind ++ [']']))
  | Json.obj [] => ['{', '}']
  | Json.obj (kv :: kvs) =>
    '{' :: '\n' :: (printFields (ind + 2) (kv :: kvs) ++ '\n' :: (pad ind ++ ['}']))

/-- Array items, one per line, comma separated. -/
def printItems (ind : Nat) : List Json → List Char
  | [] => []
  | [x] => pad ind ++ printVal ind x
  | x :: y :: ys =>
    pad ind ++ (printVal ind x ++ ',' :: '\n' :: printItems ind (y :: ys))

/-- Object members, one per line, `"key": value`. -/
def printFields (ind : Nat) : List (String × Json) → List Char
  | [] => []
  | [kv] => pad ind ++ (strQuote kv.1 ++ ':' :: ' ' :: printVal ind kv.2)
  | kv :: f :: fs =>
    pad ind ++ (strQuote kv.1 ++ ':' :: ' ' :: printVal ind kv.2 ++
      ',' :: '\n' :: printFields ind (f :: fs))

end

/-- JSON's whitespace class (space, tab, line feed, carriage return). -/
def jsonWs (c : Char) : Bool := c = ' ' || c = '\t' || c = '\n' || c = '\r'

/-- Skip insignificant whitespace. -/
def skipWs (l : List Char) : List Char := l.dropWhile jsonWs

/-- Hex digit value. -/
def hexVal (c : Char) : Option Nat :=
  if '0' ≤ c ∧ c ≤ '9' then some (c.toNat - 48)
  else if 'a' ≤ c ∧ c ≤ 'f' then some (c.toNat - 87)
  else if 'A' ≤ c ∧ c ≤ 'F' then some (c.toNat - 55)
  else none

/-- Parse a string body after the opening quote; returns the decoded content
and the text after the closing quote.  Raw control characters and unknown
escapes are errors, as in `JSON.parse`.  `\uXXXX` escapes outside the scalar
range (unpaired surrogates) are rejected — a model boundary: JS strings can
hold lone surrogates, Lean characters cannot. -/
def parseStrBody : Nat → List Char → Option (List Char × List Char)
  | 0, _ => none
  | _ + 1, [] => none
  | fuel + 1, c :: t =>
    if c = '"' then some ([], t)
    else if c = '\\' then
      match t with
      | [] => none
      | e :: t2 =>
        if e = '"' then (parseStrBody fuel t2).map (fun p => ('"' :: p.1, p.2))
        else if e = '\\' then (parseStrBody fuel t2).map (fun p => ('\\' :: p.1, p.2))
        else if e = '/' then (parseStrBody fuel t2).map (fun p => ('/' :: p.1, p.2))
        else if e = 'b' then (parseStrBody fuel t2).map (fun p => ('\x08' :: p.1, p.2))
        else if e = 'f' then (parseStrBody fuel t2).map (fun p => ('\x0c' :: p.1, p.2))
        else if e = 'n' then (parseStrBody fuel t2).map (fun p => ('\n' :: p.1, p.2))
        else if e = 'r' then (parseStrBody fuel t2).map (fun p => ('\r' :: p.1, p.2))
        else if e = 't' then (parseStrBody fuel t2).map (fun p => ('\t' :: p.1, p.2))
        else if e = 'u' then
          match t2 with
          | h1 :: h2 :: h3 :: h4 :: t3 =>
            match hexVal h1, hexVal h2, hexVal h3, hexVal h4 with
            | some a, some b, some c2, some d =>
              let n := ((a * 16 + b) * 16 + c2) * 16 + d
              if n < 55296 ∨ (57343 < n ∧ n < 1114112) then
                (parseStrBody fuel t3).map (fun p => (Char.ofNat n :: p.1, p.2))
              else none
            | _, _, _, _ => none
          | _ => none
        else none
    else if c.toNat < 32 then none
    else (parseStrBody fuel t).map (fun p => (c :: p.1, p.2))

/-- Lex the fraction part of a numeral. -/
def parseFrac (l : List Char) : Option (List Char × List Char) :=
  match l with
  | c :: t =>
    if c = '.' then
      let ds := t.takeWhile Char.isDigit
      if ds.isEmpty then none else some ('.' :: ds, t.dropWhile Char.isDigit)
    else some ([], l)
  | [] => some ([], [])

/-- Lex the exponent part of a numeral. -/
def parseExp (l : List Char) : Option (List Char × List Char) :=
  match l with
  | c :: t =>
    if c = 'e' ∨ c = 'E' then
      let (sgn, t1) : List Char × List Char :=
        match t with
        | s :: t2 => if s = '+' ∨ s = '-' then ([s], t2) else ([], t)
        | [] => ([], t)
      let ds := t1.takeWhile Char.isDigit
      if ds.isEmpty then none else some (c :: (sgn ++ ds), t1.dropWhile Char.isDigit)
    else some ([], l)
  | [] => some ([], [])

/-- Lex a JSON numeral (strict grammar: no leading zeros, at least one
digit); returns the numeral text. -/
def parseNum (l : List Char) : Option (List Char × List Char) :=
  let (sgn, l1) : List Char × List Char :=
    match l with
    | c :: t => if c = '-' then (['-'], t) else ([], l)
    | [] => ([], l)
  match l1 with
  | [] => none
  | c :: t =>
    if ¬ c.isDigit then none
    else if c = '0' ∧ (t.head?.elim false Char.isDigit) then none
    else
      let ints := (c :: t).takeWhile Char.isDigit
      let r1 := (c :: t).dropWhile Char.isDigit
      match parseFrac r1 with
      | none => none
      | some (fr, r2) =>
        match parseExp r2 with
        | none => none
        | some (ex, r3) => some (sgn ++ ints ++ fr ++ ex, r3)

/-- `JSON.parse`'s duplicate-key handling when building an object: first
occurrence keeps its position, the last value wins. -/
def dedupKeys (ps : List (String × Json)) : List (String × Json) :=
  ps.foldl (fun acc kv => setOwn acc kv.1 kv.2) []

mutual

/-- Parse one JSON value (recursive-descent, fuel-bounded; the fuel is spent
once per parsed value, so input length bounds it). -/
def parseVal : Nat → List Char → Option (Json × List Char)
  | 0, _ => none
  | fuel + 1, l =>
    match skipWs l with
    | [] => none
    | c :: t =>
      if c = '"' then
        (parseStrBody (t.length + 1) t).map (fun p => (Json.str (String.mk p.1), p.2))
      else if c = '[' then
        match skipWs t with
        | [] => none
        | d :: u =>
          if d = ']' then some (Json.arr [], u)
          else (parseArrItems fuel t).map (fun p => (Json.arr p.1, p.2))
      else if c = '{' then
        match skipWs t with
        | [] => none
        | d :: u =>
          if d = '}' then some (Json.obj [], u)
          else (parseObjItems fuel t).map (fun p => (Json.obj (dedupKeys p.1), p.2))
      else if c = 't' then
        if prefOf "rue".data t then some (Json.bool true, t.drop 3) else none
      else if c = 'f' then
        if prefOf "alse".data t then some (Json.bool false, t.drop 4) else none
      else if c = 'n' then
        if prefOf "ull".data t then some (Json.null, t.drop 3) else none
      else
        (parseNum (c :: t)).map (fun p => (Json.num (String.mk p.1), p.2))

/-- Parse the (nonempty) item list of an array, consuming the closing `]`. -/
def parseArrItems : Nat → List Char → Option (List Json × List Char)
  | 0, _ => none
  | fuel + 1, l =>
    match parseVal fuel l with
    | none => none
    | some (v, r) =>
      match skipWs r with
      | [] => none
      | c :: u =>
        if c = ',' then (parseArrItems fuel u).map (fun p => (v :: p.1, p.2))
        else if c = ']' then some ([v], u)
        else none

/-- Parse the (nonempty) member list of an object, consuming the closing
`}`. -/
def parseObjItems : Nat → List Char → Option (List (String × Json) × List Char)
  | 0, _ => none
  | fuel + 1, l =>
    match skipWs l with
    | [] => none
    | c :: t =>
      if c = '"' then
        match parseStrBody (t.length + 1) t with
        | none => none
        | some (k, r) =>
          match skipWs r with
          | [] => none
          | d :: r2 =>
            if d = ':' then
              match parseVal fuel r2 with
              | none => none
              | some (v, r3) =>
                match skipWs r3 with
                | [] => none
                | e :: r4 =>
                  if e = ',' then
                    (parseObjItems fuel r4).map (fun p => ((String.mk k, v) :: p.1, p.2))
                  else if e = '}' then some ([(String.mk k, v)], r4)
                  else none
            else none
      else none

end

/-- `JSON.parse(text)`: a whole-input parse (only whitespace may follow the
value). -/
def parseJson (s : List Char) : Option Json :=
  match parseVal (s.length + 1) s with
  | some (j, r) => if (skipWs r).isEmpty then some j else none
  | none => none

mutual

/-- The reviver from `extractCommentsFromMarkdown`'s `JSON.parse` call:
drops every `__proto__` / `constructor` / `prototype` member (returning
`undefined` from a reviver deletes the property), recursively. -/
def revive : Json → Json
  | Json.obj kvs => Json.obj (reviveFields kvs)
  | Json.arr xs => Json.arr (reviveList xs)
  | j => j

/-- `revive` over array elements. -/
def reviveList : List Json → List Json
  | [] => []
  | x :: xs => revive x :: reviveList xs

/-- `revive` over object members, dropping reserved names. -/
def reviveFields : List (String × Json) → List (String × Json)
  | [] => []
  | kv :: kvs =>
    if kv.1 = "__proto__" ∨ kv.1 = "constructor" ∨ kv.1 = "prototype" then
      reviveFields kvs
    else (kv.1, revive kv.2) :: reviveFields kvs

end

/-- `JSON.parse(text, reviver)` as called in `extractCommentsFromMarkdown`. -/
def parseJsonRevived (s : List Char) : Option Json := (parseJson s).map revive

/-! ### The print/parse round trip -/

/-- Pairwise-distinct member keys. -/
def noDupKeys : List (String × Json) → Bool
  | [] => true
  | kv :: kvs => (!(kvs.any (fun e => e.1 == kv.1))) && noDupKeys kvs

mutual

/-- The printed values the round-trip law covers: numeral-free (no numeric
field exists in the comment model) and duplicate-key-free. -/
def jsonWf : Json → Bool
  | Json.null => true
  | Json.bool _ => true
  | Json.str _ => true
  | Json.num _ => false
  | Json.arr xs => jsonWfList xs
  | Json.obj kvs => noDupKeys kvs && jsonWfFields kvs

/-- `jsonWf` over array elements. -/
def jsonWfList : List Json → Bool
  | [] => true
  | x :: xs => jsonWf x && jsonWfList xs

/-- `jsonWf` over member values. -/
def jsonWfFields : List (String × Json) → Bool
  | [] => true
  | kv :: kvs => jsonWf kv.2 && jsonWfFields kvs

end

mutual

/-- Parser-fuel requirement of a value (one unit per parsed value). -/
def sizeJ : Json → Nat
  | Json.arr xs => 1 + sizeL xs
  | Json.obj kvs => 1 + sizeF kvs
  | _ => 1

/-- Fuel requirement of an item list. -/
def sizeL : List Json → Nat
  | [] => 0
  | x :: xs => 1 + sizeJ x + sizeL xs

/-- Fuel requirement of a member list. -/
def sizeF : List (String × Json) → Nat
  | [] => 0
  | kv :: kvs => 1 + sizeJ kv.2 + sizeF kvs

end

theorem skipWs_not_ws (c : Char) (t : List Char) (h : jsonWs c = false) :
    skipWs (c :: t) = c :: t := by
  unfold skipWs
  rw [List.dropWhile_cons_of_neg (by simp [h])]

theorem skipWs_ws_chunk (sp X : List Char) (h : sp.all jsonWs = true) :
    skipWs (sp ++ X) = skipWs X := by
  induction sp with
  | nil => rfl
  | cons c t ih =>
    rw [List.all_cons, Bool.and_eq_true] at h
    show skipWs (c :: (t ++ X)) = skipWs X
    unfold skipWs
    rw [List.dropWhile_cons_of_pos (by simp [h.1])]
    exact ih h.2

theorem pad_all_ws (n : Nat) : (pad n).all jsonWs = true := by
  induction n with
  | zero => rfl
  | succ m ih =>
    show (List.replicate (m + 1) ' ').all jsonWs = true
    rw [List.replicate_succ, List.all_cons]
    exact Bool.and_eq_true_iff.mpr ⟨rfl, ih⟩

theorem escQ_len_ge (l : List Char) : l.length ≤ (escQ l).length := by
  induction l with
  | nil => simp [escQ]
  | cons c t ih =>
    show (c :: t).length ≤ (escQChar c ++ escQ t).length
    rw [List.length_append, List.length_cons]
    have h1 : 1 ≤ (escQChar c).length := by
      unfold escQChar
      repeat' split
      all_goals simp
    omega

theorem hexVal_hexDigitChar : ∀ m, m < 16 → hexVal (hexDigitChar m) = some m := by
  decide

theorem parseStrBody_u_step (f : Nat) (h3c h4c : Char) (q r : Nat) (X : List Char)
    (h3v : hexVal h3c = some q) (h4v : hexVal h4c = some r)
    (hlt : 16 * q + r < 32) :
    parseStrBody (f + 1) ('\\' :: 'u' :: '0' :: '0' :: h3c :: h4c :: X) =
      (parseStrBody f X).map (fun p => (Char.ofNat (16 * q + r) :: p.1, p.2)) := by
  have harith : ((0 * 16 + 0) * 16 + q) * 16 + r = 16 * q + r := by ring
  show (match hexVal '0', hexVal '0', hexVal h3c, hexVal h4c with
    | some a, some b, some c2, some d =>
      let n := ((a * 16 + b) * 16 + c2) * 16 + d
      if n < 55296 ∨ (57343 < n ∧ n < 1114112) then
        (parseStrBody f X).map
          (fun p : List Char × List Char => (Char.ofNat n :: p.1, p.2))
      else none
    | _, _, _, _ => none) = _
  rw [show hexVal '0' = some 0 from rfl, h3v, h4v]
  show (if ((0 * 16 + 0) * 16 + q) * 16 + r < 55296 ∨
      (57343 < ((0 * 16 + 0) * 16 + q) * 16 + r ∧ ((0 * 16 + 0) * 16 + q) * 16 + r < 1114112) then
      (parseStrBody f X).map
        (fun p => (Char.ofNat (((0 * 16 + 0) * 16 + q) * 16 + r) :: p.1, p.2))
    else none) = _
  rw [if_pos (Or.inl (by omega))]
  rw [harith]

theorem parseStrBody_plain (f : Nat) (c : Char) (X : List Char)
    (h1 : ¬ c = '"') (h2 : ¬ c = '\\') (h8 : ¬ c.toNat < 32) :
    parseStrBody (f + 1) (c :: X) =
      (parseStrBody f X).map (fun p => (c :: p.1, p.2)) := by
  rw [parseStrBody.eq_def]
  simp only [if_neg h1, if_neg h2, if_neg h8]

theorem parseStr_escQ : ∀ (sd : List Char) (fuel : Nat) (rest : List Char),
    sd.length < fuel →
    parseStrBody fuel (escQ sd ++ ('"' :: rest)) = some (sd, rest) := by
  intro sd
  induction sd with
  | nil =>
    intro fuel rest hf
    cases fuel with
    | zero => omega
    | succ f => rfl
  | cons c sd' ih =>
    intro fuel rest hf
    cases fuel with
    | zero => omega
    | succ f =>
    have hf' : sd'.length < f := by
      simp only [List.length_cons] at hf
      omega
    have hstep : escQ (c :: sd') ++ ('"' :: rest) =
        escQChar c ++ (escQ sd' ++ ('"' :: rest)) := by
      show (escQChar c ++ escQ sd') ++ _ = _
      simp
    rw [hstep]
    by_cases h1 : c = '"'
    · subst h1
      have hs : parseStrBody (f + 1) ('\\' :: '"' :: (escQ sd' ++ ('"' :: rest))) =
          (parseStrBody f (escQ sd' ++ ('"' :: rest))).map
            (fun p => ('"' :: p.1, p.2)) := rfl
      rw [show escQChar '"' ++ (escQ sd' ++ ('"' :: rest)) =
        '\\' :: '"' :: (escQ sd' ++ ('"' :: rest)) from rfl, hs, ih f rest hf']
      rfl
    by_cases h2 : c = '\\'
    · subst h2
      have hs : parseStrBody (f + 1) ('\\' :: '\\' :: (escQ sd' ++ ('"' :: rest))) =
          (parseStrBody f (escQ sd' ++ ('"' :: rest))).map
            (fun p => ('\\' :: p.1, p.2)) := rfl
      rw [show escQChar '\\' ++ (escQ sd' ++ ('"' :: rest)) =
        '\\' :: '\\' :: (escQ sd' ++ ('"' :: rest)) from rfl, hs, ih f rest hf']
      rfl
    by_cases h3 : c = '\x08'
    · subst h3
      have hs : parseStrBody (f + 1) ('\\' :: 'b' :: (escQ sd' ++ ('"' :: rest))) =
          (parseStrBody f (escQ sd' ++ ('"' :: rest))).map
            (fun p => ('\x08' :: p.1, p.2)) := rfl
      rw [show escQChar '\x08' ++ (escQ sd' ++ ('"' :: rest)) =
        '\\' :: 'b' :: (escQ sd' ++ ('"' :: rest)) from rfl, hs, ih f rest hf']
      rfl
    by_cases h4 : c = '\x0c'
    · subst h4
      have hs : parseStrBody (f + 1) ('\\' :: 'f' :: (escQ sd' ++ ('"' :: rest))) =
          (parseStrBody f (escQ sd' ++ ('"' :: rest))).map
            (fun p => ('\x0c' :: p.1, p.2)) := rfl
      rw [show escQChar '\x0c' ++ (escQ sd' ++ ('"' :: rest)) =
        '\\' :: 'f' :: (escQ sd' ++ ('"' :: rest)) from rfl, hs, ih f rest hf']
      rfl
    by_cases h5 : c = '\n'
    · subst h5
      have hs : parseStrBody (f + 1) ('\\' :: 'n' :: (escQ sd' ++ ('"' :: rest))) =
          (parseStrBody f (escQ sd' ++ ('"' :: rest))).map
            (fun p => ('\n' :: p.1, p.2)) := rfl
      rw [show escQChar '\n' ++ (escQ sd' ++ ('"' :: rest)) =
        '\\' :: 'n' :: (escQ sd' ++ ('"' :: rest)) from rfl, hs, ih f rest hf']
      rfl
    by_cases h6 : c = '\r'
    · subst h6
      have hs : parseStrBody (f + 1) ('\\' :: 'r' :: (escQ sd' ++ ('"' :: rest))) =
          (parseStrBody f (escQ sd' ++ ('"' :: rest))).map
            (fun p => ('\r' :: p.1, p.2)) := rfl
      rw [show escQChar '\r' ++ (escQ sd' ++ ('"' :: rest)) =
        '\\' :: 'r' :: (escQ sd' ++ ('"' :: rest)) from rfl, hs, ih f rest hf']
      rfl
    by_cases h7 : c = '\t'
    · subst h7
      have hs : parseStrBody (f + 1) ('\\' :: 't' :: (escQ sd' ++ ('"' :: rest))) =
          (parseStrBody f (escQ sd' ++ ('"' :: rest))).map
            (fun p => ('\t' :: p.1, p.2)) := rfl
      rw [show escQChar '\t' ++ (escQ sd' ++ ('"' :: rest)) =
        '\\' :: 't' :: (escQ sd' ++ ('"' :: rest)) from rfl, hs, ih f rest hf']
      rfl
    by_cases h8 : c.toNat < 32
    · have hesc : escQChar c =
          ['\\', 'u', '0', '0', hexDigitChar (c.toNat / 16), hexDigitChar (c.toNat % 16)] := by
        unfold escQChar
        rw [if_neg h1, if_neg h2, if_neg h3, if_neg h4, if_neg h5, if_neg h6, if_neg h7,
          if_pos h8]
      rw [hesc]
      show parseStrBody (f + 1) ('\\' :: 'u' :: '0' :: '0' ::
        hexDigitChar (c.toNat / 16) :: hexDigitChar (c.toNat % 16) ::
          (escQ sd' ++ ('"' :: rest))) = _
      rw [parseStrBody_u_step f _ _ (c.toNat / 16) (c.toNat % 16) _
        (hexVal_hexDigitChar _ (by omega)) (hexVal_hexDigitChar _ (by omega)) (by omega)]
      rw [ih f rest hf']
      have hc : Char.ofNat (16 * (c.toNat / 16) + c.toNat % 16) = c := by
        have : 16 * (c.toNat / 16) + c.toNat % 16 = c.toNat := by omega
        rw [this]
        exact Char.ofNat_toNat c
      rw [hc]
      rfl
    · have hesc : escQChar c = [c] := by
        unfold escQChar
        rw [if_neg h1, if_neg h2, if_neg h3, if_neg h4, if_neg h5, if_neg h6, if_neg h7,
          if_neg h8]
      rw [hesc]
      show parseStrBody (f + 1) (c :: (escQ sd' ++ ('"' :: rest))) = _
      rw [parseStrBody_plain f c _ h1 h2 h8]
      rw [ih f rest hf']
      rfl

theorem skipWs_idem (l : List Char) : skipWs (skipWs l) = skipWs l := by
  induction l with
  | nil => rfl
  | cons c t ih =>
    by_cases h : jsonWs c = true
    · have h1 : skipWs (c :: t) = skipWs t := by
        unfold skipWs
        rw [List.dropWhile_cons_of_pos h]
      rw [h1]
      exact ih
    · have hf : jsonWs c = false := by simpa using h
      rw [skipWs_not_ws c t hf, skipWs_not_ws c t hf]

theorem parseVal_skip (fuel : Nat) (l : List Char) :
    parseVal (fuel + 1) l = parseVal (fuel + 1) (skipWs l) := by
  simp only [parseVal]
  rw [skipWs_idem]

theorem parseVal_ws (fuel : Nat) (sp l : List Char) (h : sp.all jsonWs = true) :
    parseVal (fuel + 1) (sp ++ l) = parseVal (fuel + 1) l := by
  rw [parseVal_skip fuel (sp ++ l), skipWs_ws_chunk sp l h, ← parseVal_skip fuel l]

theorem parseObjItems_skip (fuel : Nat) (l : List Char) :
    parseObjItems (fuel + 1) l = parseObjItems (fuel + 1) (skipWs l) := by
  simp only [parseObjItems]
  rw [skipWs_idem]

theorem parseObjItems_ws (fuel : Nat) (sp l : List Char) (h : sp.all jsonWs = true) :
    parseObjItems (fuel + 1) (sp ++ l) = parseObjItems (fuel + 1) l := by
  rw [parseObjItems_skip fuel (sp ++ l), skipWs_ws_chunk sp l h,
    ← parseObjItems_skip fuel l]

theorem parseVal_lit_null (f : Nat) (rest : List Char) :
    parseVal (f + 1) ("null".data ++ rest) = some (Json.null, rest) := rfl

theorem parseVal_lit_true (f : Nat) (rest : List Char) :
    parseVal (f + 1) ("true".data ++ rest) = some (Json.bool true, rest) := rfl

theorem parseVal_lit_false (f : Nat) (rest : List Char) :
    parseVal (f + 1) ("false".data ++ rest) = some (Json.bool false, rest) := rfl

theorem parseVal_lit_arrNil (f : Nat) (rest : List Char) :
    parseVal (f + 1) ("[]".data ++ rest) = some (Json.arr [], rest) := rfl

theorem parseVal_lit_objNil (f : Nat) (rest : List Char) :
    parseVal (f + 1) ('{' :: ('}' :: rest)) = some (Json.obj [], rest) := rfl

theorem parseVal_quote (f : Nat) (X : List Char) :
    parseVal (f + 1) ('"' :: X) =
      (parseStrBody (X.length + 1) X).map
        (fun p => (Json.str (String.mk p.1), p.2)) := rfl

theorem parseVal_lit_str (f : Nat) (s : String) (rest : List Char) :
    parseVal (f + 1) (strQuote s ++ rest) = some (Json.str s, rest) := by
  have hX : strQuote s ++ rest = '"' :: (escQ s.data ++ ('"' :: rest)) := by
    show ('"' :: (escQ s.data ++ ['"'])) ++ rest = _
    simp
  rw [hX, parseVal_quote]
  rw [parseStr_escQ s.data _ rest (by
    have := escQ_len_ge s.data
    simp only [List.length_append, List.length_cons]
    omega)]
  rfl

theorem parseVal_arr_go (fuel : Nat) (t : List Char) (d : Char) (u : List Char)
    (hsk : skipWs t = d :: u) (hd : ¬ d = ']') :
    parseVal (fuel + 1) ('[' :: t) =
      (parseArrItems fuel t).map (fun p => (Json.arr p.1, p.2)) := by
  have h0 : parseVal (fuel + 1) ('[' :: t) =
      (match skipWs t with
       | [] => none
       | d :: u =>
         if d = ']' then some (Json.arr [], u)
         else (parseArrItems fuel t).map (fun p => (Json.arr p.1, p.2))) := rfl
  rw [h0, hsk]
  show (if d = ']' then some (Json.arr [], u)
    else (parseArrItems fuel t).map (fun p => (Json.arr p.1, p.2))) = _
  rw [if_neg hd]

theorem parseVal_obj_go (fuel : Nat) (t : List Char) (d : Char) (u : List Char)
    (hsk : skipWs t = d :: u) (hd : ¬ d = '}') :
    parseVal (fuel + 1) ('{' :: t) =
      (parseObjItems fuel t).map (fun p => (Json.obj (dedupKeys p.1), p.2)) := by
  have h0 : parseVal (fuel + 1) ('{' :: t) =
      (match skipWs t with
       | [] => none
       | d :: u =>
         if d = '}' then some (Json.obj [], u)
         else (parseObjItems fuel t).map
           (fun p => (Json.obj (dedupKeys p.1), p.2))) := rfl
  rw [h0, hsk]
  show (if d = '}' then some (Json.obj [], u)
    else (parseObjItems fuel t).map
      (fun p => (Json.obj (dedupKeys p.1), p.2))) = _
  rw [if_neg hd]

theorem parseArrItems_go (fuel : Nat) (l r : List Char) (v : Json)
    (hv : parseVal fuel l = some (v, r)) :
    parseArrItems (fuel + 1) l =
      (match skipWs r with
       | [] => none
       | c :: u =>
         if c = ',' then (parseArrItems fuel u).map (fun p => (v :: p.1, p.2))
         else if c = ']' then some ([v], u)
         else none) := by
  have h0 : parseArrItems (fuel + 1) l =
      (match parseVal fuel l with
       | none => none
       | some (v, r) =>
         match skipWs r with
         | [] => none
         | c :: u =>
           if c = ',' then (parseArrItems fuel u).map (fun p => (v :: p.1, p.2))
           else if c = ']' then some ([v], u)
           else none) := rfl
  rw [h0, hv]

theorem parseArrItems_last (fuel : Nat) (l : List Char) (v : Json) (r u : List Char)
    (hv : parseVal fuel l = some (v, r)) (hsk : skipWs r = ']' :: u) :
    parseArrItems (fuel + 1) l = some ([v], u) := by
  rw [parseArrItems_go fuel l r v hv, hsk]
  rfl

theorem parseArrItems_cons (fuel : Nat) (l : List Char) (v : Json) (r u : List Char)
    (hv : parseVal fuel l = some (v, r)) (hsk : skipWs r = ',' :: u) :
    parseArrItems (fuel + 1) l =
      (parseArrItems fuel u).map (fun p => (v :: p.1, p.2)) := by
  rw [parseArrItems_go fuel l r v hv, hsk]
  rfl

theorem parseObjItems_go (fuel : Nat) (t kd r : List Char)
    (hstr : parseStrBody (t.length + 1) t = some (kd, r)) :
    parseObjItems (fuel + 1) ('"' :: t) =
      (match skipWs r with
       | [] => none
       | d :: r2 =>
         if d = ':' then
           match parseVal fuel r2 with
           | none => none
           | some (v, r3) =>
             match skipWs r3 with
             | [] => none
             | e :: r4 =>
               if e = ',' then
                 (parseObjItems fuel r4).map
                   (fun p => ((String.mk kd, v) :: p.1, p.2))
               else if e = '}' then some ([(String.mk kd, v)], r4)
               else none
         else none) := by
  have h0 : parseObjItems (fuel + 1) ('"' :: t) =
      (match parseStrBody (t.length + 1) t with
       | none => none
       | some (k, r) =>
         match skipWs r with
         | [] => none
         | d :: r2 =>
           if d = ':' then
             match parseVal fuel r2 with
             | none => none
             | some (v, r3) =>
               match skipWs r3 with
               | [] => none
               | e :: r4 =>
                 if e = ',' then
                   (parseObjItems fuel r4).map
                     (fun p => ((String.mk k, v) :: p.1, p.2))
                 else if e = '}' then some ([(String.mk k, v)], r4)
                 else none
           else none) := rfl
  rw [h0, hstr]

theorem parseObjItems_last (fuel : Nat) (t kd r r2 : List Char) (v : Json)
    (r3 r4 : List Char)
    (hstr : parseStrBody (t.length + 1) t = some (kd, r))
    (hskr : skipWs r = ':' :: r2)
    (hval : parseVal fuel r2 = some (v, r3))
    (hsk3 : skipWs r3 = '}' :: r4) :
    parseObjItems (fuel + 1) ('"' :: t) = some ([(String.mk kd, v)], r4) := by
  rw [parseObjItems_go fuel t kd r hstr, hskr]
  show (if (':' : Char) = ':' then
      match parseVal fuel r2 with
      | none => none
      | some (v, r3) =>
        match skipWs r3 with
        | [] => none
        | e :: r4 =>
          if e = ',' then
            (parseObjItems fuel r4).map
              (fun p => ((String.mk kd, v) :: p.1, p.2))
          else if e = '}' then some ([(String.mk kd, v)], r4)
          else none
    else none) = _
  rw [if_pos rfl, hval]
  show (match skipWs r3 with
    | [] => none
    | e :: r4 =>
      if e = ',' then
        (parseObjItems fuel r4).map
          (fun p : List (String × Json) × List Char => ((String.mk kd, v) :: p.1, p.2))
      else if e = '}' then some ([(String.mk kd, v)], r4)
      else none) = _
  rw [hsk3]
  show (if ('}' : Char) = ',' then
      (parseObjItems fuel r4).map (fun p => ((String.mk kd, v) :: p.1, p.2))
    else if ('}' : Char) = '}' then some ([(String.mk kd, v)], r4)
    else none) = _
  rw [if_neg (by decide), if_pos rfl]

theorem parseObjItems_cons (fuel : Nat) (t kd r r2 : List Char) (v : Json)
    (r3 r4 : List Char)
    (hstr : parseStrBody (t.length + 1) t = some (kd, r))
    (hskr : skipWs r = ':' :: r2)
    (hval : parseVal fuel r2 = some (v, r3))
    (hsk3 : skipWs r3 = ',' :: r4) :
    parseObjItems (fuel + 1) ('"' :: t) =
      (parseObjItems fuel r4).map (fun p => ((String.mk kd, v) :: p.1, p.2)) := by
  rw [parseObjItems_go fuel t kd r hstr, hskr]
  show (if (':' : Char) = ':' then
      match parseVal fuel r2 with
      | none => none
      | some (v, r3) =>
        match skipWs r3 with
        | [] => none
        | e :: r4 =>
          if e = ',' then
            (parseObjItems fuel r4).map
              (fun p => ((String.mk kd, v) :: p.1, p.2))
          else if e = '}' then some ([(String.mk kd, v)], r4)
          else none
    else none) = _
  rw [if_pos rfl, hval]
  show (match skipWs r3 with
    | [] => none
    | e :: r4 =>
      if e = ',' then
        (parseObjItems fuel r4).map
          (fun p : List (String × Json) × List Char => ((String.mk kd, v) :: p.1, p.2))
      else if e = '}' then some ([(String.mk kd, v)], r4)
      else none) = _
  rw [hsk3]
  show (if (',' : Char) = ',' then
      (parseObjItems fuel r4).map (fun p => ((String.mk kd, v) :: p.1, p.2))
    else if (',' : Char) = '}' then some ([(String.mk kd, v)], r4)
    else none) = _
  rw [if_pos rfl]

theorem printVal_head (ind : Nat) (j : Json) (h : jsonWf j = true) :
    ∃ c u, printVal ind j = c :: u ∧ jsonWs c = false ∧ ¬ c = ']' ∧ ¬ c = '}' ∧
      ¬ c = 'M' := by
  cases j with
  | null => exact ⟨'n', "ull".data, rfl, by decide, by decide, by decide, by decide⟩
  | bool b =>
    cases b with
    | true => exact ⟨'t', "rue".data, rfl, by decide, by decide, by decide, by decide⟩
    | false => exact ⟨'f', "alse".data, rfl, by decide, by decide, by decide, by decide⟩
  | str s =>
    exact ⟨'"', escQ s.data ++ ['"'], rfl, by decide, by decide, by decide, by decide⟩
  | num raw => simp [jsonWf] at h
  | arr xs =>
    cases xs with
    | nil => exact ⟨'[', [']'], rfl, by decide, by decide, by decide, by decide⟩
    | cons x xt =>
      exact ⟨'[', '\n' :: (printItems (ind + 2) (x :: xt) ++
        '\n' :: (pad ind ++ [']'])), rfl, by decide, by decide, by decide, by decide⟩
  | obj kvs =>
    cases kvs with
    | nil => exact ⟨'{', ['}'], rfl, by decide, by decide, by decide, by decide⟩
    | cons kv kvt =>
      exact ⟨'{', '\n' :: (printFields (ind + 2) (kv :: kvt) ++
        '\n' :: (pad ind ++ ['}'])), rfl, by decide, by decide, by decide, by decide⟩

theorem printItems_shape (ind : Nat) (x : Json) (xs : List Json) :
    ∃ tp : List Char, printItems ind (x :: xs) = pad ind ++ (printVal ind x ++ tp) := by
  cases xs with
  | nil => exact ⟨[], by simp [printItems]⟩
  | cons y ys =>
    exact ⟨',' :: '\n' :: printItems ind (y :: ys), by simp [printItems]⟩

theorem printFields_shape (ind : Nat) (kv : String × Json)
    (kvs : List (String × Json)) :
    ∃ tq : List Char, printFields ind (kv :: kvs) = pad ind ++ ('"' :: tq) := by
  cases kvs with
  | nil =>
    exact ⟨escQ kv.1.data ++ ('"' :: (':' :: (' ' :: printVal ind kv.2))),
      by simp [printFields, strQuote]⟩
  | cons g gs =>
    exact ⟨escQ kv.1.data ++ ('"' :: (':' :: (' ' :: (printVal ind kv.2 ++
      (',' :: '\n' :: printFields ind (g :: gs)))))),
      by simp [printFields, strQuote]⟩

theorem sizeJ_pos (j : Json) : 1 ≤ sizeJ j := by
  cases j
  all_goals simp [sizeJ]

theorem setOwn_fresh (m : List (String × Json)) (k : String) (v : Json)
    (h : ∀ e ∈ m, ¬ e.1 = k) : setOwn m k v = m ++ [(k, v)] := by
  unfold setOwn
  rw [if_neg]
  intro hc
  rw [List.any_eq_true] at hc
  rcases hc with ⟨e, he, heq⟩
  exact h e he (by simpa using heq)

theorem dedup_go (ps : List (String × Json)) : ∀ acc : List (String × Json),
    (∀ kv ∈ ps, ∀ e ∈ acc, ¬ e.1 = kv.1) → noDupKeys ps = true →
    ps.foldl (fun a kv => setOwn a kv.1 kv.2) acc = acc ++ ps := by
  induction ps with
  | nil =>
    intro acc _ _
    simp
  | cons kv pt ih =>
    intro acc hfr hnd
    rw [List.foldl_cons]
    have hand : ((!(pt.any (fun e => e.1 == kv.1))) && noDupKeys pt) = true := hnd
    have hnd' : noDupKeys pt = true := (Bool.and_eq_true_iff.mp hand).2
    have hnokv : ∀ e ∈ pt, ¬ e.1 = kv.1 := by
      have h2 := (Bool.and_eq_true_iff.mp hand).1
      rw [Bool.not_eq_true'] at h2
      rw [List.any_eq_false] at h2
      intro e he heq
      exact h2 e he (by simpa using heq)
    have hstep : setOwn acc kv.1 kv.2 = acc ++ [(kv.1, kv.2)] :=
      setOwn_fresh acc kv.1 kv.2 (fun e he => hfr kv (by simp) e he)
    show List.foldl _ (setOwn acc kv.1 kv.2) pt = _
    rw [hstep]
    have hfr' : ∀ kv' ∈ pt, ∀ e ∈ acc ++ [(kv.1, kv.2)], ¬ e.1 = kv'.1 := by
      intro kv' hkv' e he heq
      rcases List.mem_append.mp he with h1 | h2
      · exact hfr kv' (by simp [hkv']) e h1 heq
      · have he2 : e = (kv.1, kv.2) := by simpa using h2
        rw [he2] at heq
        exact hnokv kv' hkv' heq.symm
    rw [ih (acc ++ [(kv.1, kv.2)]) hfr' hnd']
    simp

theorem dedupKeys_id (kvs : List (String × Json)) (h : noDupKeys kvs = true) :
    dedupKeys kvs = kvs := by
  unfold dedupKeys
  rw [dedup_go kvs [] (by intro kv _ e he; exact absurd he (List.not_mem_nil e)) h]
  rfl

theorem parse_print : ∀ fuel : Nat,
    (∀ (j : Json) (ind : Nat) (sp rest : List Char),
      sp.all jsonWs = true → jsonWf j = true → sizeJ j ≤ fuel →
      parseVal fuel (sp ++ (printVal ind j ++ rest)) = some (j, rest)) ∧
    (∀ (x : Json) (xs : List Json) (ind q : Nat) (sp rest : List Char),
      sp.all jsonWs = true → jsonWfList (x :: xs) = true → sizeL (x :: xs) ≤ fuel →
      parseArrItems fuel
        (sp ++ (printItems ind (x :: xs) ++ ('\n' :: (pad q ++ (']' :: rest))))) =
        some (x :: xs, rest)) ∧
    (∀ (kv : String × Json) (kvs : List (String × Json)) (ind q : Nat)
      (sp rest : List Char),
      sp.all jsonWs = true → jsonWfFields (kv :: kvs) = true →
      sizeF (kv :: kvs) ≤ fuel →
      parseObjItems fuel
        (sp ++ (printFields ind (kv :: kvs) ++ ('\n' :: (pad q ++ ('}' :: rest))))) =
        some (kv :: kvs, rest)) := by
  intro fuel
  induction fuel with
  | zero =>
    refine ⟨?_, ?_, ?_⟩
    · intro j ind sp rest _ _ hsz
      exact absurd hsz (by have := sizeJ_pos j; omega)
    · intro x xs ind q sp rest _ _ hsz
      have h1 : sizeL (x :: xs) = 1 + sizeJ x + sizeL xs := rfl
      rw [h1] at hsz
      exact absurd hsz (by omega)
    · intro kv kvs ind q sp rest _ _ hsz
      have h1 : sizeF (kv :: kvs) = 1 + sizeJ kv.2 + sizeF kvs := rfl
      rw [h1] at hsz
      exact absurd hsz (by omega)
  | succ f ih =>
    obtain ⟨ihA, ihB, ihC⟩ := ih
    refine ⟨?_, ?_, ?_⟩
    · -- one value
      intro j ind sp rest hsp hwf hsz
      rw [parseVal_ws f sp _ hsp]
      cases j with
      | null => exact parseVal_lit_null f rest
      | bool b =>
        cases b with
        | true => exact parseVal_lit_true f rest
        | false => exact parseVal_lit_false f rest
      | num raw => simp [jsonWf] at hwf
      | str s => exact parseVal_lit_str f s rest
      | arr xs =>
        cases xs with
        | nil => exact parseVal_lit_arrNil f rest
        | cons x xt =>
          have hwl : jsonWfList (x :: xt) = true := hwf
          have hwx : jsonWf x = true := by
            have h2 : (jsonWf x && jsonWfList xt) = true := hwl
            exact (Bool.and_eq_true_iff.mp h2).1
          have hsz' : sizeL (x :: xt) ≤ f := by
            have h1 : sizeJ (Json.arr (x :: xt)) = 1 + sizeL (x :: xt) := rfl
            rw [h1] at hsz
            omega
          have hshape : printVal ind (Json.arr (x :: xt)) ++ rest =
              '[' :: ('\n' :: (printItems (ind + 2) (x :: xt) ++
                ('\n' :: (pad ind ++ (']' :: rest))))) := by
            show ('[' :: '\n' :: (printItems (ind + 2) (x :: xt) ++
              '\n' :: (pad ind ++ [']']))) ++ rest = _
            simp
          rw [hshape]
          obtain ⟨c, u0, hcu, hcw, hcne, _⟩ := printVal_head (ind + 2) x hwx
          obtain ⟨tp, htp⟩ := printItems_shape (ind + 2) x xt
          have hsk : skipWs ('\n' :: (printItems (ind + 2) (x :: xt) ++
              ('\n' :: (pad ind ++ (']' :: rest))))) =
              c :: (u0 ++ (tp ++ ('\n' :: (pad ind ++ (']' :: rest))))) := by
            have hre : '\n' :: (printItems (ind + 2) (x :: xt) ++
                ('\n' :: (pad ind ++ (']' :: rest)))) =
                ('\n' :: pad (ind + 2)) ++
                  (c :: (u0 ++ (tp ++ ('\n' :: (pad ind ++ (']' :: rest)))))) := by
              rw [htp, hcu]
              simp
            rw [hre, skipWs_ws_chunk _ _ (by
              rw [List.all_cons]
              exact Bool.and_eq_true_iff.mpr ⟨by decide, pad_all_ws (ind + 2)⟩),
              skipWs_not_ws c _ hcw]
          rw [parseVal_arr_go f _ c _ hsk hcne]
          have hB := ihB x xt (ind + 2) ind ['\n'] rest (by decide) hwl hsz'
          rw [List.singleton_append] at hB
          rw [hB]
          rfl
      | obj kvs =>
        cases kvs with
        | nil => exact parseVal_lit_objNil f rest
        | cons kv kvt =>
          have hwl : (noDupKeys (kv :: kvt) && jsonWfFields (kv :: kvt)) = true := hwf
          have hnd := (Bool.and_eq_true_iff.mp hwl).1
          have hwfF := (Bool.and_eq_true_iff.mp hwl).2
          have hsz' : sizeF (kv :: kvt) ≤ f := by
            have h1 : sizeJ (Json.obj (kv :: kvt)) = 1 + sizeF (kv :: kvt) := rfl
            rw [h1] at hsz
            omega
          have hshape : printVal ind (Json.obj (kv :: kvt)) ++ rest =
              '{' :: ('\n' :: (printFields (ind + 2) (kv :: kvt) ++
                ('\n' :: (pad ind ++ ('}' :: rest))))) := by
            show ('{' :: '\n' :: (printFields (ind + 2) (kv :: kvt) ++
              '\n' :: (pad ind ++ ['}']))) ++ rest = _
            simp
          rw [hshape]
          obtain ⟨tq, htq⟩ := printFields_shape (ind + 2) kv kvt
          have hsk : skipWs ('\n' :: (printFields (ind + 2) (kv :: kvt) ++
              ('\n' :: (pad ind ++ ('}' :: rest))))) =
              '"' :: (tq ++ ('\n' :: (pad ind ++ ('}' :: rest)))) := by
            have hre : '\n' :: (printFields (ind + 2) (kv :: kvt) ++
                ('\n' :: (pad ind ++ ('}' :: rest)))) =
                ('\n' :: pad (ind + 2)) ++
                  ('"' :: (tq ++ ('\n' :: (pad ind ++ ('}' :: rest))))) := by
              rw [htq]
              simp
            rw [hre, skipWs_ws_chunk _ _ (by
              rw [List.all_cons]
              exact Bool.and_eq_true_iff.mpr ⟨by decide, pad_all_ws (ind + 2)⟩),
              skipWs_not_ws '"' _ (by decide)]
          rw [parseVal_obj_go f _ '"' _ hsk (by decide)]
          have hC := ihC kv kvt (ind + 2) ind ['\n'] rest (by decide) hwfF hsz'
          rw [List.singleton_append] at hC
          rw [hC]
          show some (Json.obj (dedupKeys (kv :: kvt)), rest) =
            some (Json.obj (kv :: kvt), rest)
          rw [dedupKeys_id _ hnd]
    · -- array items
      intro x xt ind q sp rest hsp hwl hsz
      have hwx : jsonWf x = true := by
        have h2 : (jsonWf x && jsonWfList xt) = true := hwl
        exact (Bool.and_eq_true_iff.mp h2).1
      have hwt : jsonWfList xt = true := by
        have h2 : (jsonWf x && jsonWfList xt) = true := hwl
        exact (Bool.and_eq_true_iff.mp h2).2
      have hszx : sizeJ x ≤ f := by
        have h1 : sizeL (x :: xt) = 1 + sizeJ x + sizeL xt := rfl
        rw [h1] at hsz
        omega
      have hws : (sp ++ pad ind).all jsonWs = true := by
        rw [List.all_append]
        exact Bool.and_eq_true_iff.mpr ⟨hsp, pad_all_ws ind⟩
      cases xt with
      | nil =>
        have hre : sp ++ (printItems ind [x] ++ ('\n' :: (pad q ++ (']' :: rest)))) =
            (sp ++ pad ind) ++ (printVal ind x ++
              ('\n' :: (pad q ++ (']' :: rest)))) := by
          show sp ++ ((pad ind ++ printVal ind x) ++ _) = _
          simp
        rw [hre]
        have hval := ihA x ind (sp ++ pad ind)
          ('\n' :: (pad q ++ (']' :: rest))) hws hwx hszx
        have hskr : skipWs ('\n' :: (pad q ++ (']' :: rest))) = ']' :: rest := by
          rw [show '\n' :: (pad q ++ (']' :: rest)) =
            ('\n' :: pad q) ++ (']' :: rest) by simp,
            skipWs_ws_chunk _ _ (by
              rw [List.all_cons]
              exact Bool.and_eq_true_iff.mpr ⟨by decide, pad_all_ws q⟩),
            skipWs_not_ws ']' _ (by decide)]
        exact parseArrItems_last f _ x _ rest hval hskr
      | cons y yt =>
        have hre : sp ++ (printItems ind (x :: y :: yt) ++
            ('\n' :: (pad q ++ (']' :: rest)))) =
            (sp ++ pad ind) ++ (printVal ind x ++
              (',' :: ('\n' :: (printItems ind (y :: yt) ++
                ('\n' :: (pad q ++ (']' :: rest))))))) := by
          show sp ++ ((pad ind ++ (printVal ind x ++
            ',' :: '\n' :: printItems ind (y :: yt))) ++ _) = _
          simp
        rw [hre]
        have hval := ihA x ind (sp ++ pad ind)
          (',' :: ('\n' :: (printItems ind (y :: yt) ++
            ('\n' :: (pad q ++ (']' :: rest)))))) hws hwx hszx
        have hskr : skipWs (',' :: ('\n' :: (printItems ind (y :: yt) ++
            ('\n' :: (pad q ++ (']' :: rest)))))) =
            ',' :: ('\n' :: (printItems ind (y :: yt) ++
              ('\n' :: (pad q ++ (']' :: rest))))) :=
          skipWs_not_ws ',' _ (by decide)
        have hszr : sizeL (y :: yt) ≤ f := by
          have h1 : sizeL (x :: y :: yt) = 1 + sizeJ x + sizeL (y :: yt) := rfl
          rw [h1] at hsz
          have := sizeJ_pos x
          omega
        have hrec := ihB y yt ind q ['\n'] rest (by decide) hwt hszr
        rw [List.singleton_append] at hrec
        rw [parseArrItems_cons f _ x _ _ hval hskr, hrec]
        rfl
    · -- object members
      intro kv kvt ind q sp rest hsp hwfF hsz
      have hwv : jsonWf kv.2 = true := by
        have h2 : (jsonWf kv.2 && jsonWfFields kvt) = true := hwfF
        exact (Bool.and_eq_true_iff.mp h2).1
      have hwt : jsonWfFields kvt = true := by
        have h2 : (jsonWf kv.2 && jsonWfFields kvt) = true := hwfF
        exact (Bool.and_eq_true_iff.mp h2).2
      have hszv : sizeJ kv.2 ≤ f := by
        have h1 : sizeF (kv :: kvt) = 1 + sizeJ kv.2 + sizeF kvt := rfl
        rw [h1] at hsz
        omega
      have hws : (sp ++ pad ind).all jsonWs = true := by
        rw [List.all_append]
        exact Bool.and_eq_true_iff.mpr ⟨hsp, pad_all_ws ind⟩
      cases kvt with
      | nil =>
        have hre : sp ++ (printFields ind [kv] ++
            ('\n' :: (pad q ++ ('}' :: rest)))) =
            (sp ++ pad ind) ++ ('"' :: (escQ kv.1.data ++ ('"' :: (':' :: (' ' ::
              (printVal ind kv.2 ++ ('\n' :: (pad q ++ ('}' :: rest))))))))) := by
          show sp ++ ((pad ind ++ (strQuote kv.1 ++
            ':' :: ' ' :: printVal ind kv.2)) ++ _) = _
          simp [strQuote]
        rw [hre, parseObjItems_ws f _ _ hws]
        have hstr := parseStr_escQ kv.1.data
          ((escQ kv.1.data ++ ('"' :: (':' :: (' ' :: (printVal ind kv.2 ++
            ('\n' :: (pad q ++ ('}' :: rest)))))))).length + 1)
          (':' :: (' ' :: (printVal ind kv.2 ++
            ('\n' :: (pad q ++ ('}' :: rest)))))) (by
          have := escQ_len_ge kv.1.data
          simp only [List.length_append, List.length_cons]
          omega)
        have hskr : skipWs (':' :: (' ' :: (printVal ind kv.2 ++
            ('\n' :: (pad q ++ ('}' :: rest)))))) =
            ':' :: (' ' :: (printVal ind kv.2 ++
              ('\n' :: (pad q ++ ('}' :: rest))))) :=
          skipWs_not_ws ':' _ (by decide)
        have hval : parseVal f (' ' :: (printVal ind kv.2 ++
            ('\n' :: (pad q ++ ('}' :: rest))))) =
            some (kv.2, '\n' :: (pad q ++ ('}' :: rest))) := by
          have := ihA kv.2 ind [' ']
            ('\n' :: (pad q ++ ('}' :: rest))) (by decide) hwv hszv
          rw [List.singleton_append] at this
          exact this
        have hsk3 : skipWs ('\n' :: (pad q ++ ('}' :: rest))) = '}' :: rest := by
          rw [show '\n' :: (pad q ++ ('}' :: rest)) =
            ('\n' :: pad q) ++ ('}' :: rest) by simp,
            skipWs_ws_chunk _ _ (by
              rw [List.all_cons]
              exact Bool.and_eq_true_iff.mpr ⟨by decide, pad_all_ws q⟩),
            skipWs_not_ws '}' _ (by decide)]
        exact parseObjItems_last f _ kv.1.data _ _ kv.2 _ rest hstr hskr hval hsk3
      | cons g gs =>
        have hre : sp ++ (printFields ind (kv :: g :: gs) ++
            ('\n' :: (pad q ++ ('}' :: rest)))) =
            (sp ++ pad ind) ++ ('"' :: (escQ kv.1.data ++ ('"' :: (':' :: (' ' ::
              (printVal ind kv.2 ++ (',' :: ('\n' :: (printFields ind (g :: gs) ++
                ('\n' :: (pad q ++ ('}' :: rest)))))))))))) := by
          show sp ++ ((pad ind ++ (strQuote kv.1 ++ ':' :: ' ' ::
            printVal ind kv.2 ++ ',' :: '\n' :: printFields ind (g :: gs))) ++ _) = _
          simp [strQuote]
        rw [hre, parseObjItems_ws f _ _ hws]
        have hstr := parseStr_escQ kv.1.data
          ((escQ kv.1.data ++ ('"' :: (':' :: (' ' :: (printVal ind kv.2 ++
            (',' :: ('\n' :: (printFields ind (g :: gs) ++
              ('\n' :: (pad q ++ ('}' :: rest))))))))))).length + 1)
          (':' :: (' ' :: (printVal ind kv.2 ++ (',' :: ('\n' ::
            (printFields ind (g :: gs) ++ ('\n' :: (pad q ++ ('}' :: rest)))))))))
          (by
            have := escQ_len_ge kv.1.data
            simp only [List.length_append, List.length_cons]
            omega)
        have hskr : skipWs (':' :: (' ' :: (printVal ind kv.2 ++ (',' :: ('\n' ::
            (printFields ind (g :: gs) ++ ('\n' :: (pad q ++ ('}' :: rest))))))))) =
            ':' :: (' ' :: (printVal ind kv.2 ++ (',' :: ('\n' ::
              (printFields ind (g :: gs) ++ ('\n' :: (pad q ++ ('}' :: rest)))))))) :=
          skipWs_not_ws ':' _ (by decide)
        have hval : parseVal f (' ' :: (printVal ind kv.2 ++ (',' :: ('\n' ::
            (printFields ind (g :: gs) ++ ('\n' :: (pad q ++ ('}' :: rest)))))))) =
            some (kv.2, ',' :: ('\n' :: (printFields ind (g :: gs) ++
              ('\n' :: (pad q ++ ('}' :: rest)))))) := by
          have := ihA kv.2 ind [' ']
            (',' :: ('\n' :: (printFields ind (g :: gs) ++
              ('\n' :: (pad q ++ ('}' :: rest)))))) (by decide) hwv hszv
          rw [List.singleton_append] at this
          exact this
        have hsk3 : skipWs (',' :: ('\n' :: (printFields ind (g :: gs) ++
            ('\n' :: (pad q ++ ('}' :: rest)))))) =
            ',' :: ('\n' :: (printFields ind (g :: gs) ++
              ('\n' :: (pad q ++ ('}' :: rest))))) :=
          skipWs_not_ws ',' _ (by decide)
        have hszr : sizeF (g :: gs) ≤ f := by
          have h1 : sizeF (kv :: g :: gs) = 1 + sizeJ kv.2 + sizeF (g :: gs) := rfl
          rw [h1] at hsz
          have := sizeJ_pos kv.2
          omega
        have hrec := ihC g gs ind q ['\n'] rest (by decide) hwt hszr
        rw [List.singleton_append] at hrec
        rw [parseObjItems_cons f _ kv.1.data _ _ kv.2 _ _ hstr hskr hval hsk3, hrec]
        rfl

/-- `JSON.parse (JSON.stringify (v, null, 2))` recovers `v` for every
numeral-free, duplicate-key-free value, at any starting indentation. -/
theorem parseJson_print (ind : Nat) (j : Json) (hwf : jsonWf j = true)
    (hfl : sizeJ j ≤ (printVal ind j).length + 1) :
    parseJson (printVal ind j) = some j := by
  unfold parseJson
  have hA := (parse_print ((printVal ind j).length + 1)).1 j ind [] [] (by decide)
    hwf hfl
  rw [List.nil_append, List.append_nil] at hA
  rw [hA]
  rfl

mutual

theorem sizeJ_le (ind : Nat) (j : Json) (h : jsonWf j = true) :
    sizeJ j + 1 ≤ (printVal ind j).length := by
  cases j with
  | null =>
    show sizeJ Json.null + 1 ≤ ("null".data).length
    decide
  | bool b =>
    cases b with
    | true =>
      show sizeJ (Json.bool true) + 1 ≤ ("true".data).length
      decide
    | false =>
      show sizeJ (Json.bool false) + 1 ≤ ("false".data).length
      decide
  | str s =>
    have h1 : sizeJ (Json.str s) = 1 := rfl
    have h2 : (printVal ind (Json.str s)).length = (escQ s.data).length + 2 := by
      show ('"' :: (escQ s.data ++ ['"'])).length = _
      simp
    rw [h1, h2]
    omega
  | num raw => simp [jsonWf] at h
  | arr xs =>
    cases xs with
    | nil =>
      show sizeJ (Json.arr []) + 1 ≤ ("[]".data).length
      decide
    | cons x xt =>
      have hwl : jsonWfList (x :: xt) = true := h
      have hsl := sizeL_le (ind + 2) (x :: xt) hwl
      have h1 : sizeJ (Json.arr (x :: xt)) = 1 + sizeL (x :: xt) := rfl
      have h2 : (printVal ind (Json.arr (x :: xt))).length =
          2 + ((printItems (ind + 2) (x :: xt)).length + (1 + (ind + 1))) := by
        show ('[' :: '\n' :: (printItems (ind + 2) (x :: xt) ++
          '\n' :: (pad ind ++ [']']))).length = _
        simp [pad]
        omega
      rw [h1, h2]
      omega
  | obj kvs =>
    cases kvs with
    | nil =>
      show sizeJ (Json.obj []) + 1 ≤ (['{', '}'] : List Char).length
      decide
    | cons kv kvt =>
      have hwl : (noDupKeys (kv :: kvt) && jsonWfFields (kv :: kvt)) = true := h
      have hsf := sizeF_le (ind + 2) (kv :: kvt) (Bool.and_eq_true_iff.mp hwl).2
      have h1 : sizeJ (Json.obj (kv :: kvt)) = 1 + sizeF (kv :: kvt) := rfl
      have h2 : (printVal ind (Json.obj (kv :: kvt))).length =
          2 + ((printFields (ind + 2) (kv :: kvt)).length + (1 + (ind + 1))) := by
        show ('{' :: '\n' :: (printFields (ind + 2) (kv :: kvt) ++
          '\n' :: (pad ind ++ ['}']))).length = _
        simp [pad]
        omega
      rw [h1, h2]
      omega

theorem sizeL_le (ind : Nat) (xs : List Json) (h : jsonWfList xs = true) :
    sizeL xs ≤ (printItems ind xs).length := by
  cases xs with
  | nil =>
    show sizeL [] ≤ ([] : List Char).length
    decide
  | cons x xt =>
    have h2 : (jsonWf x && jsonWfList xt) = true := h
    have hwx := (Bool.and_eq_true_iff.mp h2).1
    have hwt := (Bool.and_eq_true_iff.mp h2).2
    have hx := sizeJ_le ind x hwx
    cases xt with
    | nil =>
      have h3 : sizeL [x] = 1 + sizeJ x + 0 := rfl
      have h4 : (printItems ind [x]).length = ind + (printVal ind x).length := by
        show (pad ind ++ printVal ind x).length = _
        simp [pad]
      rw [h3, h4]
      omega
    | cons y yt =>
      have hrec := sizeL_le ind (y :: yt) hwt
      have h3 : sizeL (x :: y :: yt) = 1 + sizeJ x + sizeL (y :: yt) := rfl
      have h4 : (printItems ind (x :: y :: yt)).length =
          ind + ((printVal ind x).length + (2 + (printItems ind (y :: yt)).length)) := by
        show (pad ind ++ (printVal ind x ++
          ',' :: '\n' :: printItems ind (y :: yt))).length = _
        simp [pad]
        omega
      rw [h3, h4]
      omega

theorem sizeF_le (ind : Nat) (kvs : List (String × Json)) (h : jsonWfFields kvs = true) :
    sizeF kvs ≤ (printFields ind kvs).length := by
  cases kvs with
  | nil =>
    show sizeF [] ≤ ([] : List Char).length
    decide
  | cons kv kvt =>
    have h2 : (jsonWf kv.2 && jsonWfFields kvt) = true := h
    have hwv := (Bool.and_eq_true_iff.mp h2).1
    have hwt := (Bool.and_eq_true_iff.mp h2).2
    have hv := sizeJ_le ind kv.2 hwv
    cases kvt with
    | nil =>
      have h3 : sizeF [kv] = 1 + sizeJ kv.2 + 0 := rfl
      have h4 : (printFields ind [kv]).length =
          ind + ((escQ kv.1.data).length + 2 + (2 + (printVal ind kv.2).length)) := by
        show (pad ind ++ (strQuote kv.1 ++ ':' :: ' ' :: printVal ind kv.2)).length = _
        simp [pad, strQuote]
        omega
      rw [h3, h4]
      omega
    | cons g gs =>
      have hrec := sizeF_le ind (g :: gs) hwt
      have h3 : sizeF (kv :: g :: gs) = 1 + sizeJ kv.2 + sizeF (g :: gs) := rfl
      have h4 : (printFields ind (kv :: g :: gs)).length =
          ind + ((escQ kv.1.data).length + 2 + (2 + ((printVal ind kv.2).length +
            (2 + (printFields ind (g :: gs)).length)))) := by
        show (pad ind ++ (strQuote kv.1 ++ ':' :: ' ' :: printVal ind kv.2 ++
          ',' :: '\n' :: printFields ind (g :: gs))).length = _
        simp [pad, strQuote]
        omega
      rw [h3, h4]
      omega

end

/-- The whole-input parse of a printed well-formed value. -/
theorem parseJson_print_wf (j : Json) (hwf : jsonWf j = true) :
    parseJson (printVal 0 j) = some j :=
  parseJson_print 0 j hwf (by have := sizeJ_le 0 j hwf; omega)

/-! ### C1/C4/C6 — the comment-data block codec (`markdown.ts`)

`embedCommentsInMarkdown` trims the body, appends a blank line and the
`<!--MDEDIT_COMMENTS_DATA … MDEDIT_COMMENTS_DATA-->` block holding
`JSON.stringify(commentsData, null, 2)`; `extractCommentsFromMarkdown`
locates the block with a lazy regex, `JSON.parse`s it with a
reserved-key-stripping reviver, rebuilds `Date` objects, and strips the block
from the body.  Dates are serialized with `Date.prototype.toISOString` and
re-parsed with `new Date(string)`; both builtins are modelled below
(proleptic-Gregorian civil-date arithmetic, the ISO shapes the serializer
emits). -/

/-- Civil date from a day number (days since 1970-01-01, proleptic
Gregorian), the algorithm underlying `Date.prototype.toISOString`. -/
def civilFromDays (z : Int) : Int × Int × Int :=
  let z2 := z + 719468
  let era := z2.fdiv 146097
  let doe := z2 - era * 146097
  let yoe := (doe - doe / 1460 + doe / 36524 - doe / 146096) / 365
  let y := yoe + era * 400
  let doy := doe - (365 * yoe + yoe / 4 - yoe / 100)
  let mp := (5 * doy + 2) / 153
  let d := doy - (153 * mp + 2) / 5 + 1
  let m := mp + (if mp < 10 then 3 else -9)
  (y + (if m ≤ 2 then 1 else 0), m, d)

/-- Day number of a civil date (inverse direction, used by `Date` parsing). -/
def daysFromCivil (y m d : Int) : Int :=
  let y2 := y - (if m ≤ 2 then 1 else 0)
  let era := y2.fdiv 400
  let yoe := y2 - era * 400
  let mp := (m + 9) % 12
  let doy := (153 * mp + 2) / 5 + d - 1
  let doe := yoe * 365 + yoe / 4 - yoe / 100 + doy
  era * 146097 + doe - 719468

/-- Fixed-width decimal numeral, zero padded. -/
def padNum (w : Nat) (n : Nat) : List Char :=
  let s := (toString n).data
  List.replicate (w - s.length) '0' ++ s

/-- `Date.prototype.toISOString` on a valid timestamp (epoch milliseconds):
`YYYY-MM-DDTHH:mm:ss.sssZ`, with the expanded six-digit year form outside
`0…9999`. -/
def toIso (ms : Int) : List Char :=
  let days := ms.fdiv 86400000
  let rem := (ms - days * 86400000).toNat
  let ymd := civilFromDays days
  let y := ymd.1
  let m := ymd.2.1
  let d := ymd.2.2
  (if y < 0 then '-' :: padNum 6 (-y).toNat
   else if 9999 < y then '+' :: padNum 6 y.toNat
   else padNum 4 y.toNat) ++
  ('-' :: (padNum 2 m.toNat ++ ('-' :: (padNum 2 d.toNat ++
  ('T' :: (padNum 2 (rem / 3600000) ++ (':' :: (padNum 2 (rem % 3600000 / 60000) ++
  (':' :: (padNum 2 (rem % 60000 / 1000) ++
  ('.' :: (padNum 3 (rem % 1000) ++ ['Z']))))))))))))

/-- Digits of a numeral, most significant first; any non-digit fails. -/
def digitsToNat (l : List Char) : Option Nat :=
  l.foldl (fun acc c =>
    acc.bind (fun a => if c.isDigit then some (a * 10 + (c.toNat - 48)) else none))
    (some 0)

/-- Parse the `-MM-DDTHH:mm:ss.sssZ` tail of an ISO timestamp against a
given year.  Field-range validation approximates `Date.parse` (which also
checks day-of-month against the month length); the difference is outside
the serializer's image. -/
def parseIsoCore (y : Int) (r : List Char) : JsDate :=
  if r.length = 20 ∧ r.get? 0 = some '-' ∧ r.get? 3 = some '-' ∧
     r.get? 6 = some 'T' ∧ r.get? 9 = some ':' ∧ r.get? 12 = some ':' ∧
     r.get? 15 = some '.' ∧ r.get? 19 = some 'Z' then
    match digitsToNat ((r.drop 1).take 2), digitsToNat ((r.drop 4).take 2),
        digitsToNat ((r.drop 7).take 2), digitsToNat ((r.drop 10).take 2),
        digitsToNat ((r.drop 13).take 2), digitsToNat ((r.drop 16).take 3) with
    | some mo, some dd, some hh, some mi, some ss, some fff =>
      if 1 ≤ mo ∧ mo ≤ 12 ∧ 1 ≤ dd ∧ dd ≤ 31 ∧ hh ≤ 24 ∧ mi ≤ 59 ∧ ss ≤ 59 then
        some (daysFromCivil y (Int.ofNat mo) (Int.ofNat dd) * 86400000 +
          (Int.ofNat (hh * 3600000 + mi * 60000 + ss * 1000 + fff)))
      else none
    | _, _, _, _, _, _ => none
  else none

/-- `new Date(string)` on the ISO timestamp shapes `toIso` emits (other
input formats accepted by JS engines are a model boundary; none occurs in
the serializer's image). -/
def parseIsoDate (l : List Char) : JsDate :=
  match l with
  | [] => none
  | c :: t =>
    if c = '+' then
      if (t.take 6).length = 6 then
        match digitsToNat (t.take 6) with
        | some y => parseIsoCore (Int.ofNat y) (t.drop 6)
        | none => none
      else none
    else if c = '-' then
      if (t.take 6).length = 6 then
        match digitsToNat (t.take 6) with
        | some y => parseIsoCore (-(Int.ofNat y : Int)) (t.drop 6)
        | none => none
      else none
    else
      if (l.take 4).length = 4 then
        match digitsToNat (l.take 4) with
        | some y => parseIsoCore (Int.ofNat y) (l.drop 4)
        | none => none
      else none

/-- An integer numeral's value (used for `new Date(number)`; fractional and
exponent numerals are a model boundary not exercised by the theorems). -/
def intOfNumeral (l : List Char) : Option Int :=
  match l with
  | [] => none
  | '-' :: t => if t.isEmpty then none else (digitsToNat t).map (fun n => -(Int.ofNat n))
  | _ => (digitsToNat l).map Int.ofNat

/-- `new Date(x)` for the argument shapes reaching the comment decoder:
`undefined` gives an invalid date, `null`/booleans coerce to 0/1, strings
parse as ISO timestamps, numerals give epoch milliseconds; array/object
arguments (whose string coercion JS would re-parse) are modelled as
invalid. -/
def jsNewDate : Option JsVal → JsDate
  | none => none
  | some JsVal.null => some 0
  | some (JsVal.bool b) => some (if b then 1 else 0)
  | some (JsVal.str s) => parseIsoDate s.data
  | some (JsVal.num raw) => intOfNumeral raw.data
  | some (JsVal.date d) => d
  | some (JsVal.arr _) => none
  | some (JsVal.obj _) => none

/-- An author value (`Author` in `commentStore.ts`; the optional
`avatar`/`provider` members are omitted, covering authors that carry the
three required members). -/
structure Author where
  id : String
  name : String
  email : String

/-- A reply carrying a valid creation date (epoch milliseconds). -/
structure Reply where
  id : String
  text : String
  author : Author
  createdAt : Int
  mentions : List Author

/-- A comment as in the `Comment` interface of `commentStore.ts`, member
order preserved; date members hold valid dates as epoch milliseconds. -/
structure Comment where
  id : String
  text : String
  author : Author
  createdAt : Int
  updatedAt : Int
  resolved : Bool
  resolvedBy : Option Author
  resolvedAt : Option Int
  replies : List Reply
  assignedTo : Option Author
  taskDueDate : Option Int
  taskCompleted : Bool
  todoTaskId : Option String
  mentions : List Author
  quotedText : String

/-- An author's JSON image. -/
def authorJson (a : Author) : Json :=
  Json.obj [("id", Json.str a.id), ("name", Json.str a.name),
    ("email", Json.str a.email)]

/-- `Author | null` members. -/
def optAuthorJson : Option Author → Json
  | some a => authorJson a
  | none => Json.null

/-- `d?.toISOString() || null`. -/
def optIsoJson : Option Int → Json
  | some d => Json.str (String.mk (toIso d))
  | none => Json.null

/-- `string | null` members. -/
def optStrJson : Option String → Json
  | some s => Json.str s
  | none => Json.null

/-- One serialized reply from `embedCommentsInMarkdown`'s
`comment.replies.map`: the spread keeps the member order of the `Reply`
interface, and `createdAt` is overwritten in place with its ISO string. -/
def encodeReply (r : Reply) : Json :=
  Json.obj [("id", Json.str r.id), ("text", Json.str r.text),
    ("author", authorJson r.author),
    ("createdAt", Json.str (String.mk (toIso r.createdAt))),
    ("mentions", Json.arr (r.mentions.map authorJson))]

/-- One serialized comment from `embedCommentsInMarkdown`'s `comments.map`:
the spread keeps the `Comment` interface member order; the four date
members are overwritten in place with ISO strings (or null) and `replies`
with its serialized list. -/
def encodeComment (c : Comment) : Json :=
  Json.obj [("id", Json.str c.id), ("text", Json.str c.text),
    ("author", authorJson c.author),
    ("createdAt", Json.str (String.mk (toIso c.createdAt))),
    ("updatedAt", Json.str (String.mk (toIso c.updatedAt))),
    ("resolved", Json.bool c.resolved),
    ("resolvedBy", optAuthorJson c.resolvedBy),
    ("resolvedAt", optIsoJson c.resolvedAt),
    ("replies", Json.arr (c.replies.map encodeReply)),
    ("assignedTo", optAuthorJson c.assignedTo),
    ("taskDueDate", optIsoJson c.taskDueDate),
    ("taskCompleted", Json.bool c.taskCompleted),
    ("todoTaskId", optStrJson c.todoTaskId),
    ("mentions", Json.arr (c.mentions.map authorJson)),
    ("quotedText", Json.str c.quotedText)]

/-- The opening marker `<!--MDEDIT_COMMENTS_DATA\n`. -/
def CD_OPEN : List Char := "<!--MDEDIT_COMMENTS_DATA\n".data

/-- The closing marker `\nMDEDIT_COMMENTS_DATA-->`. -/
def CD_TERM : List Char := "\nMDEDIT_COMMENTS_DATA-->".data

/-- The newline-free head shared by both markers. -/
def CD_HEAD : List Char := "<!--MDEDIT_COMMENTS_DATA".data

/-- `embedCommentsInMarkdown` from `markdown.ts`: empty lists leave the
body untouched; otherwise
`markdown.trim() + "\n\n" + open + JSON.stringify(data, null, 2) + term`. -/
def embedCommentsInMarkdown (md : List Char) (cs : List Comment) : List Char :=
  if cs.isEmpty then md
  else jsTrim md ++ ('\n' :: ('\n' :: (CD_OPEN ++
    (printVal 0 (Json.arr (cs.map encodeComment)) ++ CD_TERM))))

mutual

/-- Runtime value of a parsed JSON tree. -/
def j2v : Json → JsVal
  | Json.null => JsVal.null
  | Json.bool b => JsVal.bool b
  | Json.str s => JsVal.str s
  | Json.num raw => JsVal.num raw
  | Json.arr xs => JsVal.arr (j2vList xs)
  | Json.obj kvs => JsVal.obj (j2vFields kvs)

/-- `j2v` over array elements. -/
def j2vList : List Json → List JsVal
  | [] => []
  | x :: xs => j2v x :: j2vList xs

/-- `j2v` over object members. -/
def j2vFields : List (String × Json) → List (String × JsVal)
  | [] => []
  | kv :: kvs => (kv.1, j2v kv.2) :: j2vFields kvs

end

/-- `Array.prototype.map` with a throwing callback: the first exception
aborts the whole call. -/
def exMap (f : JsVal → Except Unit JsVal) : List JsVal → Except Unit (List JsVal)
  | [] => Except.ok []
  | x :: xs =>
    match f x with
    | Except.error e => Except.error e
    | Except.ok y =>
      match exMap f xs with
      | Except.error e => Except.error e
      | Except.ok ys => Except.ok (y :: ys)

/-- The reply-processing callback `reply => ({...reply, createdAt: new
Date(reply.createdAt)})`; the member read throws on a null reply. -/
def processReply (r : JsVal) : Except Unit JsVal :=
  match r with
  | JsVal.null => Except.error ()
  | _ => Except.ok (JsVal.obj (mergePairs (spreadOwn r ++
      [("createdAt", JsVal.date (jsNewDate (vGet r "createdAt")))])))

/-- `x ? new Date(x) : null` for an optional member read. -/
def optDateVal (v : Option JsVal) : JsVal :=
  match v with
  | some w => if jsTruthyV w then JsVal.date (jsNewDate (some w)) else JsVal.null
  | none => JsVal.null

/-- The comment-processing callback of `extractCommentsFromMarkdown`:
spread plus in-place `Date` rebuilding of `createdAt`/`updatedAt`/
`resolvedAt`/`taskDueDate` and the mapped `replies`.  Member reads throw on
null, and `comment.replies.map` throws whenever `replies` is not an
array — both land in the surrounding catch. -/
def processComment (v : JsVal) : Except Unit JsVal :=
  match v with
  | JsVal.null => Except.error ()
  | _ =>
    match vGet v "replies" with
    | some (JsVal.arr rs) =>
      match exMap processReply rs with
      | Except.error e => Except.error e
      | Except.ok reps =>
        Except.ok (JsVal.obj (mergePairs (spreadOwn v ++
          [("createdAt", JsVal.date (jsNewDate (vGet v "createdAt"))),
           ("updatedAt", JsVal.date (jsNewDate (vGet v "updatedAt"))),
           ("resolvedAt", optDateVal (vGet v "resolvedAt")),
           ("taskDueDate", optDateVal (vGet v "taskDueDate")),
           ("replies", JsVal.arr reps)])))
    | _ => Except.error ()

/-- The mapped processing of the parsed comment array. -/
def processComments (xs : List Json) : Except Unit (List JsVal) :=
  exMap processComment (xs.map j2v)

/-- A string's trailing-newline run removed (the greedy `\n*` pieces of the
strip regex). -/
def dropTrailNl (l : List Char) : List Char :=
  (l.reverse.dropWhile (fun c => c = '\n')).reverse

/-- A Bool suffix test. -/
def suffixOf (p l : List Char) : Bool := prefOf p.reverse l.reverse

/-- The body after
`markdown.replace(/\n*<!--MDEDIT_COMMENTS_DATA\n[\s\S]*?\nMDEDIT_COMMENTS_DATA-->\n*$/, '')`:
the end-anchored pattern matches iff some closing marker after the first
opening marker is followed by newlines only, which (because the closing
marker ends in a non-newline) is a suffix test after discarding the trailing
newline run; on a match the replacement removes everything from the newline
run preceding the first opening marker. -/
def stripEndBlock (md : List Char) : List Char :=
  match splitFirst CD_OPEN md with
  | none => md
  | some (pre, rest) =>
    if suffixOf CD_TERM (dropTrailNl rest) then dropTrailNl pre else md

/-- `extractCommentsFromMarkdown` from `markdown.ts`: the lazy block regex,
`JSON.parse` with the reserved-key reviver, the array check, `Date`
rebuilding (all inside the catch that degrades to an empty list with the
body unchanged), then block stripping and a trim of the clean body. -/
def extractCommentsFromMarkdown (md : List Char) : List Char × List JsVal :=
  match splitFirst CD_OPEN md with
  | none => (md, [])
  | some (_, rest) =>
    match splitFirst CD_TERM rest with
    | none => (md, [])
    | some (mid, _) =>
      match parseJsonRevived mid with
      | none => (md, [])
      | some j =>
        match j with
        | Json.arr xs =>
          match processComments xs with
          | Except.error _ => (md, [])
          | Except.ok vs => (jsTrim (stripEndBlock md), vs)
        | _ => (md, [])

/-- An author's runtime value. -/
def authorVal (a : Author) : JsVal :=
  JsVal.obj [("id", JsVal.str a.id), ("name", JsVal.str a.name),
    ("email", JsVal.str a.email)]

/-- `Author | null` runtime members. -/
def optAuthorVal : Option Author → JsVal
  | some a => authorVal a
  | none => JsVal.null

/-- The runtime value `extractCommentsFromMarkdown` rebuilds for one
serialized reply: date members hold the ISO round trip of the original. -/
def replyDecoded (r : Reply) : JsVal :=
  JsVal.obj [("id", JsVal.str r.id), ("text", JsVal.str r.text),
    ("author", authorVal r.author),
    ("createdAt", JsVal.date (parseIsoDate (toIso r.createdAt))),
    ("mentions", JsVal.arr (r.mentions.map authorVal))]

/-- The runtime value `extractCommentsFromMarkdown` rebuilds for one
serialized comment: date members hold the ISO round trip of the original. -/
def commentDecoded (c : Comment) : JsVal :=
  JsVal.obj [("id", JsVal.str c.id), ("text", JsVal.str c.text),
    ("author", authorVal c.author),
    ("createdAt", JsVal.date (parseIsoDate (toIso c.createdAt))),
    ("updatedAt", JsVal.date (parseIsoDate (toIso c.updatedAt))),
    ("resolved", JsVal.bool c.resolved),
    ("resolvedBy", optAuthorVal c.resolvedBy),
    ("resolvedAt", match c.resolvedAt with
      | some d => JsVal.date (parseIsoDate (toIso d))
      | none => JsVal.null),
    ("replies", JsVal.arr (c.replies.map replyDecoded)),
    ("assignedTo", optAuthorVal c.assignedTo),
    ("taskDueDate", match c.taskDueDate with
      | some d => JsVal.date (parseIsoDate (toIso d))
      | none => JsVal.null),
    ("taskCompleted", JsVal.bool c.taskCompleted),
    ("todoTaskId", match c.todoTaskId with
      | some s => JsVal.str s
      | none => JsVal.null),
    ("mentions", JsVal.arr (c.mentions.map authorVal)),
    ("quotedText", JsVal.str c.quotedText)]

theorem jsonWfList_map_author (ms : List Author) :
    jsonWfList (ms.map authorJson) = true := by
  induction ms with
  | nil => rfl
  | cons a t ih =>
    show (jsonWf (authorJson a) && jsonWfList (t.map authorJson)) = true
    rw [show jsonWf (authorJson a) = true from rfl, ih]
    rfl

theorem jsonWfFields_cons (kv : String × Json) (kvs : List (String × Json)) :
    jsonWfFields (kv :: kvs) = (jsonWf kv.2 && jsonWfFields kvs) := rfl

theorem arrAuthors_wf (ms : List Author) :
    jsonWf (Json.arr (ms.map authorJson)) = true := by
  rw [show jsonWf (Json.arr (ms.map authorJson)) =
    jsonWfList (ms.map authorJson) from rfl, jsonWfList_map_author]

theorem encodeReply_wf (r : Reply) : jsonWf (encodeReply r) = true := by
  rw [encodeReply]
  simp only [jsonWf]
  refine Bool.and_eq_true_iff.mpr ⟨rfl, ?_⟩
  simp only [jsonWfFields_cons, Bool.and_eq_true_iff]
  exact ⟨rfl, rfl, rfl, rfl, arrAuthors_wf r.mentions, rfl⟩

theorem jsonWfList_map_reply (rs : List Reply) :
    jsonWfList (rs.map encodeReply) = true := by
  induction rs with
  | nil => rfl
  | cons r t ih =>
    show (jsonWf (encodeReply r) && jsonWfList (t.map encodeReply)) = true
    rw [encodeReply_wf r, ih]
    rfl

theorem arrReplies_wf (rs : List Reply) :
    jsonWf (Json.arr (rs.map encodeReply)) = true := by
  rw [show jsonWf (Json.arr (rs.map encodeReply)) =
    jsonWfList (rs.map encodeReply) from rfl, jsonWfList_map_reply]

theorem optAuthorJson_wf (o : Option Author) : jsonWf (optAuthorJson o) = true := by
  cases o <;> rfl

theorem optIsoJson_wf (o : Option Int) : jsonWf (optIsoJson o) = true := by
  cases o <;> rfl

theorem optStrJson_wf (o : Option String) : jsonWf (optStrJson o) = true := by
  cases o <;> rfl

theorem encodeComment_wf (c : Comment) : jsonWf (encodeComment c) = true := by
  rw [encodeComment]
  simp only [jsonWf]
  refine Bool.and_eq_true_iff.mpr ⟨rfl, ?_⟩
  simp only [jsonWfFields_cons, Bool.and_eq_true_iff]
  exact ⟨rfl, rfl, rfl, rfl, rfl, rfl, optAuthorJson_wf c.resolvedBy,
    optIsoJson_wf c.resolvedAt, arrReplies_wf c.replies,
    optAuthorJson_wf c.assignedTo, optIsoJson_wf c.taskDueDate, rfl,
    optStrJson_wf c.todoTaskId, arrAuthors_wf c.mentions, rfl, rfl⟩

theorem jsonWf_arr_encode (cs : List Comment) :
    jsonWf (Json.arr (cs.map encodeComment)) = true := by
  rw [show jsonWf (Json.arr (cs.map encodeComment)) =
    jsonWfList (cs.map encodeComment) from rfl]
  induction cs with
  | nil => rfl
  | cons c t ih =>
    show (jsonWf (encodeComment c) && jsonWfList (t.map encodeComment)) = true
    rw [encodeComment_wf c, ih]
    rfl

theorem reviveFields_keep (k : String) (v : Json) (kvs : List (String × Json))
    (h : ¬ (k = "__proto__" ∨ k = "constructor" ∨ k = "prototype")) :
    reviveFields ((k, v) :: kvs) = (k, revive v) :: reviveFields kvs := by
  show (if k = "__proto__" ∨ k = "constructor" ∨ k = "prototype" then
    reviveFields kvs else (k, revive v) :: reviveFields kvs) = _
  rw [if_neg h]

theorem revive_str (s : String) : revive (Json.str s) = Json.str s := rfl

theorem revive_bool (b : Bool) : revive (Json.bool b) = Json.bool b := rfl

theorem revive_author (a : Author) : revive (authorJson a) = authorJson a := rfl

theorem reviveList_map_author (ms : List Author) :
    reviveList (ms.map authorJson) = ms.map authorJson := by
  induction ms with
  | nil => rfl
  | cons a t ih =>
    show revive (authorJson a) :: reviveList (t.map authorJson) = _
    rw [revive_author, ih]
    rfl

theorem revive_optAuthor (o : Option Author) :
    revive (optAuthorJson o) = optAuthorJson o := by
  cases o <;> rfl

theorem revive_optIso (o : Option Int) : revive (optIsoJson o) = optIsoJson o := by
  cases o <;> rfl

theorem revive_optStr (o : Option String) : revive (optStrJson o) = optStrJson o := by
  cases o <;> rfl

theorem revive_encodeReply (r : Reply) : revive (encodeReply r) = encodeReply r := by
  rw [encodeReply]
  simp only [revive]
  rw [reviveFields_keep _ _ _ (by decide), reviveFields_keep _ _ _ (by decide),
    reviveFields_keep _ _ _ (by decide), reviveFields_keep _ _ _ (by decide),
    reviveFields_keep _ _ _ (by decide)]
  rw [revive_author]
  rw [show revive (Json.arr (r.mentions.map authorJson)) =
    Json.arr (reviveList (r.mentions.map authorJson)) from rfl,
    reviveList_map_author]
  rfl

theorem reviveList_map_reply (rs : List Reply) :
    reviveList (rs.map encodeReply) = rs.map encodeReply := by
  induction rs with
  | nil => rfl
  | cons r t ih =>
    show revive (encodeReply r) :: reviveList (t.map encodeReply) = _
    rw [revive_encodeReply, ih]
    rfl

theorem revive_encodeComment (c : Comment) :
    revive (encodeComment c) = encodeComment c := by
  rw [encodeComment]
  simp only [revive]
  rw [reviveFields_keep _ _ _ (by decide), reviveFields_keep _ _ _ (by decide),
    reviveFields_keep _ _ _ (by decide), reviveFields_keep _ _ _ (by decide),
    reviveFields_keep _ _ _ (by decide), reviveFields_keep _ _ _ (by decide),
    reviveFields_keep _ _ _ (by decide), reviveFields_keep _ _ _ (by decide),
    reviveFields_keep _ _ _ (by decide), reviveFields_keep _ _ _ (by decide),
    reviveFields_keep _ _ _ (by decide), reviveFields_keep _ _ _ (by decide),
    reviveFields_keep _ _ _ (by decide), reviveFields_keep _ _ _ (by decide),
    reviveFields_keep _ _ _ (by decide)]
  rw [revive_author, revive_optAuthor, revive_optIso, revive_optAuthor,
    revive_optIso, revive_optStr]
  rw [show revive (Json.arr (c.replies.map encodeReply)) =
    Json.arr (reviveList (c.replies.map encodeReply)) from rfl,
    reviveList_map_reply]
  rw [show revive (Json.arr (c.mentions.map authorJson)) =
    Json.arr (reviveList (c.mentions.map authorJson)) from rfl,
    reviveList_map_author]
  rfl

theorem revive_arr_encode (cs : List Comment) :
    revive (Json.arr (cs.map encodeComment)) = Json.arr (cs.map encodeComment) := by
  rw [show revive (Json.arr (cs.map encodeComment)) =
    Json.arr (reviveList (cs.map encodeComment)) from rfl]
  have h : reviveList (cs.map encodeComment) = cs.map encodeComment := by
    induction cs with
    | nil => rfl
    | cons c t ih =>
      show revive (encodeComment c) :: reviveList (t.map encodeComment) = _
      rw [revive_encodeComment, ih]
      rfl
  rw [h]

theorem toIso_shape (ms : Int) : ∃ A B, toIso ms = A ++ ('-' :: B) := ⟨_, _, rfl⟩

theorem iso_truthy (d : Int) :
    jsTruthyV (JsVal.str (String.mk (toIso d))) = true := by
  show (!(String.mk (toIso d)).isEmpty) = true
  rcases toIso_shape d with ⟨A, B, hAB⟩
  rw [hAB]
  have h1 : ¬ (String.mk (A ++ ('-' :: B))).isEmpty = true := by
    intro h
    have h2 := (String.isEmpty_iff _).mp h
    have h3 : A ++ ('-' :: B) = [] := congrArg String.data h2
    simp at h3
  have h2 : (String.mk (A ++ ('-' :: B))).isEmpty = false := by
    cases hx : (String.mk (A ++ ('-' :: B))).isEmpty with
    | true => exact absurd hx h1
    | false => rfl
  rw [h2]
  rfl

theorem jsNewDate_iso (d : Int) :
    jsNewDate (some (JsVal.str (String.mk (toIso d)))) =
      parseIsoDate (toIso d) := rfl

theorem j2v_author (a : Author) : j2v (authorJson a) = authorVal a := rfl

theorem j2v_optAuthor (o : Option Author) :
    j2v (optAuthorJson o) = optAuthorVal o := by
  cases o <;> rfl

theorem j2vList_map_author (ms : List Author) :
    j2vList (ms.map authorJson) = ms.map authorVal := by
  induction ms with
  | nil => rfl
  | cons a t ih =>
    show j2v (authorJson a) :: j2vList (t.map authorJson) = _
    rw [j2v_author, ih]
    rfl

theorem optDateVal_iso (o : Option Int) :
    optDateVal (some (j2v (optIsoJson o))) =
      (match o with
       | some d => JsVal.date (parseIsoDate (toIso d))
       | none => JsVal.null) := by
  cases o with
  | none => rfl
  | some d =>
    show optDateVal (some (JsVal.str (String.mk (toIso d)))) =
      JsVal.date (parseIsoDate (toIso d))
    rw [show optDateVal (some (JsVal.str (String.mk (toIso d)))) =
      (if jsTruthyV (JsVal.str (String.mk (toIso d))) then
        JsVal.date (jsNewDate (some (JsVal.str (String.mk (toIso d)))))
      else JsVal.null) from rfl, iso_truthy d, if_pos rfl]
    rfl

theorem j2v_optStr (o : Option String) :
    j2v (optStrJson o) =
      (match o with | some s => JsVal.str s | none => JsVal.null) := by
  cases o <;> rfl

theorem j2v_encodeReply (r : Reply) :
    j2v (encodeReply r) = JsVal.obj [("id", JsVal.str r.id),
      ("text", JsVal.str r.text), ("author", authorVal r.author),
      ("createdAt", JsVal.str (String.mk (toIso r.createdAt))),
      ("mentions", JsVal.arr (r.mentions.map authorVal))] := by
  have h0 : j2v (encodeReply r) = JsVal.obj [("id", JsVal.str r.id),
      ("text", JsVal.str r.text), ("author", j2v (authorJson r.author)),
      ("createdAt", JsVal.str (String.mk (toIso r.createdAt))),
      ("mentions", JsVal.arr (j2vList (r.mentions.map authorJson)))] := rfl
  rw [h0, j2v_author, j2vList_map_author]

theorem processReply_encode (r : Reply) :
    processReply (j2v (encodeReply r)) = Except.ok (replyDecoded r) := by
  rw [j2v_encodeReply]
  rfl

theorem exMap_replies (rs : List Reply) :
    exMap processReply (j2vList (rs.map encodeReply)) =
      Except.ok (rs.map replyDecoded) := by
  induction rs with
  | nil => rfl
  | cons r t ih =>
    show (match processReply (j2v (encodeReply r)) with
      | Except.error e => Except.error e
      | Except.ok y =>
        match exMap processReply (j2vList (t.map encodeReply)) with
        | Except.error e => Except.error e
        | Except.ok ys => Except.ok (y :: ys)) =
      Except.ok ((r :: t).map replyDecoded)
    rw [processReply_encode r, ih]
    rfl

theorem j2v_encodeComment (c : Comment) :
    j2v (encodeComment c) = JsVal.obj [("id", JsVal.str c.id),
      ("text", JsVal.str c.text), ("author", authorVal c.author),
      ("createdAt", JsVal.str (String.mk (toIso c.createdAt))),
      ("updatedAt", JsVal.str (String.mk (toIso c.updatedAt))),
      ("resolved", JsVal.bool c.resolved),
      ("resolvedBy", optAuthorVal c.resolvedBy),
      ("resolvedAt", j2v (optIsoJson c.resolvedAt)),
      ("replies", JsVal.arr (j2vList (c.replies.map encodeReply))),
      ("assignedTo", optAuthorVal c.assignedTo),
      ("taskDueDate", j2v (optIsoJson c.taskDueDate)),
      ("taskCompleted", JsVal.bool c.taskCompleted),
      ("todoTaskId", j2v (optStrJson c.todoTaskId)),
      ("mentions", JsVal.arr (c.mentions.map authorVal)),
      ("quotedText", JsVal.str c.quotedText)] := by
  have h0 : j2v (encodeComment c) = JsVal.obj [("id", JsVal.str c.id),
      ("text", JsVal.str c.text), ("author", j2v (authorJson c.author)),
      ("createdAt", JsVal.str (String.mk (toIso c.createdAt))),
      ("updatedAt", JsVal.str (String.mk (toIso c.updatedAt))),
      ("resolved", JsVal.bool c.resolved),
      ("resolvedBy", j2v (optAuthorJson c.resolvedBy)),
      ("resolvedAt", j2v (optIsoJson c.resolvedAt)),
      ("replies", JsVal.arr (j2vList (c.replies.map encodeReply))),
      ("assignedTo", j2v (optAuthorJson c.assignedTo)),
      ("taskDueDate", j2v (optIsoJson c.taskDueDate)),
      ("taskCompleted", JsVal.bool c.taskCompleted),
      ("todoTaskId", j2v (optStrJson c.todoTaskId)),
      ("mentions", JsVal.arr (j2vList (c.mentions.map authorJson))),
      ("quotedText", JsVal.str c.quotedText)] := rfl
  rw [h0, j2v_author, j2v_optAuthor, j2v_optAuthor, j2vList_map_author]

theorem processComment_shape (i t au ca ua rv rb rav asg tdd tc tti me qt : JsVal)
    (reps reps2 : List JsVal)
    (hrep : exMap processReply reps = Except.ok reps2) :
    processComment (JsVal.obj [("id", i), ("text", t), ("author", au),
      ("createdAt", ca), ("updatedAt", ua), ("resolved", rv),
      ("resolvedBy", rb), ("resolvedAt", rav), ("replies", JsVal.arr reps),
      ("assignedTo", asg), ("taskDueDate", tdd), ("taskCompleted", tc),
      ("todoTaskId", tti), ("mentions", me), ("quotedText", qt)]) =
    Except.ok (JsVal.obj (mergePairs ([("id", i), ("text", t),
      ("author", au), ("createdAt", ca), ("updatedAt", ua),
      ("resolved", rv), ("resolvedBy", rb), ("resolvedAt", rav),
      ("replies", JsVal.arr reps), ("assignedTo", asg),
      ("taskDueDate", tdd), ("taskCompleted", tc), ("todoTaskId", tti),
      ("mentions", me), ("quotedText", qt)] ++
      [("createdAt", JsVal.date (jsNewDate (some ca))),
       ("updatedAt", JsVal.date (jsNewDate (some ua))),
       ("resolvedAt", optDateVal (some rav)),
       ("taskDueDate", optDateVal (some tdd)),
       ("replies", JsVal.arr reps2)]))) := by
  have h0 : processComment (JsVal.obj [("id", i), ("text", t), ("author", au),
      ("createdAt", ca), ("updatedAt", ua), ("resolved", rv),
      ("resolvedBy", rb), ("resolvedAt", rav), ("replies", JsVal.arr reps),
      ("assignedTo", asg), ("taskDueDate", tdd), ("taskCompleted", tc),
      ("todoTaskId", tti), ("mentions", me), ("quotedText", qt)]) =
      (match exMap processReply reps with
       | Except.error e => Except.error e
       | Except.ok reps3 =>
         Except.ok (JsVal.obj (mergePairs ([("id", i), ("text", t),
           ("author", au), ("createdAt", ca), ("updatedAt", ua),
           ("resolved", rv), ("resolvedBy", rb), ("resolvedAt", rav),
           ("replies", JsVal.arr reps), ("assignedTo", asg),
           ("taskDueDate", tdd), ("taskCompleted", tc), ("todoTaskId", tti),
           ("mentions", me), ("quotedText", qt)] ++
           [("createdAt", JsVal.date (jsNewDate (some ca))),
            ("updatedAt", JsVal.date (jsNewDate (some ua))),
            ("resolvedAt", optDateVal (some rav)),
            ("taskDueDate", optDateVal (some tdd)),
            ("replies", JsVal.arr reps3)])))) := rfl
  rw [h0, hrep]

theorem mergePairs_comment (i t au ca ua rv rb rav asg tdd tc tti me qt
    ca2 ua2 rav2 tdd2 : JsVal) (reps rep2 : List JsVal) :
    mergePairs ([("id", i), ("text", t),
      ("author", au), ("createdAt", ca), ("updatedAt", ua),
      ("resolved", rv), ("resolvedBy", rb), ("resolvedAt", rav),
      ("replies", JsVal.arr reps), ("assignedTo", asg),
      ("taskDueDate", tdd), ("taskCompleted", tc), ("todoTaskId", tti),
      ("mentions", me), ("quotedText", qt)] ++
      [("createdAt", ca2), ("updatedAt", ua2), ("resolvedAt", rav2),
       ("taskDueDate", tdd2), ("replies", JsVal.arr rep2)]) =
    [("id", i), ("text", t), ("author", au), ("createdAt", ca2),
     ("updatedAt", ua2), ("resolved", rv), ("resolvedBy", rb),
     ("resolvedAt", rav2), ("replies", JsVal.arr rep2), ("assignedTo", asg),
     ("taskDueDate", tdd2), ("taskCompleted", tc), ("todoTaskId", tti),
     ("mentions", me), ("quotedText", qt)] := by
  simp [mergePairs, setOwn]

theorem processComment_encode (c : Comment) :
    processComment (j2v (encodeComment c)) = Except.ok (commentDecoded c) := by
  rw [j2v_encodeComment]
  rw [processComment_shape _ _ _ _ _ _ _ _ _ _ _ _ _ _ _ _ (exMap_replies c.replies)]
  rw [mergePairs_comment]
  rw [jsNewDate_iso, jsNewDate_iso, optDateVal_iso, optDateVal_iso, j2v_optStr]
  rfl

theorem processComments_encode (cs : List Comment) :
    processComments (cs.map encodeComment) = Except.ok (cs.map commentDecoded) := by
  unfold processComments
  induction cs with
  | nil => rfl
  | cons c t ih =>
    show (match processComment (j2v (encodeComment c)) with
      | Except.error e => Except.error e
      | Except.ok y =>
        match exMap processComment ((t.map encodeComment).map j2v) with
        | Except.error e => Except.error e
        | Except.ok ys => Except.ok (y :: ys)) =
      Except.ok ((c :: t).map commentDecoded)
    rw [processComment_encode c, ih]
    rfl

/-- A two-character pattern occurs nowhere in the list. -/
def noPair (a b : Char) : List Char → Bool
  | [] => true
  | [_] => true
  | c :: d :: t => (!(c == a && d == b)) && noPair a b (d :: t)

theorem noPair_hasSub (a b : Char) (l : List Char) (h : noPair a b l = true) :
    hasSub [a, b] l = false := by
  induction l with
  | nil => rfl
  | cons c t ih =>
    cases t with
    | nil =>
      show (prefOf [a, b] [c] || hasSub [a, b] []) = false
      rw [show hasSub [a, b] ([] : List Char) = false from rfl]
      rw [show prefOf [a, b] [c] = false by simp [prefOf]]
      rfl
    | cons d t2 =>
      have hstep : ((!(c == a && d == b)) && noPair a b (d :: t2)) = true := h
      have h1 := (Bool.and_eq_true_iff.mp hstep).1
      have h2 := (Bool.and_eq_true_iff.mp hstep).2
      rw [Bool.not_eq_true'] at h1
      show (prefOf [a, b] (c :: d :: t2) || hasSub [a, b] (d :: t2)) = false
      rw [ih h2]
      have hpre0 : prefOf [a, b] (c :: d :: t2) = (c == a && (d == b && true)) := rfl
      rw [Bool.and_true] at hpre0
      rw [hpre0, h1]
      rfl

theorem noPair_of_no_fst (a b : Char) (x : List Char) (h : ∀ c ∈ x, ¬ c = a) :
    noPair a b x = true := by
  induction x with
  | nil => rfl
  | cons c t ih =>
    cases t with
    | nil => rfl
    | cons d t2 =>
      show ((!(c == a && d == b)) && noPair a b (d :: t2)) = true
      have hc : (c == a) = false := by
        have := h c (by simp)
        simpa using this
      rw [hc]
      rw [ih (fun e he => h e (by simp [he]))]
      rfl

theorem noPair_append_hd (a b : Char) (x y : List Char) (hx : noPair a b x = true)
    (hy : noPair a b y = true) (hhd : ∀ d, y.head? = some d → ¬ d = b) :
    noPair a b (x ++ y) = true := by
  induction x with
  | nil => exact hy
  | cons c t ih =>
    cases t with
    | nil =>
      show noPair a b (c :: y) = true
      cases y with
      | nil => rfl
      | cons d t2 =>
        show ((!(c == a && d == b)) && noPair a b (d :: t2)) = true
        have hd : (d == b) = false := by
          have := hhd d rfl
          simpa using this
        rw [hd, hy]
        simp
    | cons d t2 =>
      have hstep : ((!(c == a && d == b)) && noPair a b (d :: t2)) = true := hx
      have h1 := (Bool.and_eq_true_iff.mp hstep).1
      have h2 := (Bool.and_eq_true_iff.mp hstep).2
      show ((!(c == a && d == b)) && noPair a b ((d :: t2) ++ y)) = true
      rw [h1, ih h2]
      rfl

theorem pad_no_nl (n : Nat) : ∀ c ∈ pad n, ¬ c = '\n' := by
  intro c hc
  have := List.eq_of_mem_replicate hc
  rw [this]
  decide

theorem hexDigitChar_ne_nl (n : Nat) : ¬ hexDigitChar n = '\n' := by
  by_cases h : n < 16
  · interval_cases n <;> decide
  · unfold hexDigitChar
    rw [List.getD_eq_default]
    · decide
    · simpa using Nat.le_of_not_lt h

theorem escQChar_no_nl (c : Char) : ∀ e ∈ escQChar c, ¬ e = '\n' := by
  intro e he
  unfold escQChar at he
  by_cases h1 : c = '"'
  · rw [if_pos h1] at he
    fin_cases he <;> decide
  rw [if_neg h1] at he
  by_cases h2 : c = '\\'
  · rw [if_pos h2] at he
    fin_cases he <;> decide
  rw [if_neg h2] at he
  by_cases h3 : c = '\x08'
  · rw [if_pos h3] at he
    fin_cases he <;> decide
  rw [if_neg h3] at he
  by_cases h4 : c = '\x0c'
  · rw [if_pos h4] at he
    fin_cases he <;> decide
  rw [if_neg h4] at he
  by_cases h5 : c = '\n'
  · rw [if_pos h5] at he
    fin_cases he <;> decide
  rw [if_neg h5] at he
  by_cases h6 : c = '\r'
  · rw [if_pos h6] at he
    fin_cases he <;> decide
  rw [if_neg h6] at he
  by_cases h7 : c = '\t'
  · rw [if_pos h7] at he
    fin_cases he <;> decide
  rw [if_neg h7] at he
  by_cases h8 : c.toNat < 32
  · rw [if_pos h8] at he
    fin_cases he
    · decide
    · decide
    · decide
    · decide
    · exact hexDigitChar_ne_nl _
    · exact hexDigitChar_ne_nl _
  · rw [if_neg h8] at he
    have : e = c := by simpa using he
    rw [this]
    exact h5

theorem escQ_no_nl (l : List Char) : ∀ e ∈ escQ l, ¬ e = '\n' := by
  intro e he
  unfold escQ at he
  rw [List.mem_flatMap] at he
  rcases he with ⟨c, _, hec⟩
  exact escQChar_no_nl c e hec

theorem strQuote_no_nl (s : String) : ∀ e ∈ strQuote s, ¬ e = '\n' := by
  intro e he
  rw [show strQuote s = '"' :: (escQ s.data ++ ['"']) from rfl, List.mem_cons] at he
  rcases he with h | h
  · rw [h]; decide
  rcases List.mem_append.mp h with h2 | h2
  · exact escQ_no_nl s.data e h2
  · have h3 : e = '"' := by simpa using h2
    rw [h3]
    decide

theorem head_mem (l : List Char) (d : Char) (h : l.head? = some d) : d ∈ l := by
  cases l with
  | nil => simp at h
  | cons c t =>
    have : c = d := by simpa using h
    rw [← this]
    exact List.mem_cons_self c t

theorem head?_append_of_head? (A B : List Char) (c : Char) (h : A.head? = some c) :
    (A ++ B).head? = some c := by
  cases A with
  | nil => simp at h
  | cons a t =>
    have ha : a = c := by simpa using h
    rw [ha]
    rfl

theorem printItems_head_pos (ind : Nat) (hind : 0 < ind) (x : Json) (xs : List Json) :
    (printItems ind (x :: xs)).head? = some ' ' := by
  obtain ⟨tp, htp⟩ := printItems_shape ind x xs
  rw [htp]
  cases ind with
  | zero => omega
  | succ m =>
    rw [show pad (m + 1) = ' ' :: pad m from rfl]
    rfl

theorem printFields_head_pos (ind : Nat) (hind : 0 < ind) (kv : String × Json)
    (kvs : List (String × Json)) :
    (printFields ind (kv :: kvs)).head? = some ' ' := by
  obtain ⟨tq, htq⟩ := printFields_shape ind kv kvs
  rw [htq]
  cases ind with
  | zero => omega
  | succ m =>
    rw [show pad (m + 1) = ' ' :: pad m from rfl]
    rfl

theorem printVal_head_ne_M (ind : Nat) (j : Json) (h : jsonWf j = true) :
    ∀ d, (printVal ind j).head? = some d → ¬ d = 'M' := by
  obtain ⟨c, u, hcu, _, _, _, hM⟩ := printVal_head ind j h
  intro d hd
  rw [hcu] at hd
  have : c = d := by simpa using hd
  rw [← this]
  exact hM

theorem noPair_closer (a : Char) (q : Nat) (ha : ¬ a = '\n') (hM : ¬ a = 'M') :
    noPair '\n' 'M' ('\n' :: (pad q ++ [a])) = true := by
  refine noPair_append_hd '\n' 'M' ['\n'] (pad q ++ [a]) rfl ?_ ?_
  · refine noPair_of_no_fst '\n' 'M' _ ?_
    intro c hc
    rcases List.mem_append.mp hc with h1 | h1
    · exact pad_no_nl q c h1
    · have : c = a := by simpa using h1
      rw [this]
      exact ha
  · intro d hd
    have hm := head_mem _ _ hd
    rcases List.mem_append.mp hm with h1 | h1
    · have := List.eq_of_mem_replicate h1
      rw [this]
      decide
    · have h2 : d = a := by simpa using h1
      rw [h2]
      exact hM

mutual

theorem noPair_printVal (ind : Nat) (j : Json) (h : jsonWf j = true) :
    noPair '\n' 'M' (printVal ind j) = true := by
  cases j with
  | null =>
    show noPair '\n' 'M' ("null".data) = true
    decide
  | bool b =>
    cases b with
    | true =>
      show noPair '\n' 'M' ("true".data) = true
      decide
    | false =>
      show noPair '\n' 'M' ("false".data) = true
      decide
  | str s => exact noPair_of_no_fst _ _ _ (strQuote_no_nl s)
  | num raw => simp [jsonWf] at h
  | arr xs =>
    cases xs with
    | nil =>
      show noPair '\n' 'M' ("[]".data) = true
      decide
    | cons x xt =>
      have hwl : jsonWfList (x :: xt) = true := h
      have h1 : noPair '\n' 'M' (printVal ind (Json.arr (x :: xt))) =
          noPair '\n' 'M' ('\n' :: (printItems (ind + 2) (x :: xt) ++
            '\n' :: (pad ind ++ [']']))) := rfl
      rw [h1]
      refine noPair_append_hd '\n' 'M' ['\n'] _ rfl ?_ ?_
      · refine noPair_append_hd '\n' 'M' _ _
          (noPair_printItems (ind + 2) (x :: xt) (by omega) hwl)
          (noPair_closer ']' ind (by decide) (by decide)) ?_
        intro d hd
        have h3 : '\n' = d := by simpa using hd
        rw [← h3]
        decide
      · intro d hd
        have h2 := printItems_head_pos (ind + 2) (by omega) x xt
        have h4 := head?_append_of_head? (printItems (ind + 2) (x :: xt))
          ('\n' :: (pad ind ++ [']'])) ' ' h2
        have h5 : (some ' ' : Option Char) = some d := Eq.trans h4.symm hd
        have h6 : ' ' = d := by injection h5
        rw [← h6]
        decide
  | obj kvs =>
    cases kvs with
    | nil =>
      show noPair '\n' 'M' (['{', '}']) = true
      decide
    | cons kv kvt =>
      have hwl : (noDupKeys (kv :: kvt) && jsonWfFields (kv :: kvt)) = true := h
      have hwf := (Bool.and_eq_true_iff.mp hwl).2
      have h1 : noPair '\n' 'M' (printVal ind (Json.obj (kv :: kvt))) =
          noPair '\n' 'M' ('\n' :: (printFields (ind + 2) (kv :: kvt) ++
            '\n' :: (pad ind ++ ['}']))) := rfl
      rw [h1]
      refine noPair_append_hd '\n' 'M' ['\n'] _ rfl ?_ ?_
      · refine noPair_append_hd '\n' 'M' _ _
          (noPair_printFields (ind + 2) (kv :: kvt) (by omega) hwf)
          (noPair_closer '}' ind (by decide) (by decide)) ?_
        intro d hd
        have h3 : '\n' = d := by simpa using hd
        rw [← h3]
        decide
      · intro d hd
        have h2 := printFields_head_pos (ind + 2) (by omega) kv kvt
        have h4 := head?_append_of_head? (printFields (ind + 2) (kv :: kvt))
          ('\n' :: (pad ind ++ ['}'])) ' ' h2
        have h5 : (some ' ' : Option Char) = some d := Eq.trans h4.symm hd
        have h6 : ' ' = d := by injection h5
        rw [← h6]
        decide

theorem noPair_printItems (ind : Nat) (xs : List Json) (hind : 0 < ind)
    (h : jsonWfList xs = true) :
    noPair '\n' 'M' (printItems ind xs) = true := by
  cases xs with
  | nil => rfl
  | cons x xt =>
    have h2 : (jsonWf x && jsonWfList xt) = true := h
    have hwx := (Bool.and_eq_true_iff.mp h2).1
    have hwt := (Bool.and_eq_true_iff.mp h2).2
    cases xt with
    | nil =>
      show noPair '\n' 'M' (pad ind ++ printVal ind x) = true
      exact noPair_append_hd '\n' 'M' _ _
        (noPair_of_no_fst _ _ _ (pad_no_nl ind))
        (noPair_printVal ind x hwx)
        (printVal_head_ne_M ind x hwx)
    | cons y yt =>
      have hsplit : printItems ind (x :: y :: yt) =
          pad ind ++ (printVal ind x ++ ([',', '\n'] ++ printItems ind (y :: yt))) := by
        show pad ind ++ (printVal ind x ++ ',' :: '\n' :: printItems ind (y :: yt)) = _
        simp
      rw [hsplit]
      have hp6 := noPair_printItems ind (y :: yt) hind hwt
      have hp5 : noPair '\n' 'M' ([',', '\n'] ++ printItems ind (y :: yt)) = true := by
        refine noPair_append_hd '\n' 'M' [',', '\n'] _ (by decide) hp6 ?_
        intro d hd
        rw [printItems_head_pos ind hind y yt] at hd
        have h9 : ' ' = d := by simpa using hd
        rw [← h9]
        decide
      have hp4 : noPair '\n' 'M'
          (printVal ind x ++ ([',', '\n'] ++ printItems ind (y :: yt))) = true := by
        refine noPair_append_hd '\n' 'M' _ _ (noPair_printVal ind x hwx) hp5 ?_
        intro d hd
        have h9 : ',' = d := by simpa using hd
        rw [← h9]
        decide
      refine noPair_append_hd '\n' 'M' _ _
        (noPair_of_no_fst _ _ _ (pad_no_nl ind)) hp4 ?_
      intro d hd
      obtain ⟨c, u, hcu, _, _, _, hM⟩ := printVal_head ind x hwx
      rw [head?_append_of_head? _ _ c (by rw [hcu]; rfl)] at hd
      have : c = d := by simpa using hd
      rw [← this]
      exact hM

theorem noPair_printFields (ind : Nat) (kvs : List (String × Json)) (hind : 0 < ind)
    (h : jsonWfFields kvs = true) :
    noPair '\n' 'M' (printFields ind kvs) = true := by
  cases kvs with
  | nil => rfl
  | cons kv kvt =>
    have h2 : (jsonWf kv.2 && jsonWfFields kvt) = true := h
    have hwv := (Bool.and_eq_true_iff.mp h2).1
    have hwt := (Bool.and_eq_true_iff.mp h2).2
    cases kvt with
    | nil =>
      have hsplit : printFields ind [kv] =
          pad ind ++ (strQuote kv.1 ++ ([':', ' '] ++ printVal ind kv.2)) := by
        show pad ind ++ (strQuote kv.1 ++ ':' :: ' ' :: printVal ind kv.2) = _
        simp
      rw [hsplit]
      have hp4 : noPair '\n' 'M' ([':', ' '] ++ printVal ind kv.2) = true := by
        refine noPair_append_hd '\n' 'M' [':', ' '] _ (by decide)
          (noPair_printVal ind kv.2 hwv) ?_
        intro d hd
        obtain ⟨c, u, hcu, _, _, _, hM⟩ := printVal_head ind kv.2 hwv
        rw [hcu] at hd
        have : c = d := by simpa using hd
        rw [← this]
        exact hM
      have hp3 : noPair '\n' 'M'
          (strQuote kv.1 ++ ([':', ' '] ++ printVal ind kv.2)) = true := by
        refine noPair_append_hd '\n' 'M' _ _
          (noPair_of_no_fst _ _ _ (strQuote_no_nl kv.1)) hp4 ?_
        intro d hd
        have h9 : ':' = d := by simpa using hd
        rw [← h9]
        decide
      refine noPair_append_hd '\n' 'M' _ _
        (noPair_of_no_fst _ _ _ (pad_no_nl ind)) hp3 ?_
      intro d hd
      rw [head?_append_of_head? _ _ '"' (by rw [show strQuote kv.1 =
        '"' :: (escQ kv.1.data ++ ['"']) from rfl]; rfl)] at hd
      have h9 : '"' = d := by simpa using hd
      rw [← h9]
      decide
    | cons g gs =>
      have hsplit : printFields ind (kv :: g :: gs) =
          pad ind ++ (strQuote kv.1 ++ ([':', ' '] ++ (printVal ind kv.2 ++
            ([',', '\n'] ++ printFields ind (g :: gs))))) := by
        show pad ind ++ (strQuote kv.1 ++ ':' :: ' ' :: printVal ind kv.2 ++
          ',' :: '\n' :: printFields ind (g :: gs)) = _
        simp
      rw [hsplit]
      have hp6 := noPair_printFields ind (g :: gs) hind hwt
      have hp5 : noPair '\n' 'M' ([',', '\n'] ++ printFields ind (g :: gs)) = true := by
        refine noPair_append_hd '\n' 'M' [',', '\n'] _ (by decide) hp6 ?_
        intro d hd
        rw [printFields_head_pos ind hind g gs] at hd
        have h9 : ' ' = d := by simpa using hd
        rw [← h9]
        decide
      have hp4 : noPair '\n' 'M' (printVal ind kv.2 ++
          ([',', '\n'] ++ printFields ind (g :: gs))) = true := by
        refine noPair_append_hd '\n' 'M' _ _ (noPair_printVal ind kv.2 hwv) hp5 ?_
        intro d hd
        have h9 : ',' = d := by simpa using hd
        rw [← h9]
        decide
      have hp3 : noPair '\n' 'M' ([':', ' '] ++ (printVal ind kv.2 ++
          ([',', '\n'] ++ printFields ind (g :: gs)))) = true := by
        refine noPair_append_hd '\n' 'M' [':', ' '] _ (by decide) hp4 ?_
        intro d hd
        obtain ⟨c, u, hcu, _, _, _, hM⟩ := printVal_head ind kv.2 hwv
        rw [head?_append_of_head? _ _ c (by rw [hcu]; rfl)] at hd
        have : c = d := by simpa using hd
        rw [← this]
        exact hM
      have hp2 : noPair '\n' 'M' (strQuote kv.1 ++ ([':', ' '] ++
          (printVal ind kv.2 ++ ([',', '\n'] ++ printFields ind (g :: gs))))) = true := by
        refine noPair_append_hd '\n' 'M' _ _
          (noPair_of_no_fst _ _ _ (strQuote_no_nl kv.1)) hp3 ?_
        intro d hd
        have h9 : ':' = d := by simpa using hd
        rw [← h9]
        decide
      refine noPair_append_hd '\n' 'M' _ _
        (noPair_of_no_fst _ _ _ (pad_no_nl ind)) hp2 ?_
      intro d hd
      rw [head?_append_of_head? _ _ '"' (by rw [show strQuote kv.1 =
        '"' :: (escQ kv.1.data ++ ['"']) from rfl]; rfl)] at hd
      have h9 : '"' = d := by simpa using hd
      rw [← h9]
      decide

end

theorem hasSub_pre_mono (p q l : List Char) (h : hasSub (p ++ q) l = true) :
    hasSub p l = true := by
  rcases (hasSub_parts _ _).mp h with ⟨s, t, hst⟩
  refine (hasSub_parts _ _).mpr ⟨s, q ++ t, ?_⟩
  rw [hst]
  simp

theorem splitFirst_eq_none (pat l : List Char) (hp : pat ≠ [])
    (h : hasSub pat l = false) : splitFirst pat l = none := by
  induction l with
  | nil =>
    have hpre : prefOf pat [] = false := by
      cases pat with
      | nil => exact absurd rfl hp
      | cons c t => rfl
    unfold splitFirst
    rw [if_neg (by rw [hpre]; exact fun hc => absurd hc (by decide))]
  | cons c t ih =>
    have hor : (prefOf pat (c :: t) || hasSub pat t) = false := h
    have h1 := (Bool.or_eq_false_iff.mp hor).1
    have h2 := (Bool.or_eq_false_iff.mp hor).2
    rw [splitFirst, if_neg (by rw [h1]; exact fun hc => absurd hc (by decide))]
    rw [ih h2]
    rfl

theorem CD_OPEN_no_overlap : ∀ k, k < CD_OPEN.length → 0 < k →
    prefOf (CD_OPEN.drop k) CD_OPEN = false := by decide

theorem CD_TERM_no_overlap : ∀ k, k < CD_TERM.length → 0 < k →
    prefOf (CD_TERM.drop k) CD_TERM = false := by decide

theorem open_not_early (b X : List Char) (hno : hasSub CD_HEAD b = false) :
    ∀ i, i < (b ++ ['\n', '\n']).length →
      prefOf CD_OPEN (((b ++ ['\n', '\n']) ++ (CD_OPEN ++ X)).drop i) = false := by
  intro i hi
  cases hq : prefOf CD_OPEN (((b ++ ['\n', '\n']) ++ (CD_OPEN ++ X)).drop i) with
  | false => rfl
  | true =>
    exfalso
    rcases pref_drop_split CD_OPEN (b ++ ['\n', '\n']) (CD_OPEN ++ X) i hi hq with
      hin | ⟨s, t, hs, ht, hp, ⟨a0, ha0⟩, hpre⟩
    · rw [show CD_OPEN = CD_HEAD ++ ['\n'] by decide] at hin
      have hH : hasSub CD_HEAD (b ++ ['\n', '\n']) = true :=
        hasSub_pre_mono _ _ _ hin
      have h2 : hasSub CD_HEAD (b ++ ['\n']) = true := by
        apply hasSub_append_one CD_HEAD (b ++ ['\n']) '\n' (by decide) (by decide)
        have hasc : (b ++ ['\n']) ++ ['\n'] = b ++ ['\n', '\n'] := by simp
        rw [hasc]
        exact hH
      have h3 : hasSub CD_HEAD b = true :=
        hasSub_append_one CD_HEAD b '\n' (by decide) (by decide) h2
      rw [h3] at hno
      exact absurd hno (by decide)
    · have hslen : 0 < s.length := List.length_pos.mpr hs
      have hlen := congrArg List.length hp
      rw [List.length_append] at hlen
      have htlen : 0 < t.length := List.length_pos.mpr ht
      have hsltCD : s.length < CD_OPEN.length := by omega
      have ht2 : t = CD_OPEN.drop s.length := by
        rw [hp]
        simp
      rw [prefOf_append_left t CD_OPEN X (by omega)] at hpre
      have hov := CD_OPEN_no_overlap s.length hsltCD hslen
      rw [← ht2] at hov
      rw [hov] at hpre
      exact absurd hpre (by decide)

theorem splitFirst_open (b X : List Char) (hno : hasSub CD_HEAD b = false) :
    splitFirst CD_OPEN ((b ++ ['\n', '\n']) ++ (CD_OPEN ++ X)) =
      some (b ++ ['\n', '\n'], X) :=
  splitFirst_marker CD_OPEN (b ++ ['\n', '\n']) X (by decide) (open_not_early b X hno)

theorem term_not_early (J : List Char) (hnp : noPair '\n' 'M' J = true) :
    ∀ i, i < J.length →
      prefOf CD_TERM ((J ++ (CD_TERM ++ [])).drop i) = false := by
  intro i hi
  cases hq : prefOf CD_TERM ((J ++ (CD_TERM ++ [])).drop i) with
  | false => rfl
  | true =>
    exfalso
    rcases pref_drop_split CD_TERM J (CD_TERM ++ []) i hi hq with
      hin | ⟨s, t, hs, ht, hp, ⟨a0, ha0⟩, hpre⟩
    · rw [show CD_TERM = ['\n', 'M'] ++ "DEDIT_COMMENTS_DATA-->".data by decide] at hin
      have hH : hasSub ['\n', 'M'] J = true := hasSub_pre_mono _ _ _ hin
      rw [noPair_hasSub '\n' 'M' J hnp] at hH
      exact absurd hH (by decide)
    · have hslen : 0 < s.length := List.length_pos.mpr hs
      have hlen := congrArg List.length hp
      rw [List.length_append] at hlen
      have htlen : 0 < t.length := List.length_pos.mpr ht
      have hsltCD : s.length < CD_TERM.length := by omega
      have ht2 : t = CD_TERM.drop s.length := by
        rw [hp]
        simp
      rw [prefOf_append_left t CD_TERM [] (by omega)] at hpre
      have hov := CD_TERM_no_overlap s.length hsltCD hslen
      rw [← ht2] at hov
      rw [hov] at hpre
      exact absurd hpre (by decide)

theorem splitFirst_term (J : List Char) (hnp : noPair '\n' 'M' J = true) :
    splitFirst CD_TERM (J ++ CD_TERM) = some (J, []) := by
  have h := splitFirst_marker CD_TERM J [] (by decide) (term_not_early J hnp)
  rw [show CD_TERM ++ ([] : List Char) = CD_TERM by simp] at h
  exact h

theorem dropTrailNl_of_last (l : List Char) (c : Char) (hc : ¬ c = '\n')
    (h : l.getLast? = some c) : dropTrailNl l = l := by
  unfold dropTrailNl
  have h1 : l.reverse.head? = some c := by
    rw [List.head?_reverse]
    exact h
  cases hrev : l.reverse with
  | nil =>
    rw [hrev] at h1
    simp at h1
  | cons d t =>
    have hd : d = c := by
      rw [hrev] at h1
      simpa using h1
    have h2 : (d :: t).dropWhile (fun e => e = '\n') = d :: t :=
      List.dropWhile_cons_of_neg (by simp [hd, hc])
    calc ((d :: t).dropWhile (fun e => e = '\n')).reverse
        = (d :: t).reverse := by rw [h2]
      _ = l.reverse.reverse := by rw [hrev]
      _ = l := List.reverse_reverse l

theorem dropTrailNl_term (J : List Char) :
    dropTrailNl (J ++ CD_TERM) = J ++ CD_TERM := by
  refine dropTrailNl_of_last _ '>' (by decide) ?_
  rw [List.getLast?_append_of_ne_nil J (by decide)]
  decide

theorem dropTrailNl_body (b : List Char) (hb : jsTrim b = b) :
    dropTrailNl (b ++ ['\n', '\n']) = b := by
  unfold dropTrailNl
  rw [List.reverse_append]
  rw [show (['\n', '\n'] : List Char).reverse = ['\n', '\n'] from rfl]
  have h1 : ((['\n', '\n'] ++ b.reverse).dropWhile (fun c => c = '\n')) =
      b.reverse.dropWhile (fun c => c = '\n') := by
    show (('\n' :: ('\n' :: b.reverse)).dropWhile (fun c => c = '\n')) = _
    rw [List.dropWhile_cons_of_pos (by decide), List.dropWhile_cons_of_pos (by decide)]
  rw [h1]
  cases hrev : b.reverse with
  | nil =>
    have hbnil : b = [] := by
      have := congrArg List.reverse hrev
      simpa using this
    rw [hbnil]
    rfl
  | cons d t =>
    have hlast : b.getLast? = some d := by
      rw [← List.head?_reverse, hrev]
      rfl
    have hdws : jsWs d = false := jsTrim_getLast_not_ws b hb d hlast
    have hdnl : ¬ d = '\n' := by
      intro hdd
      rw [hdd] at hdws
      exact absurd hdws (by decide)
    rw [List.dropWhile_cons_of_neg (by simp [hdnl])]
    rw [← hrev, List.reverse_reverse]

/-- The suffix test the strip regex's end anchor amounts to. -/
theorem suffixOf_term (J : List Char) : suffixOf CD_TERM (J ++ CD_TERM) = true := by
  unfold suffixOf
  rw [List.reverse_append]
  exact prefOf_self_append _ _

/-- Json array test (`Array.isArray`). -/
def isArrJ : Json → Bool
  | Json.arr _ => true
  | _ => false

theorem extract_none_open (md : List Char) (h : splitFirst CD_OPEN md = none) :
    extractCommentsFromMarkdown md = (md, []) := by
  unfold extractCommentsFromMarkdown
  rw [h]

theorem extract_none_term (md pre rest : List Char)
    (h1 : splitFirst CD_OPEN md = some (pre, rest))
    (h2 : splitFirst CD_TERM rest = none) :
    extractCommentsFromMarkdown md = (md, []) := by
  unfold extractCommentsFromMarkdown
  rw [h1]
  show (match splitFirst CD_TERM rest with
    | none => (md, [])
    | some (mid, _) =>
      match parseJsonRevived mid with
      | none => (md, [])
      | some j =>
        match j with
        | Json.arr xs =>
          match processComments xs with
          | Except.error _ => (md, [])
          | Except.ok vs => (jsTrim (stripEndBlock md), vs)
        | _ => (md, [])) = (md, [])
  rw [h2]

theorem extract_bad_json (md pre rest mid post : List Char)
    (h1 : splitFirst CD_OPEN md = some (pre, rest))
    (h2 : splitFirst CD_TERM rest = some (mid, post))
    (h3 : parseJsonRevived mid = none) :
    extractCommentsFromMarkdown md = (md, []) := by
  unfold extractCommentsFromMarkdown
  rw [h1]
  show (match splitFirst CD_TERM rest with
    | none => (md, [])
    | some (mid, _) =>
      match parseJsonRevived mid with
      | none => (md, [])
      | some j =>
        match j with
        | Json.arr xs =>
          match processComments xs with
          | Except.error _ => (md, [])
          | Except.ok vs => (jsTrim (stripEndBlock md), vs)
        | _ => (md, [])) = (md, [])
  rw [h2]
  show (match parseJsonRevived mid with
    | none => (md, [])
    | some j =>
      match j with
      | Json.arr xs =>
        match processComments xs with
        | Except.error _ => (md, [])
        | Except.ok vs => (jsTrim (stripEndBlock md), vs)
      | _ => (md, [])) = (md, [])
  rw [h3]

theorem extract_not_array (md pre rest mid post : List Char) (j : Json)
    (h1 : splitFirst CD_OPEN md = some (pre, rest))
    (h2 : splitFirst CD_TERM rest = some (mid, post))
    (h3 : parseJsonRevived mid = some j)
    (hj : isArrJ j = false) :
    extractCommentsFromMarkdown md = (md, []) := by
  unfold extractCommentsFromMarkdown
  rw [h1]
  show (match splitFirst CD_TERM rest with
    | none => (md, [])
    | some (mid, _) =>
      match parseJsonRevived mid with
      | none => (md, [])
      | some j =>
        match j with
        | Json.arr xs =>
          match processComments xs with
          | Except.error _ => (md, [])
          | Except.ok vs => (jsTrim (stripEndBlock md), vs)
        | _ => (md, [])) = (md, [])
  rw [h2]
  show (match parseJsonRevived mid with
    | none => (md, [])
    | some j =>
      match j with
      | Json.arr xs =>
        match processComments xs with
        | Except.error _ => (md, [])
        | Except.ok vs => (jsTrim (stripEndBlock md), vs)
      | _ => (md, [])) = (md, [])
  rw [h3]
  cases j with
  | arr xs => simp [isArrJ] at hj
  | null => rfl
  | bool b => rfl
  | str s => rfl
  | num raw => rfl
  | obj kvs => rfl

theorem extract_of_facts (md pre rest mid post : List Char) (xs : List Json)
    (vs : List JsVal)
    (h1 : splitFirst CD_OPEN md = some (pre, rest))
    (h2 : splitFirst CD_TERM rest = some (mid, post))
    (h3 : parseJsonRevived mid = some (Json.arr xs))
    (h4 : processComments xs = Except.ok vs) :
    extractCommentsFromMarkdown md = (jsTrim (stripEndBlock md), vs) := by
  unfold extractCommentsFromMarkdown
  rw [h1]
  show (match splitFirst CD_TERM rest with
    | none => (md, [])
    | some (mid, _) =>
      match parseJsonRevived mid with
      | none => (md, [])
      | some j =>
        match j with
        | Json.arr xs =>
          match processComments xs with
          | Except.error _ => (md, [])
          | Except.ok vs => (jsTrim (stripEndBlock md), vs)
        | _ => (md, [])) = (jsTrim (stripEndBlock md), vs)
  rw [h2]
  show (match parseJsonRevived mid with
    | none => (md, [])
    | some j =>
      match j with
      | Json.arr xs =>
        match processComments xs with
        | Except.error _ => (md, [])
        | Except.ok vs => (jsTrim (stripEndBlock md), vs)
      | _ => (md, [])) = (jsTrim (stripEndBlock md), vs)
  rw [h3]
  show (match processComments xs with
    | Except.error _ => (md, [])
    | Except.ok vs => (jsTrim (stripEndBlock md), vs)) = (jsTrim (stripEndBlock md), vs)
  rw [h4]

theorem hasSub_open_of_head (b : List Char) (hno : hasSub CD_HEAD b = false) :
    hasSub CD_OPEN b = false := by
  cases hx : hasSub CD_OPEN b with
  | false => rfl
  | true =>
    exfalso
    rw [show CD_OPEN = CD_HEAD ++ ['\n'] by decide] at hx
    have := hasSub_pre_mono _ _ _ hx
    rw [this] at hno
    exact absurd hno (by decide)

theorem stripEndBlock_embed (b J : List Char) (hb : jsTrim b = b)
    (hno : hasSub CD_HEAD b = false) :
    stripEndBlock ((b ++ ['\n', '\n']) ++ (CD_OPEN ++ (J ++ CD_TERM))) = b := by
  unfold stripEndBlock
  rw [splitFirst_open b (J ++ CD_TERM) hno]
  show (if suffixOf CD_TERM (dropTrailNl (J ++ CD_TERM)) then
    dropTrailNl (b ++ ['\n', '\n'])
    else (b ++ ['\n', '\n']) ++ (CD_OPEN ++ (J ++ CD_TERM))) = b
  rw [dropTrailNl_term J, suffixOf_term J, if_pos rfl]
  exact dropTrailNl_body b hb

/-- A sample author for concrete instances. -/
def sampleAuthor : Author := ⟨"a1", "Ann", "ann@x.io"⟩

/-- A sample comment for concrete instances. -/
def sampleComment : Comment :=
  ⟨"c1", "hi", sampleAuthor, 0, 0, false, none, none, [], none, none, false,
    none, [], ""⟩

set_option maxRecDepth 10000 in
/-- C1, counterexample: the embed side trims the body
(`markdown.trim()` in `embedCommentsInMarkdown`), so a body with leading
whitespace is not reproduced by the round trip: embedding `" x"` with one
comment and extracting returns body `"x"`. -/
theorem C1_counterexample :
    (extractCommentsFromMarkdown
      (embedCommentsInMarkdown " x".data [sampleComment])).1 = "x".data ∧
    ¬ ("x".data : List Char) = " x".data := by
  constructor
  · decide
  · decide

/-- C1 (amended): for a body that equals its own trim and contains no
occurrence of the marker head `<!--MDEDIT_COMMENTS_DATA`, extraction after
embedding returns the body exactly and one runtime comment object per input
comment, whose date members hold the ISO-8601 encode/decode round trip of
the originals (`commentDecoded`); for an untrimmed body the returned body
is its trim instead (see the counterexample). -/
theorem C1_extract_embed_roundtrip (b : List Char) (cs : List Comment)
    (hb : jsTrim b = b) (hno : hasSub CD_HEAD b = false) :
    extractCommentsFromMarkdown (embedCommentsInMarkdown b cs) =
      (b, cs.map commentDecoded) := by
  cases cs with
  | nil =>
    have hemb : embedCommentsInMarkdown b [] = b := rfl
    rw [hemb]
    have hsp : splitFirst CD_OPEN b = none :=
      splitFirst_eq_none CD_OPEN b (by decide) (hasSub_open_of_head b hno)
    rw [extract_none_open b hsp]
    rfl
  | cons c0 ct =>
    have hemb : embedCommentsInMarkdown b (c0 :: ct) =
        (b ++ ['\n', '\n']) ++ (CD_OPEN ++
          (printVal 0 (Json.arr ((c0 :: ct).map encodeComment)) ++ CD_TERM)) := by
      show jsTrim b ++ ('\n' :: ('\n' :: (CD_OPEN ++
        (printVal 0 (Json.arr ((c0 :: ct).map encodeComment)) ++ CD_TERM)))) = _
      rw [hb]
      simp
    rw [hemb]
    have hwf := jsonWf_arr_encode (c0 :: ct)
    have hnp : noPair '\n' 'M'
        (printVal 0 (Json.arr ((c0 :: ct).map encodeComment))) = true :=
      noPair_printVal 0 _ hwf
    have h1 := splitFirst_open b
      (printVal 0 (Json.arr ((c0 :: ct).map encodeComment)) ++ CD_TERM) hno
    have h2 := splitFirst_term
      (printVal 0 (Json.arr ((c0 :: ct).map encodeComment))) hnp
    have h3 : parseJsonRevived
        (printVal 0 (Json.arr ((c0 :: ct).map encodeComment))) =
        some (Json.arr ((c0 :: ct).map encodeComment)) := by
      unfold parseJsonRevived
      rw [parseJson_print_wf _ hwf]
      show some (revive (Json.arr ((c0 :: ct).map encodeComment))) = _
      rw [revive_arr_encode]
    have h4 := processComments_encode (c0 :: ct)
    rw [extract_of_facts _ _ _ _ _ _ _ h1 h2 h3 h4]
    rw [stripEndBlock_embed b _ hb hno, hb]

/-- C1, witness: the round trip at a concrete trimmed body and a concrete
one-comment list. -/
theorem C1_extract_embed_roundtrip_witness :
    jsTrim "x".data = "x".data ∧ hasSub CD_HEAD "x".data = false ∧
    extractCommentsFromMarkdown (embedCommentsInMarkdown "x".data [sampleComment]) =
      ("x".data, [sampleComment].map commentDecoded) :=
  ⟨by decide, by decide,
    C1_extract_embed_roundtrip "x".data [sampleComment] (by decide) (by decide)⟩

/-- A markdown input whose comment-data block holds text that is not JSON. -/
def badBlockMd : List Char :=
  "x\n\n<!--MDEDIT_COMMENTS_DATA\nnot json\nMDEDIT_COMMENTS_DATA-->".data

set_option maxRecDepth 4000 in
/-- C4, counterexample: on a malformed (unparsable) comment-data block the
extractor returns the body UNCHANGED — the block is not stripped — so the
claim's "body unchanged except for stripping the block" fails: the stripped
body would be `"x"`. -/
theorem C4_counterexample :
    extractCommentsFromMarkdown badBlockMd = (badBlockMd, []) ∧
    ¬ badBlockMd = "x".data := by
  constructor
  · rfl
  · decide

/-- C4 (amended): extraction never throws and degrades to an empty comment
list with the body entirely unchanged — block included — whenever the block
is absent (no opening marker, or no closing marker after it), its contents
fail to parse as JSON, or the parsed top level is not an array; the claim's
"stripping the block" on the malformed paths does not happen (see the
counterexample). -/
theorem C4_malformed_degrades (md : List Char) :
    (splitFirst CD_OPEN md = none → extractCommentsFromMarkdown md = (md, [])) ∧
    (∀ pre rest, splitFirst CD_OPEN md = some (pre, rest) →
      splitFirst CD_TERM rest = none →
      extractCommentsFromMarkdown md = (md, [])) ∧
    (∀ pre rest mid post, splitFirst CD_OPEN md = some (pre, rest) →
      splitFirst CD_TERM rest = some (mid, post) → parseJsonRevived mid = none →
      extractCommentsFromMarkdown md = (md, [])) ∧
    (∀ pre rest mid post j, splitFirst CD_OPEN md = some (pre, rest) →
      splitFirst CD_TERM rest = some (mid, post) →
      parseJsonRevived mid = some j → isArrJ j = false →
      extractCommentsFromMarkdown md = (md, [])) :=
  ⟨fun h => extract_none_open md h,
   fun pre rest h1 h2 => extract_none_term md pre rest h1 h2,
   fun pre rest mid post h1 h2 h3 => extract_bad_json md pre rest mid post h1 h2 h3,
   fun pre rest mid post j h1 h2 h3 hj =>
     extract_not_array md pre rest mid post j h1 h2 h3 hj⟩

set_option maxRecDepth 4000 in
/-- C4, witness: the unparsable-block branch at the concrete input. -/
theorem C4_malformed_degrades_witness :
    splitFirst CD_OPEN badBlockMd = some ("x\n\n".data, "not json".data ++ CD_TERM) ∧
    splitFirst CD_TERM ("not json".data ++ CD_TERM) = some ("not json".data, []) ∧
    parseJsonRevived "not json".data = none ∧
    extractCommentsFromMarkdown badBlockMd = (badBlockMd, []) :=
  ⟨by decide, by decide, by rfl,
    (C4_malformed_degrades badBlockMd).2.2.1 "x\n\n".data
      ("not json".data ++ CD_TERM) "not json".data [] (by decide) (by decide)
      (by rfl)⟩

/-- The reserved object-internals key names rejected by the reviver. -/
def reservedKey (k : String) : Bool :=
  k == "__proto__" || k == "constructor" || k == "prototype"

mutual

/-- No object anywhere in the value carries a reserved own key. -/
def noResV : JsVal → Bool
  | JsVal.obj kvs => noResF kvs
  | JsVal.arr xs => noResL xs
  | _ => true

/-- `noResV` over array elements. -/
def noResL : List JsVal → Bool
  | [] => true
  | x :: xs => noResV x && noResL xs

/-- `noResV` over object members. -/
def noResF : List (String × JsVal) → Bool
  | [] => true
  | kv :: kvs => (!(reservedKey kv.1)) && noResV kv.2 && noResF kvs

end

mutual

/-- `noResV` on the JSON side. -/
def noResJ : Json → Bool
  | Json.obj kvs => noResJF kvs
  | Json.arr xs => noResJL xs
  | _ => true

/-- `noResJ` over array elements. -/
def noResJL : List Json → Bool
  | [] => true
  | x :: xs => noResJ x && noResJL xs

/-- `noResJ` over object members. -/
def noResJF : List (String × Json) → Bool
  | [] => true
  | kv :: kvs => (!(reservedKey kv.1)) && noResJ kv.2 && noResJF kvs

end

mutual

theorem noResJ_revive (j : Json) : noResJ (revive j) = true := by
  cases j with
  | obj kvs =>
    show noResJF (reviveFields kvs) = true
    exact noResJF_reviveFields kvs
  | arr xs =>
    show noResJL (reviveList xs) = true
    exact noResJL_reviveList xs
  | null => rfl
  | bool b => rfl
  | str s => rfl
  | num raw => rfl

theorem noResJL_reviveList (xs : List Json) : noResJL (reviveList xs) = true := by
  cases xs with
  | nil => rfl
  | cons x t =>
    show (noResJ (revive x) && noResJL (reviveList t)) = true
    rw [noResJ_revive x, noResJL_reviveList t]
    rfl

theorem noResJF_reviveFields (kvs : List (String × Json)) :
    noResJF (reviveFields kvs) = true := by
  cases kvs with
  | nil => rfl
  | cons kv t =>
    by_cases h : kv.1 = "__proto__" ∨ kv.1 = "constructor" ∨ kv.1 = "prototype"
    · have hr : reviveFields (kv :: t) = reviveFields t := by
        show (if kv.1 = "__proto__" ∨ kv.1 = "constructor" ∨ kv.1 = "prototype" then
          reviveFields t else (kv.1, revive kv.2) :: reviveFields t) = _
        rw [if_pos h]
      rw [hr]
      exact noResJF_reviveFields t
    · have hr : reviveFields (kv :: t) = (kv.1, revive kv.2) :: reviveFields t :=
        reviveFields_keep kv.1 kv.2 t h
      rw [hr]
      push_neg at h
      obtain ⟨h1, h2, h3⟩ := h
      show ((!(reservedKey kv.1)) && noResJ (revive kv.2) &&
        noResJF (reviveFields t)) = true
      have hres : reservedKey kv.1 = false := by
        unfold reservedKey
        rw [beq_eq_false_iff_ne.mpr h1, beq_eq_false_iff_ne.mpr h2,
          beq_eq_false_iff_ne.mpr h3]
        rfl
      rw [hres, noResJ_revive kv.2, noResJF_reviveFields t]
      rfl

end

mutual

theorem noResV_j2v (j : Json) (h : noResJ j = true) : noResV (j2v j) = true := by
  cases j with
  | obj kvs =>
    show noResF (j2vFields kvs) = true
    exact noResF_j2vFields kvs h
  | arr xs =>
    show noResL (j2vList xs) = true
    exact noResL_j2vList xs h
  | null => rfl
  | bool b => rfl
  | str s => rfl
  | num raw => rfl

theorem noResL_j2vList (xs : List Json) (h : noResJL xs = true) :
    noResL (j2vList xs) = true := by
  cases xs with
  | nil => rfl
  | cons x t =>
    have h2 : (noResJ x && noResJL t) = true := h
    show (noResV (j2v x) && noResL (j2vList t)) = true
    rw [noResV_j2v x (Bool.and_eq_true_iff.mp h2).1,
      noResL_j2vList t (Bool.and_eq_true_iff.mp h2).2]
    rfl

theorem noResF_j2vFields (kvs : List (String × Json)) (h : noResJF kvs = true) :
    noResF (j2vFields kvs) = true := by
  cases kvs with
  | nil => rfl
  | cons kv t =>
    have h2 : ((!(reservedKey kv.1)) && noResJ kv.2 && noResJF t) = true := h
    have ha := (Bool.and_eq_true_iff.mp h2).1
    have hb := (Bool.and_eq_true_iff.mp h2).2
    show ((!(reservedKey kv.1)) && noResV (j2v kv.2) && noResF (j2vFields t)) = true
    rw [(Bool.and_eq_true_iff.mp ha).1,
      noResV_j2v kv.2 (Bool.and_eq_true_iff.mp ha).2, noResF_j2vFields t hb]
    rfl

end

theorem toDigitsCore_digits : ∀ (f n : Nat) (acc : List Char),
    (∀ c ∈ acc, c.isDigit = true) →
    ∀ c ∈ Nat.toDigitsCore 10 f n acc, c.isDigit = true := by
  intro f
  induction f with
  | zero =>
    intro n acc hacc c hc
    exact hacc c hc
  | succ g ih =>
    intro n acc hacc c hc
    have hdig : (Nat.digitChar (n % 10)).isDigit = true := by
      have hm : n % 10 < 10 := Nat.mod_lt _ (by omega)
      have hall : ∀ m, m < 10 → (Nat.digitChar m).isDigit = true := by decide
      exact hall _ hm
    have hacc2 : ∀ e ∈ Nat.digitChar (n % 10) :: acc, e.isDigit = true := by
      intro e he
      rcases List.mem_cons.mp he with h | h
      · rw [h]; exact hdig
      · exact hacc e h
    by_cases hz : n / 10 = 0
    · have hstep : Nat.toDigitsCore 10 (g + 1) n acc =
          Nat.digitChar (n % 10) :: acc := by
        show (if n / 10 = 0 then Nat.digitChar (n % 10) :: acc
          else Nat.toDigitsCore 10 g (n / 10) (Nat.digitChar (n % 10) :: acc)) = _
        rw [if_pos hz]
      rw [hstep] at hc
      exact hacc2 c hc
    · have hstep : Nat.toDigitsCore 10 (g + 1) n acc =
          Nat.toDigitsCore 10 g (n / 10) (Nat.digitChar (n % 10) :: acc) := by
        show (if n / 10 = 0 then Nat.digitChar (n % 10) :: acc
          else Nat.toDigitsCore 10 g (n / 10) (Nat.digitChar (n % 10) :: acc)) = _
        rw [if_neg hz]
      rw [hstep] at hc
      exact ih (n / 10) _ hacc2 c hc

theorem natStr_digits (n : Nat) : ∀ c ∈ (toString n).data, c.isDigit = true := by
  intro c hc
  have h1 : (toString n).data = Nat.toDigitsCore 10 (n + 1) n [] := rfl
  rw [h1] at hc
  exact toDigitsCore_digits (n + 1) n []
    (fun e he => absurd he (List.not_mem_nil e)) c hc

theorem reservedKey_natStr (n : Nat) : reservedKey (toString n) = false := by
  have hd := natStr_digits n
  unfold reservedKey
  have h1 : (toString n == "__proto__") = false := by
    rw [beq_eq_false_iff_ne]
    intro he
    have : '_' ∈ (toString n).data := by
      rw [he]
      decide
    have := hd '_' this
    exact absurd this (by decide)
  have h2 : (toString n == "constructor") = false := by
    rw [beq_eq_false_iff_ne]
    intro he
    have : 'c' ∈ (toString n).data := by
      rw [he]
      decide
    have := hd 'c' this
    exact absurd this (by decide)
  have h3 : (toString n == "prototype") = false := by
    rw [beq_eq_false_iff_ne]
    intro he
    have : 'p' ∈ (toString n).data := by
      rw [he]
      decide
    have := hd 'p' this
    exact absurd this (by decide)
  rw [h1, h2, h3]
  rfl

theorem noResF_append (a b : List (String × JsVal)) :
    noResF (a ++ b) = (noResF a && noResF b) := by
  induction a with
  | nil => simp [noResF]
  | cons kv t ih =>
    show ((!(reservedKey kv.1)) && noResV kv.2 && noResF (t ++ b)) =
      (((!(reservedKey kv.1)) && noResV kv.2 && noResF t) && noResF b)
    rw [ih]
    simp [Bool.and_assoc]

theorem setOwn_noRes (m : List (String × JsVal)) (k : String) (v : JsVal)
    (hm : noResF m = true) (hk : reservedKey k = false) (hv : noResV v = true) :
    noResF (setOwn m k v) = true := by
  unfold setOwn
  by_cases h : m.any (fun e => e.1 == k) = true
  · rw [if_pos h]
    clear h
    induction m with
    | nil => rfl
    | cons e es ih =>
      have h2 : ((!(reservedKey e.1)) && noResV e.2 && noResF es) = true := hm
      have ha := (Bool.and_eq_true_iff.mp h2).1
      have hb := (Bool.and_eq_true_iff.mp h2).2
      show noResF ((if e.1 == k then (k, v) else e) :: _) = true
      by_cases he : e.1 == k
      · rw [if_pos he]
        show ((!(reservedKey k)) && noResV v && _) = true
        rw [hk, hv, ih hb]
        rfl
      · rw [if_neg he]
        show ((!(reservedKey e.1)) && noResV e.2 && _) = true
        rw [(Bool.and_eq_true_iff.mp ha).1, (Bool.and_eq_true_iff.mp ha).2, ih hb]
        rfl
  · rw [if_neg h]
    rw [noResF_append]
    refine Bool.and_eq_true_iff.mpr ⟨hm, ?_⟩
    show ((!(reservedKey k)) && noResV v && true) = true
    rw [hk, hv]
    rfl

theorem mergePairs_noRes (ps : List (String × JsVal)) (hp : noResF ps = true) :
    noResF (mergePairs ps) = true := by
  have hgo : ∀ (qs acc : List (String × JsVal)), noResF qs = true →
      noResF acc = true →
      noResF (qs.foldl (fun a e => setOwn a e.1 e.2) acc) = true := by
    intro qs
    induction qs with
    | nil =>
      intro acc _ ha
      exact ha
    | cons e es ih =>
      intro acc hq ha
      have h2 : ((!(reservedKey e.1)) && noResV e.2 && noResF es) = true := hq
      have hk := (Bool.and_eq_true_iff.mp (Bool.and_eq_true_iff.mp h2).1).1
      have hv := (Bool.and_eq_true_iff.mp (Bool.and_eq_true_iff.mp h2).1).2
      have hes := (Bool.and_eq_true_iff.mp h2).2
      rw [List.foldl_cons]
      exact ih (setOwn acc e.1 e.2) hes
        (setOwn_noRes acc e.1 e.2 ha (by rwa [Bool.not_eq_true'] at hk) hv)
  exact hgo ps [] hp rfl

theorem noResF_enum_arr : ∀ (n : Nat) (xs : List JsVal), noResL xs = true →
    noResF ((List.enumFrom n xs).map (fun e => (toString e.1, e.2))) = true := by
  intro n xs
  induction xs generalizing n with
  | nil =>
    intro _
    rfl
  | cons x t ih =>
    intro h
    have h2 : (noResV x && noResL t) = true := h
    show ((!(reservedKey (toString n))) && noResV x && _) = true
    rw [reservedKey_natStr n, (Bool.and_eq_true_iff.mp h2).1,
      ih (n + 1) (Bool.and_eq_true_iff.mp h2).2]
    rfl

theorem noResF_enum_str : ∀ (n : Nat) (cs : List Char),
    noResF ((List.enumFrom n cs).map
      (fun e => (toString e.1, JsVal.str (String.mk [e.2])))) = true := by
  intro n cs
  induction cs generalizing n with
  | nil => rfl
  | cons c t ih =>
    show ((!(reservedKey (toString n))) && noResV (JsVal.str (String.mk [c])) &&
      _) = true
    rw [reservedKey_natStr n, ih (n + 1)]
    rfl

theorem spreadOwn_noRes (v : JsVal) (hv : noResV v = true) :
    noResF (spreadOwn v) = true := by
  cases v with
  | obj kvs => exact hv
  | arr xs => exact noResF_enum_arr 0 xs hv
  | str s => exact noResF_enum_str 0 s.data
  | null => rfl
  | bool b => rfl
  | num raw => rfl
  | date d => rfl

theorem optDateVal_noRes (x : Option JsVal) : noResV (optDateVal x) = true := by
  cases x with
  | none => rfl
  | some w =>
    show noResV (if jsTruthyV w then JsVal.date (jsNewDate (some w))
      else JsVal.null) = true
    by_cases h : jsTruthyV w = true
    · rw [if_pos h]
      rfl
    · rw [if_neg h]
      rfl

theorem processReply_noRes (r w : JsVal) (hok : processReply r = Except.ok w)
    (hv : noResV r = true) : noResV w = true := by
  have hstep : processReply r = Except.ok (JsVal.obj (mergePairs (spreadOwn r ++
      [("createdAt", JsVal.date (jsNewDate (vGet r "createdAt")))]))) ∨
      processReply r = Except.error () := by
    cases r
    all_goals first | exact Or.inl rfl | exact Or.inr rfl
  rcases hstep with hs | hs
  · rw [hs] at hok
    injection hok with hw2
    rw [← hw2]
    show noResF (mergePairs _) = true
    apply mergePairs_noRes
    rw [noResF_append]
    refine Bool.and_eq_true_iff.mpr ⟨spreadOwn_noRes r hv, ?_⟩
    rfl
  · rw [hs] at hok
    exact absurd hok (by simp)

theorem exMap_preserve (f : JsVal → Except Unit JsVal) (P : JsVal → Bool)
    (hf : ∀ x w, f x = Except.ok w → P x = true → P w = true) :
    ∀ (l : List JsVal) (out : List JsVal), exMap f l = Except.ok out →
      (∀ x ∈ l, P x = true) → ∀ w ∈ out, P w = true := by
  intro l
  induction l with
  | nil =>
    intro out hout hin w hw
    have hnil : ([] : List JsVal) = out := by
      have h : Except.ok ([] : List JsVal) = Except.ok out := hout
      injection h
    rw [← hnil] at hw
    exact absurd hw (List.not_mem_nil w)
  | cons x xs ih =>
    intro out hout hin w hw
    have hstep : exMap f (x :: xs) =
        (match f x with
         | Except.error e => Except.error e
         | Except.ok y =>
           match exMap f xs with
           | Except.error e => Except.error e
           | Except.ok ys => Except.ok (y :: ys)) := rfl
    rw [hstep] at hout
    cases hfx : f x with
    | error e =>
      rw [hfx] at hout
      exact absurd hout (by simp)
    | ok y =>
      rw [hfx] at hout
      cases hrest : exMap f xs with
      | error e =>
        rw [hrest] at hout
        exact absurd hout (by simp)
      | ok ys =>
        rw [hrest] at hout
        have hcons : y :: ys = out := by
          have h : Except.ok (y :: ys) = Except.ok out := hout
          injection h
        rw [← hcons] at hw
        rcases List.mem_cons.mp hw with h | h
        · rw [h]
          exact hf x y hfx (hin x (by simp))
        · exact ih ys hrest (fun e he => hin e (by simp [he])) w h

theorem getOwn_noRes (kvs : List (String × JsVal)) (k : String) (u : JsVal)
    (hm : noResF kvs = true) (hg : getOwn kvs k = some u) : noResV u = true := by
  induction kvs with
  | nil => simp [getOwn] at hg
  | cons e es ih =>
    have h2 : ((!(reservedKey e.1)) && noResV e.2 && noResF es) = true := hm
    have hv := (Bool.and_eq_true_iff.mp (Bool.and_eq_true_iff.mp h2).1).2
    have hes := (Bool.and_eq_true_iff.mp h2).2
    unfold getOwn at hg
    rw [List.find?_cons] at hg
    by_cases he : (e.1 == k) = true
    · rw [he] at hg
      have h3 : e.2 = u := by simpa using hg
      rw [← h3]
      exact hv
    · have he2 : (e.1 == k) = false := by
        cases hx : (e.1 == k) with
        | true => exact absurd hx he
        | false => rfl
      rw [he2] at hg
      exact ih hes hg

theorem noResL_mem (xs : List JsVal) (h : noResL xs = true) :
    ∀ x ∈ xs, noResV x = true := by
  induction xs with
  | nil =>
    intro x hx
    exact absurd hx (List.not_mem_nil x)
  | cons y ys ih =>
    intro x hx
    have h2 : (noResV y && noResL ys) = true := h
    rcases List.mem_cons.mp hx with hh | hh
    · rw [hh]
      exact (Bool.and_eq_true_iff.mp h2).1
    · exact ih (Bool.and_eq_true_iff.mp h2).2 x hh

theorem noResL_of_mem (xs : List JsVal) (h : ∀ x ∈ xs, noResV x = true) :
    noResL xs = true := by
  induction xs with
  | nil => rfl
  | cons y ys ih =>
    show (noResV y && noResL ys) = true
    rw [h y (by simp), ih (fun e he => h e (by simp [he]))]
    rfl

set_option maxHeartbeats 800000 in
theorem processComment_noRes (v w : JsVal) (hok : processComment v = Except.ok w)
    (hv : noResV v = true) : noResV w = true := by
  have hcl : (∃ kvs, v = JsVal.obj kvs) ∨ processComment v = Except.error () := by
    cases v
    all_goals first | exact Or.inl ⟨_, rfl⟩ | exact Or.inr rfl
  rcases hcl with ⟨kvs, rfl⟩ | hs
  · have hstep : processComment (JsVal.obj kvs) =
        (match vGet (JsVal.obj kvs) "replies" with
         | some (JsVal.arr rs) =>
           match exMap processReply rs with
           | Except.error e => Except.error e
           | Except.ok reps =>
             Except.ok (JsVal.obj (mergePairs (spreadOwn (JsVal.obj kvs) ++
               [("createdAt", JsVal.date (jsNewDate
                  (vGet (JsVal.obj kvs) "createdAt"))),
                ("updatedAt", JsVal.date (jsNewDate
                  (vGet (JsVal.obj kvs) "updatedAt"))),
                ("resolvedAt", optDateVal (vGet (JsVal.obj kvs) "resolvedAt")),
                ("taskDueDate", optDateVal (vGet (JsVal.obj kvs) "taskDueDate")),
                ("replies", JsVal.arr reps)])))
         | _ => Except.error ()) := rfl
    rw [hstep] at hok
    cases hrg : vGet (JsVal.obj kvs) "replies" with
    | none =>
      rw [hrg] at hok
      exact absurd hok (by simp)
    | some u =>
      rw [hrg] at hok
      cases u with
      | arr rs =>
        have hok2 : (match exMap processReply rs with
           | Except.error e => Except.error e
           | Except.ok reps =>
             Except.ok (JsVal.obj (mergePairs (spreadOwn (JsVal.obj kvs) ++
               [("createdAt", JsVal.date (jsNewDate
                  (vGet (JsVal.obj kvs) "createdAt"))),
                ("updatedAt", JsVal.date (jsNewDate
                  (vGet (JsVal.obj kvs) "updatedAt"))),
                ("resolvedAt", optDateVal (vGet (JsVal.obj kvs) "resolvedAt")),
                ("taskDueDate", optDateVal (vGet (JsVal.obj kvs) "taskDueDate")),
                ("replies", JsVal.arr reps)])))) = Except.ok w := hok
        clear hok
        cases hex : exMap processReply rs with
        | error e =>
          rw [hex] at hok2
          exact absurd hok2 (by simp)
        | ok reps =>
          rw [hex] at hok2
          simp only [Except.ok.injEq] at hok2
          rw [← hok2]
          show noResF (mergePairs _) = true
          apply mergePairs_noRes
          rw [noResF_append]
          refine Bool.and_eq_true_iff.mpr ⟨spreadOwn_noRes _ hv, ?_⟩
          have hrs : noResL rs = true := getOwn_noRes kvs "replies" _ hv hrg
          have hreps : noResL reps = true :=
            noResL_of_mem reps
              (exMap_preserve processReply noResV
                (fun x y hxy hx => processReply_noRes x y hxy hx)
                rs reps hex (noResL_mem rs hrs))
          show noResF [("createdAt", JsVal.date (jsNewDate
              (vGet (JsVal.obj kvs) "createdAt"))),
            ("updatedAt", JsVal.date (jsNewDate
              (vGet (JsVal.obj kvs) "updatedAt"))),
            ("resolvedAt", optDateVal (vGet (JsVal.obj kvs) "resolvedAt")),
            ("taskDueDate", optDateVal (vGet (JsVal.obj kvs) "taskDueDate")),
            ("replies", JsVal.arr reps)] = true
          refine Bool.and_eq_true_iff.mpr ⟨Bool.and_eq_true_iff.mpr ⟨rfl, rfl⟩, ?_⟩
          refine Bool.and_eq_true_iff.mpr ⟨Bool.and_eq_true_iff.mpr ⟨rfl, rfl⟩, ?_⟩
          refine Bool.and_eq_true_iff.mpr
            ⟨Bool.and_eq_true_iff.mpr ⟨rfl, optDateVal_noRes _⟩, ?_⟩
          refine Bool.and_eq_true_iff.mpr
            ⟨Bool.and_eq_true_iff.mpr ⟨rfl, optDateVal_noRes _⟩, ?_⟩
          refine Bool.and_eq_true_iff.mpr
            ⟨Bool.and_eq_true_iff.mpr ⟨rfl, ?_⟩, rfl⟩
          exact hreps
      | null => exact absurd hok (by simp)
      | bool b => exact absurd hok (by simp)
      | str s => exact absurd hok (by simp)
      | num raw => exact absurd hok (by simp)
      | date d => exact absurd hok (by simp)
      | obj kvs2 => exact absurd hok (by simp)
  · rw [hs] at hok
    exact absurd hok (by simp)

theorem extract_proc_error (md pre rest mid post : List Char) (xs : List Json)
    (e : Unit)
    (h1 : splitFirst CD_OPEN md = some (pre, rest))
    (h2 : splitFirst CD_TERM rest = some (mid, post))
    (h3 : parseJsonRevived mid = some (Json.arr xs))
    (h4 : processComments xs = Except.error e) :
    extractCommentsFromMarkdown md = (md, []) := by
  unfold extractCommentsFromMarkdown
  rw [h1]
  show (match splitFirst CD_TERM rest with
    | none => (md, [])
    | some (mid, _) =>
      match parseJsonRevived mid with
      | none => (md, [])
      | some j =>
        match j with
        | Json.arr xs =>
          match processComments xs with
          | Except.error _ => (md, [])
          | Except.ok vs => (jsTrim (stripEndBlock md), vs)
        | _ => (md, [])) = (md, [])
  rw [h2]
  show (match parseJsonRevived mid with
    | none => (md, [])
    | some j =>
      match j with
      | Json.arr xs =>
        match processComments xs with
        | Except.error _ => (md, [])
        | Except.ok vs => (jsTrim (stripEndBlock md), vs)
      | _ => (md, [])) = (md, [])
  rw [h3]
  show (match processComments xs with
    | Except.error _ => (md, [])
    | Except.ok vs => (jsTrim (stripEndBlock md), vs)) = (md, [])
  rw [h4]

theorem noResJL_mem (xs : List Json) (h : noResJL xs = true) :
    ∀ x ∈ xs, noResJ x = true := by
  induction xs with
  | nil =>
    intro x hx
    exact absurd hx (List.not_mem_nil x)
  | cons y ys ih =>
    intro x hx
    have h2 : (noResJ y && noResJL ys) = true := h
    rcases List.mem_cons.mp hx with hh | hh
    · rw [hh]
      exact (Bool.and_eq_true_iff.mp h2).1
    · exact ih (Bool.and_eq_true_iff.mp h2).2 x hh

/-- C6: no object anywhere in the comment structure
`extractCommentsFromMarkdown` returns carries an own key named `__proto__`,
`constructor` or `prototype` — the `JSON.parse` reviver deletes those
members during decode, and the subsequent `Date`-rebuilding spread only
adds the fixed date/replies keys (with array/string spreads contributing
only decimal index keys). -/
theorem C6_no_reserved_keys (md : List Char) :
    ∀ v ∈ (extractCommentsFromMarkdown md).2, noResV v = true := by
  intro v hv
  cases h1 : splitFirst CD_OPEN md with
  | none =>
    rw [extract_none_open md h1] at hv
    exact absurd hv (List.not_mem_nil v)
  | some pr =>
    obtain ⟨pre, rest⟩ := pr
    cases h2 : splitFirst CD_TERM rest with
    | none =>
      rw [extract_none_term md pre rest h1 h2] at hv
      exact absurd hv (List.not_mem_nil v)
    | some pr2 =>
      obtain ⟨mid, post⟩ := pr2
      cases h3 : parseJsonRevived mid with
      | none =>
        rw [extract_bad_json md pre rest mid post h1 h2 h3] at hv
        exact absurd hv (List.not_mem_nil v)
      | some j =>
        cases j with
        | arr xs =>
          cases h4 : processComments xs with
          | error e =>
            rw [extract_proc_error md pre rest mid post xs e h1 h2 h3 h4] at hv
            exact absurd hv (List.not_mem_nil v)
          | ok vs =>
            rw [extract_of_facts md pre rest mid post xs vs h1 h2 h3 h4] at hv
            have hxs : noResJL xs = true := by
              unfold parseJsonRevived at h3
              cases hp : parseJson mid with
              | none =>
                rw [hp] at h3
                exact absurd h3 (by simp)
              | some j0 =>
                rw [hp] at h3
                have h5 : revive j0 = Json.arr xs := by
                  simp only [Option.map] at h3
                  injection h3
                have h6 := noResJ_revive j0
                rw [h5] at h6
                exact h6
            exact exMap_preserve processComment noResV
              (fun x y hxy hx => processComment_noRes x y hxy hx)
              (xs.map j2v) vs h4
              (by
                intro x hx
                rcases List.mem_map.mp hx with ⟨x0, hx0, hxe⟩
                rw [← hxe]
                exact noResV_j2v x0 (noResJL_mem xs hxs x0 hx0)) v hv
        | null =>
          rw [extract_not_array md pre rest mid post _ h1 h2 h3 rfl] at hv
          exact absurd hv (List.not_mem_nil v)
        | bool b =>
          rw [extract_not_array md pre rest mid post _ h1 h2 h3 rfl] at hv
          exact absurd hv (List.not_mem_nil v)
        | str s =>
          rw [extract_not_array md pre rest mid post _ h1 h2 h3 rfl] at hv
          exact absurd hv (List.not_mem_nil v)
        | num raw =>
          rw [extract_not_array md pre rest mid post _ h1 h2 h3 rfl] at hv
          exact absurd hv (List.not_mem_nil v)
        | obj kvs =>
          rw [extract_not_array md pre rest mid post _ h1 h2 h3 rfl] at hv
          exact absurd hv (List.not_mem_nil v)

/-- A markdown input carrying one minimal decodable comment object. -/
def c6md : List Char :=
  "y\n\n<!--MDEDIT_COMMENTS_DATA\n[\x7b\"replies\": []\x7d]\nMDEDIT_COMMENTS_DATA-->".data

/-- The runtime comment object extraction produces for `c6md`. -/
def c6val : JsVal :=
  JsVal.obj [("replies", JsVal.arr []), ("createdAt", JsVal.date none),
    ("updatedAt", JsVal.date none), ("resolvedAt", JsVal.null),
    ("taskDueDate", JsVal.null)]

set_option maxRecDepth 4000 in
/-- C6, witness: the reserved-key freedom of a concretely extracted
comment object. -/
theorem C6_no_reserved_keys_witness :
    c6val ∈ (extractCommentsFromMarkdown c6md).2 ∧ noResV c6val = true := by
  have he : (extractCommentsFromMarkdown c6md).2 = [c6val] := rfl
  have hmem : c6val ∈ (extractCommentsFromMarkdown c6md).2 := by
    rw [he]
    exact List.mem_cons_self _ _
  exact ⟨hmem, C6_no_reserved_keys c6md c6val hmem⟩

/-! ### C10 — the comment store's absent-id behaviour (`commentStore.ts`)

The store keeps `comments: Record<string, Comment>`.  A `Record` is a plain
object, so the guard read `state.comments[id]` falls back to
`Object.prototype` when `id` is not an own key: for property names inherited
from `Object.prototype` it yields a (truthy) object or function with no own
enumerable properties, not `undefined`.  The embedding models the stored
values as untyped `JsVal` objects to capture exactly this. -/

/-- The enumerable-by-name properties every plain object inherits from
`Object.prototype`; reading `comments[id]` for these ids yields a truthy
function/object instead of `undefined`. -/
def objectProtoKeys : List String :=
  ["constructor", "hasOwnProperty", "isPrototypeOf", "propertyIsEnumerable",
   "toLocaleString", "toString", "valueOf", "__proto__",
   "__defineGetter__", "__defineSetter__", "__lookupGetter__", "__lookupSetter__"]

/-- Result of the guard read `const comment = state.comments[id]` combined
with the truthiness test `if (!comment)`: an own truthy value, a truthy
`Object.prototype` member (no own enumerable properties), or falsy. -/
inductive Hit where
  | own (v : JsVal)
  | proto
  | miss

/-- `state.comments[id]` followed by the `!comment` guard. -/
def jsIndex (m : List (String × JsVal)) (id : String) : Hit :=
  match getOwn m id with
  | some v => if jsTruthyV v then Hit.own v else Hit.miss
  | none => if id ∈ objectProtoKeys then Hit.proto else Hit.miss

/-- `update(id, updates)` from `commentStore.ts`: spread the found comment,
spread the partial updates, stamp `updatedAt`.  `now` models `new Date()`. -/
def storeUpdate (m : List (String × JsVal)) (id : String)
    (updates : List (String × JsVal)) (now : JsDate) : List (String × JsVal) :=
  match jsIndex m id with
  | Hit.miss => m
  | Hit.own v =>
    setOwn m id (JsVal.obj (mergePairs (spreadOwn v ++ updates ++ [("updatedAt", JsVal.date now)])))
  | Hit.proto =>
    setOwn m id (JsVal.obj (mergePairs (updates ++ [("updatedAt", JsVal.date now)])))

/-- `resolve(id)`: sets `resolved`, `resolvedBy`, `resolvedAt`, `updatedAt`.
`author` is the current user (or the anonymous sentinel) as a JS object. -/
def storeResolve (m : List (String × JsVal)) (id : String) (author : JsVal)
    (now : JsDate) : List (String × JsVal) :=
  match jsIndex m id with
  | Hit.miss => m
  | Hit.own v =>
    setOwn m id (JsVal.obj (mergePairs (spreadOwn v ++
      [("resolved", JsVal.bool true), ("resolvedBy", author),
       ("resolvedAt", JsVal.date now), ("updatedAt", JsVal.date now)])))
  | Hit.proto =>
    setOwn m id (JsVal.obj (mergePairs
      [("resolved", JsVal.bool true), ("resolvedBy", author),
       ("resolvedAt", JsVal.date now), ("updatedAt", JsVal.date now)]))

/-- `unresolve(id)`. -/
def storeUnresolve (m : List (String × JsVal)) (id : String)
    (now : JsDate) : List (String × JsVal) :=
  match jsIndex m id with
  | Hit.miss => m
  | Hit.own v =>
    setOwn m id (JsVal.obj (mergePairs (spreadOwn v ++
      [("resolved", JsVal.bool false), ("resolvedBy", JsVal.null),
       ("resolvedAt", JsVal.null), ("updatedAt", JsVal.date now)])))
  | Hit.proto =>
    setOwn m id (JsVal.obj (mergePairs
      [("resolved", JsVal.bool false), ("resolvedBy", JsVal.null),
       ("resolvedAt", JsVal.null), ("updatedAt", JsVal.date now)]))

/-- `addReply(commentId, text, mentions)`: returns the created reply, or
`null` when the guard read is falsy.  `newId` models `uuidv4()`.  On an
inherited-prototype hit `comment.replies` is `undefined` and the array spread
`[...comment.replies, reply]` throws (`Except.error`). -/
def storeAddReply (m : List (String × JsVal)) (commentId text : String)
    (mentions author : JsVal) (newId : String) (now : JsDate) :
    Except Unit (List (String × JsVal) × Option JsVal) :=
  match jsIndex m commentId with
  | Hit.miss => .ok (m, none)
  | Hit.proto => .error ()
  | Hit.own v =>
    let reply : JsVal := JsVal.obj
      [("id", JsVal.str newId), ("text", JsVal.str text), ("author", author),
       ("createdAt", JsVal.date now), ("mentions", mentions)]
    match vGet v "replies" with
    | some (JsVal.arr rs) =>
      .ok (setOwn m commentId (JsVal.obj (mergePairs (spreadOwn v ++
        [("replies", JsVal.arr (rs ++ [reply])), ("updatedAt", JsVal.date now)]))), some reply)
    | some (JsVal.str s) =>
      .ok (setOwn m commentId (JsVal.obj (mergePairs (spreadOwn v ++
        [("replies", JsVal.arr ((s.data.map (fun c => JsVal.str (String.mk [c]))) ++ [reply])),
         ("updatedAt", JsVal.date now)]))), some reply)
    | _ => .error ()

/-- Strict equality `x === s` between a property-access result and a JS
string: true only when the value is that string. -/
def strictEqStr (x : Option JsVal) (s : String) : Bool :=
  match x with
  | some (JsVal.str t) => t == s
  | _ => false

/-- `r.id !== replyId` inside `deleteReply`'s filter callback; a `null`
element throws on the property access. -/
def replyKeep (replyId : String) (r : JsVal) : Except Unit Bool :=
  match r with
  | JsVal.null => .error ()
  | _ => .ok (!(strictEqStr (vGet r "id") replyId))

/-- `Array.prototype.filter` with a callback that may throw. -/
def exFilter (f : JsVal → Except Unit Bool) : List JsVal → Except Unit (List JsVal)
  | [] => .ok []
  | x :: xs => do
    let keep ← f x
    let rest ← exFilter f xs
    if keep then return x :: rest else return rest

/-- `deleteReply(commentId, replyId)`.  Non-array `comment.replies`
(including the inherited-prototype `undefined`) throws on `.filter`. -/
def storeDeleteReply (m : List (String × JsVal)) (commentId replyId : String)
    (now : JsDate) : Except Unit (List (String × JsVal)) :=
  match jsIndex m commentId with
  | Hit.miss => .ok m
  | Hit.proto => .error ()
  | Hit.own v =>
    match vGet v "replies" with
    | some (JsVal.arr rs) => do
      let rs' ← exFilter (replyKeep replyId) rs
      return setOwn m commentId (JsVal.obj (mergePairs (spreadOwn v ++
        [("replies", JsVal.arr rs'), ("updatedAt", JsVal.date now)])))
    | _ => .error ()

/-- `assignTask(id, assignee, dueDate?)`: sets `assignedTo`,
`taskDueDate` (`dueDate || null`), clears `taskCompleted`, stamps
`updatedAt`. -/
def storeAssignTask (m : List (String × JsVal)) (id : String) (assignee : JsVal)
    (dueDate : Option JsDate) (now : JsDate) : List (String × JsVal) :=
  let due : JsVal := match dueDate with
    | some d => JsVal.date d
    | none => JsVal.null
  match jsIndex m id with
  | Hit.miss => m
  | Hit.own v =>
    setOwn m id (JsVal.obj (mergePairs (spreadOwn v ++
      [("assignedTo", assignee), ("taskDueDate", due),
       ("taskCompleted", JsVal.bool false), ("updatedAt", JsVal.date now)])))
  | Hit.proto =>
    setOwn m id (JsVal.obj (mergePairs
      [("assignedTo", assignee), ("taskDueDate", due),
       ("taskCompleted", JsVal.bool false), ("updatedAt", JsVal.date now)]))

/-- `completeTask(id)`. -/
def storeCompleteTask (m : List (String × JsVal)) (id : String)
    (now : JsDate) : List (String × JsVal) :=
  match jsIndex m id with
  | Hit.miss => m
  | Hit.own v =>
    setOwn m id (JsVal.obj (mergePairs (spreadOwn v ++
      [("taskCompleted", JsVal.bool true), ("updatedAt", JsVal.date now)])))
  | Hit.proto =>
    setOwn m id (JsVal.obj (mergePairs
      [("taskCompleted", JsVal.bool true), ("updatedAt", JsVal.date now)]))

/-- `uncompleteTask(id)`. -/
def storeUncompleteTask (m : List (String × JsVal)) (id : String)
    (now : JsDate) : List (String × JsVal) :=
  match jsIndex m id with
  | Hit.miss => m
  | Hit.own v =>
    setOwn m id (JsVal.obj (mergePairs (spreadOwn v ++
      [("taskCompleted", JsVal.bool false), ("updatedAt", JsVal.date now)])))
  | Hit.proto =>
    setOwn m id (JsVal.obj (mergePairs
      [("taskCompleted", JsVal.bool false), ("updatedAt", JsVal.date now)]))

/-- Counterexample to claim C10 as stated: `"constructor"` is not present in
an empty store, yet `resolve("constructor")` changes the comments map
(the guard read `state.comments[id]` finds the truthy inherited
`Object.prototype.constructor`), and `addReply("constructor", …)` throws
instead of returning `null`. -/
theorem C10_counterexample :
    getOwn ([] : List (String × JsVal)) "constructor" = none ∧
    (storeResolve [] "constructor" JsVal.null (some 0)).length = 1 ∧
    storeAddReply [] "constructor" "hi" (JsVal.arr []) JsVal.null "r1" (some 0) = .error () := by
  refine ⟨rfl, rfl, rfl⟩

/-- Claim C10, amended: every comment-store mutating operation invoked with an
id that is neither an own key of the map nor an `Object.prototype` property
name leaves the comments map unchanged, and `addReply` additionally returns
`null` (for inherited prototype names the guard is truthy: the object-valued
operations insert a stray entry and `addReply`/`deleteReply` throw). -/
theorem C10_absent_id_noop (m : List (String × JsVal)) (id : String)
    (hown : getOwn m id = none) (hproto : id ∉ objectProtoKeys)
    (updates : List (String × JsVal)) (text newId replyId : String)
    (mentions author assignee : JsVal) (dueDate : Option JsDate) (now : JsDate) :
    storeUpdate m id updates now = m ∧
    storeResolve m id author now = m ∧
    storeUnresolve m id now = m ∧
    storeAddReply m id text mentions author newId now = .ok (m, none) ∧
    storeDeleteReply m id replyId now = .ok m ∧
    storeAssignTask m id assignee dueDate now = m ∧
    storeCompleteTask m id now = m ∧
    storeUncompleteTask m id now = m := by
  have hmiss : jsIndex m id = Hit.miss := by
    unfold jsIndex
    rw [hown]
    simp [hproto]
  refine ⟨?_, ?_, ?_, ?_, ?_, ?_, ?_, ?_⟩ <;>
    simp [storeUpdate, storeResolve, storeUnresolve, storeAddReply, storeDeleteReply,
      storeAssignTask, storeCompleteTask, storeUncompleteTask, hmiss]

/-- Witness for C10's amended theorem on a concrete one-entry store and a
fresh id. -/
theorem C10_absent_id_noop_witness :
    storeResolve [("c1", JsVal.obj [])] "c2" JsVal.null (some 0) = [("c1", JsVal.obj [])] :=
  (C10_absent_id_noop [("c1", JsVal.obj [])] "c2" (by rfl) (by decide)
    [] "" "" "" JsVal.null JsVal.null JsVal.null none (some 0)).2.1



end Mdedit
